import Mathlib

/-!
# StratifyAPI: a verification development

Shallow embedding of parts of StratifyAPI (chrono::MicroTime, Calc::Ema,
calc::Lookup, draw::DrawingScaledAttr, Fmt::Xml) and theorems about them.

Machine integers are `Nat`/`Int` with explicit reduction modulo `2^w`.
-/

namespace StratifyAPI

/-! ## Machine integers -/

/-- Conversion of a non-negative value to `u32` (reduction modulo 2^32). -/
def to_u32 (n : Nat) : Nat := n % 2 ^ 32

/-- Conversion of an integer to a signed two's complement type of `w` bits. -/
def to_signed (w : Nat) (v : Int) : Int :=
  (v + 2 ^ (w - 1)) % 2 ^ w - 2 ^ (w - 1)

/-! ## draw::DrawingScaledAttr (include/draw/Drawing.hpp) -/

/-- The type `sg_point_t`: a point on the bitmap. -/
structure sg_point_t where
  x : Int
  y : Int
  deriving DecidableEq

/-- The type `sg_dim_t`: width and height. -/
structure sg_dim_t where
  width : Nat
  height : Nat
  deriving DecidableEq

/-- The type `sg_region_t`: a point and its dimensions. -/
structure sg_region_t where
  point : sg_point_t
  dim : sg_dim_t
  deriving DecidableEq

/-- The type `drawing_scaled_attr_t`; the bitmap pointer is an address. -/
structure drawing_scaled_attr_t where
  bitmap : Nat
  region : sg_region_t
  deriving DecidableEq

/-- The class `DrawingScaledAttr` with its only member `m_attr`. -/
structure DrawingScaledAttr where
  m_attr : drawing_scaled_attr_t
  deriving DecidableEq

namespace DrawingScaledAttr

/-- `void set_height(sg_size_t h){ m_attr.region.dim.height = h; }` -/
def set_height (a : DrawingScaledAttr) (h : Nat) : DrawingScaledAttr :=
  { a with m_attr.region.dim.height := h }

/-- `void set_width(sg_size_t w){ m_attr.region.dim.height = w; }` -/
def set_width (a : DrawingScaledAttr) (w : Nat) : DrawingScaledAttr :=
  { a with m_attr.region.dim.height := w }

/-- `void set_dim(sg_size_t w, sg_size_t h)` assigns both members. -/
def set_dim (a : DrawingScaledAttr) (w h : Nat) : DrawingScaledAttr :=
  { a with m_attr.region.dim.width := w, m_attr.region.dim.height := h }

/-- `sg_size_t width() const { return m_attr.region.dim.width; }` -/
def width (a : DrawingScaledAttr) : Nat := a.m_attr.region.dim.width

/-- `sg_size_t height() const { return m_attr.region.dim.height; }` -/
def height (a : DrawingScaledAttr) : Nat := a.m_attr.region.dim.height

end DrawingScaledAttr

/-! ## chrono::MicroTime (include/chrono/MicroTime.hpp)

Arguments of type `u32` are natural numbers below `2^32`; every product is
reduced modulo `2^32` where the source converts it to `u32`. -/

/-- The class `MicroTime` with its only member, a `u32`. -/
structure MicroTime where
  m_value_microseconds : Nat
  deriving DecidableEq

namespace MicroTime

/-- `MicroTime(u32 microseconds = 0){ m_value_microseconds = microseconds; }` -/
def ctor (microseconds : Nat) : MicroTime := ⟨to_u32 microseconds⟩

/-- `static MicroTime from_seconds(u32 sec){ return MicroTime(sec*1000000UL); }` -/
def from_seconds (sec : Nat) : MicroTime := ctor (sec * 1000000)

/-- `static MicroTime from_sec(u32 sec){ return from_seconds(1000000UL*sec); }` -/
def from_sec (sec : Nat) : MicroTime := from_seconds (to_u32 (1000000 * sec))

/-- `static MicroTime from_milliseconds(u32 msec){ return MicroTime(msec*1000UL); }` -/
def from_milliseconds (msec : Nat) : MicroTime := ctor (msec * 1000)

/-- `static MicroTime from_msec(u32 msec){ return from_milliseconds(msec); }` -/
def from_msec (msec : Nat) : MicroTime := from_milliseconds msec

/-- `void set_microseconds(micro_time_t microseconds)` -/
def set_microseconds (_t : MicroTime) (microseconds : Nat) : MicroTime :=
  ⟨to_u32 microseconds⟩

/-- `void set_usec(micro_time_t usec){ set_microseconds(usec); }` -/
def set_usec (t : MicroTime) (usec : Nat) : MicroTime := set_microseconds t usec

/-- `void set_seconds(u32 sec){ set_usec(sec*1000000UL); }` -/
def set_seconds (t : MicroTime) (sec : Nat) : MicroTime := set_usec t (sec * 1000000)

/-- `void set_milliseconds(u32 msec){ set_usec(msec*1000UL); }` -/
def set_milliseconds (t : MicroTime) (msec : Nat) : MicroTime := set_usec t (msec * 1000)

/-- `micro_time_t microseconds() const { return m_value_microseconds; }` -/
def microseconds (t : MicroTime) : Nat := t.m_value_microseconds

/-- `micro_time_t usec() const { return microseconds(); }` -/
def usec (t : MicroTime) : Nat := t.microseconds

/-- `u32 seconds() const { return microseconds() / 1000000UL; }` -/
def seconds (t : MicroTime) : Nat := t.microseconds / 1000000

/-- `u32 milliseconds() const { return usec() / 1000UL; }` -/
def milliseconds (t : MicroTime) : Nat := t.usec / 1000

end MicroTime

/-! ## Calc::Ema (include/Calc/Ema.hpp) -/

/-- `#define DSP_EMA_I32_ALPHA(x) ( (u16)(x * 65535) )`, on exact rationals. -/
def DSP_EMA_I32_ALPHA (x : ℚ) : Nat := ⌊x * 65535⌋.toNat % 2 ^ 16

/-- `#define DSP_EMA_I16_ALPHA(x) ( (u8)(x * 255) )`, on exact rationals. -/
def DSP_EMA_I16_ALPHA (x : ℚ) : Nat := ⌊x * 255⌋.toNat % 2 ^ 8

/-- The template parameters of `Ema<intsmall, intmedium, intlarge>` for the
signed instances: the widths in bits of the three integer types. -/
structure EmaTypes where
  small_bits : Nat
  medium_bits : Nat
  large_bits : Nat
  deriving DecidableEq

/-- `class Ema_i32 : public Ema<u16, i32, i64>` -/
def Ema_i32 : EmaTypes := ⟨16, 32, 64⟩

/-- `class Ema_i16 : public Ema<u8, i16, i32>` -/
def Ema_i16 : EmaTypes := ⟨8, 16, 32⟩

/-- The members of `Ema`: the running average and the averaging constant. -/
structure Ema where
  _average : Int
  alpha : Nat
  deriving DecidableEq

namespace Ema

/-- `static intmedium small_max(){ return 1<<(8*sizeof(intsmall)); }` -/
def small_max (T : EmaTypes) : Int := to_signed T.medium_bits (2 ^ T.small_bits)

/-- The method `intmedium calc(intmedium in)` (`calc` is reserved in Lean):
`tmp0 = (intlarge)in * (alpha) + (intlarge)_average * (small_max() - alpha);`
`_average = (intmedium)(((intlarge)tmp0 + (intlarge)small_max()) >> (sizeof(intsmall)*8));`
`return _average;`
The result is the returned value and the updated object. -/
def calc_next (T : EmaTypes) (e : Ema) (inp : Int) : Int × Ema :=
  let tmp0 : Int := to_signed T.large_bits
    (inp * (e.alpha : Int) + e._average * (small_max T - (e.alpha : Int)))
  let avg : Int := to_signed T.medium_bits
    ((to_signed T.large_bits (tmp0 + small_max T)) >>> T.small_bits)
  (avg, { e with _average := avg })

end Ema

/-! ## calc::Lookup (include/calc/Lookup.hpp) -/

/-- The members of `Lookup<data_type>`: the table (x and y values
alternating) and the number of entries, an `unsigned int`. -/
structure Lookup (α : Type) where
  m_table : List α
  m_size : Nat

namespace Lookup

variable {α : Type} [LinearOrderedRing α] [Div α]

/-- The read `m_table[i]`. -/
def entry (t : Lookup α) (i : Nat) : α := t.m_table.getD i 0

/-- The loop bound `(m_size-2)*2` in `unsigned int` arithmetic. -/
def bound (t : Lookup α) : Nat := ((t.m_size + 2 ^ 32 - 2) % 2 ^ 32 * 2) % 2 ^ 32

/-- The loop `while( (x >= m_table[i+2]) && (i < (m_size-2)*2) ){ i+=2; }`
started at `i`; the result is the final `i`. Inside the loop `i < bound`,
so `i + 2` is taken without reduction. -/
def calc_value_loop (t : Lookup α) (x : α) (i : Nat) : Nat :=
  if x ≥ t.entry ((i + 2) % 2 ^ 32) ∧ i < t.bound then
    calc_value_loop t x (i + 2)
  else i
termination_by t.bound - i
decreasing_by omega

/-- The method `data_type calc_value(data_type x)`. -/
def calc_value (t : Lookup α) (x : α) : α :=
  let i := calc_value_loop t x 0
  let p1 := i
  let p2 := (i + 2) % 2 ^ 32
  let delta_x := t.entry p1 - t.entry p2
  if delta_x = 0 then -1
  else
    let delta_y := t.entry (p1 + 1) - t.entry ((p2 + 1) % 2 ^ 32)
    ((x - t.entry p1) * delta_y) / delta_x + t.entry (p1 + 1)

/-- The x value of entry `j` of the table. -/
def xs (t : Lookup α) (j : Nat) : α := t.entry (2 * j)

/-- The y value of entry `j` of the table. -/
def ys (t : Lookup α) (j : Nat) : α := t.entry (2 * j + 1)

end Lookup

/-- The table of the class documentation: (0,2), (1,4), (2,16), (3,25). -/
def Lookup.doc_table : Lookup ℚ := ⟨[0, 2, 1, 4, 2, 16, 3, 25], 4⟩

/-! ## Fmt::Xml (include/Fmt/Xml.hpp)

The header declares the class; its implementation file is not part of the
sources. The types `context_t`, and the inline members `context`,
`setcontext`, `size` and `reset` are taken from the header. Everything else
is modelled from the specification (sections 3, 4 and 7) and says so. -/

/-- The type `context_t` of the header: five `ssize_t` members. -/
structure context_t where
  offset : Int
  size : Int
  start_tag_size : Int
  end_tag_size : Int
  cursor : Int
  deriving DecidableEq

/-- Modelled from the spec: the error taxonomy of section 7 (the
implementation file with the return codes is missing). -/
inductive XmlError where
  | MalformedPath
  | UnterminatedTag
  | NotFound
  | NoMoreItems
  | UnsupportedResize
  | IoFailure
  deriving DecidableEq

/-- Modelled from the spec: the outcome of an operation, "an explicit
result/error": a value, or an error of the taxonomy. -/
inductive Result (α : Type) where
  | ok (a : α)
  | error (e : XmlError)
  deriving DecidableEq

/-- Modelled from the spec: the `int` an operation returns, zero on
success and -1 otherwise (the header documents "Zero on success of -1"). -/
def Result.code {α : Type} : Result α → Int
  | .ok _ => 0
  | .error _ => -1

/-- The class `Xml` of the header: the bytes of the underlying stream (the
`Sys::File` base; the member `file_size` is the length of `stream`), the
member `content` and the member `indent`. -/
structure Xml where
  stream : List Char
  content : context_t
  indent : Int
  deriving DecidableEq

/-! ### Path Expression Parser (spec 4.1) -/

/-- Modelled from the spec: a Path Segment `{name, index, attribute}` of
section 3, the attribute selector being the field `attr` (the path parser
`parse_ref*` is only declared in the header). -/
structure Segment where
  name : List Char
  index : Option Nat
  attr : Option (List Char)
  deriving DecidableEq

/-- Modelled from the spec: the characters of the path syntax, `.` to
separate segments, `[n]` for an index selector and `(name)` for an
attribute selector. -/
def isPathSyntax (c : Char) : Bool :=
  c == '.' || c == '[' || c == ']' || c == '(' || c == ')'

/-- Modelled from the spec: the value of a non-empty string of decimal
digits ("an index is non-numeric" is a parse failure). -/
def parseDigits (ds : List Char) : Option Nat :=
  if ds ≠ [] ∧ ds.all Char.isDigit = true then
    some (ds.foldl (fun n d => 10 * n + (d.toNat - 48)) 0)
  else none

/-- Modelled from the spec: the optional index selector `'[' digits ']'`;
the result is the index and the rest of the input. -/
def parseIndex (l : List Char) : Result (Option Nat × List Char) :=
  match l with
  | '[' :: r =>
    match r.dropWhile (fun c => c != ']') with
    | _ :: rest =>
      match parseDigits (r.takeWhile (fun c => c != ']')) with
      | some n => .ok (some n, rest)
      | none => .error .MalformedPath
    | [] => .error .MalformedPath
  | _ => .ok (none, l)

/-- Modelled from the spec: the optional attribute selector
`'(' attrname ')'`; the result is the name and the rest of the input. -/
def parseAttribute (l : List Char) : Result (Option (List Char) × List Char) :=
  match l with
  | '(' :: r =>
    match r.dropWhile (fun c => c != ')') with
    | _ :: rest =>
      if r.takeWhile (fun c => c != ')') = [] then .error .MalformedPath
      else .ok (some (r.takeWhile (fun c => c != ')')), rest)
    | [] => .error .MalformedPath
  | _ => .ok (none, l)

/-- Modelled from the spec: one segment,
`segment := tagname? ( '[' digits ']' )? ( '(' attrname ')' )?`; a name is
required unless the segment consists solely of `(attrname)`. -/
def parseSegment (l : List Char) : Result (Segment × List Char) :=
  match parseIndex (l.dropWhile (fun c => !isPathSyntax c)) with
  | .error e => .error e
  | .ok (index, r1) =>
    match parseAttribute r1 with
    | .error e => .error e
    | .ok (attr, r2) =>
      if l.takeWhile (fun c => !isPathSyntax c) = [] ∧ (attr = none ∨ index ≠ none) then
        .error .MalformedPath
      else .ok (⟨l.takeWhile (fun c => !isPathSyntax c), index, attr⟩, r2)

/-- Modelled from the spec: `path := segment ('.' segment)*` in a single
left-to-right pass; an attribute selector terminates the path, so a segment
carrying one is valid only as the final segment. -/
def parsePathAux : Nat → List Char → Result (List Segment)
  | 0, _ => .error .MalformedPath
  | fuel + 1, l =>
    match parseSegment l with
    | .error e => .error e
    | .ok (seg, []) => .ok [seg]
    | .ok (seg, '.' :: rest) =>
      if seg.attr ≠ none then .error .MalformedPath
      else
        match parsePathAux fuel rest with
        | .ok segs => .ok (seg :: segs)
        | .error e => .error e
    | .ok (_, _ :: _) => .error .MalformedPath

/-- Modelled from the spec: the Path Expression Parser. Every segment
consumes a character, so the length of the input bounds the number of
segments. -/
def parsePath (l : List Char) : Result (List Segment) := parsePathAux (l.length + 1) l

/-! ### Tag Locator (spec 4.2) -/

/-- Modelled from the spec: the classification of a structural token. -/
inductive TokenKind where
  | startTag
  | endTag
  | selfClosing
  | cdata
  | comment
  | procInst
  deriving DecidableEq

/-- Modelled from the spec: a token found in a scanned region: the number
of bytes in front of its `<`, its length and its classification. -/
structure Token where
  skip : Nat
  len : Nat
  kind : TokenKind
  deriving DecidableEq

/-- Modelled from the spec: the first state of the scan, "seek an opening
`<`"; the result is the number of bytes in front of it. -/
def seekOpen : List Char → Option Nat
  | [] => none
  | c :: cs => if c = '<' then some 0 else (seekOpen cs).map (· + 1)

/-- Modelled from the spec: the search for a terminator; the result is the
number of bytes up to and including its first occurrence. -/
def seekTerm (term : List Char) : List Char → Option Nat
  | [] => none
  | c :: cs =>
    if term.isPrefixOf (c :: cs) = true then some term.length
    else (seekTerm term cs).map (· + 1)

/-- Modelled from the spec: the literal prefixes at the opening position
and the terminator each of them switches the search to; a bare `>` for
everything else. The result is the classification when the prefix decides
it, the length of the prefix and the terminator. -/
def opening (s : List Char) : Option TokenKind × Nat × List Char :=
  if "<![CDATA[".toList.isPrefixOf s = true then (some .cdata, 9, "]]>".toList)
  else if "<!--".toList.isPrefixOf s = true then (some .comment, 4, "-->".toList)
  else if "<?".toList.isPrefixOf s = true then (some .procInst, 2, "?>".toList)
  else (none, 1, ">".toList)

/-- Modelled from the spec: the classification of a tag from its bytes:
an end tag starts with `</`, "a tag is self-closing if the two bytes
preceding its terminating `>` are `/>`", anything else is a start tag. -/
def tagKind (tok : List Char) : TokenKind :=
  if (tok.drop 1).head? = some '/' then .endTag
  else if tok.drop (tok.length - 2) = "/>".toList then .selfClosing
  else .startTag

/-- Modelled from the spec: the Tag Locator's two-state scan for the next
structural token of a region; no `<` means there is no token, a missing
terminator is `UnterminatedTag`. -/
def nextToken (l : List Char) : Result (Option Token) :=
  match seekOpen l with
  | none => .ok none
  | some k =>
    match seekTerm (opening (l.drop k)).2.2 ((l.drop k).drop (opening (l.drop k)).2.1) with
    | none => .error .UnterminatedTag
    | some n =>
      .ok (some ⟨k, (opening (l.drop k)).2.1 + n,
        (opening (l.drop k)).1.getD
          (tagKind ((l.drop k).take ((opening (l.drop k)).2.1 + n)))⟩)

/-- Modelled from the spec: the bytes that end a tag name, white space
(in front of the attribute list), `/` and `>`. -/
def isNameEnd (c : Char) : Bool := c.isWhitespace || c == '/' || c == '>'

/-- Modelled from the spec: the name of a tag, the bytes after `<` (after
`</` in an end tag) up to the attribute list or the end of the tag. -/
def tagName (tok : List Char) : List Char :=
  if (tok.drop 1).head? = some '/' then (tok.drop 2).takeWhile (fun c => !isNameEnd c)
  else (tok.drop 1).takeWhile (fun c => !isNameEnd c)

/-- Modelled from the spec: the search for the matching end tag of an
element named `name` in the bytes `l` after its start tag. The nesting depth
is incremented on every start tag with the same name and decremented on
every end tag with that name; the match is declared at depth zero. (The end
tags that count are those of the same name: with the end tags of other
elements counted, `gpx` of the example document would end at `</time>`.) The
result is the number of bytes in front of the end tag and its length;
reaching the bound first is `UnterminatedTag`. -/
def matchEnd (name : List Char) : Nat → Nat → List Char → Result (Nat × Nat)
  | 0, _, _ => .error .UnterminatedTag
  | fuel + 1, depth, l =>
    match nextToken l with
    | .error e => .error e
    | .ok none => .error .UnterminatedTag
    | .ok (some t) =>
      if t.kind = .endTag ∧ tagName ((l.drop t.skip).take t.len) = name ∧ depth = 0 then
        .ok (t.skip, t.len)
      else
        match matchEnd name fuel
            (if tagName ((l.drop t.skip).take t.len) = name then
              (if t.kind = .startTag then depth + 1
               else if t.kind = .endTag then depth - 1 else depth)
             else depth)
            (l.drop (t.skip + t.len)) with
        | .ok (p, e) => .ok (t.skip + t.len + p, e)
        | .error e => .error e

/-- Modelled from the spec: an element located in a scanned region: the
bytes in front of it, its size including its tags, the sizes of its start
and end tag (zero for a self-closing tag) and its name. -/
structure Element where
  skip : Nat
  size : Nat
  start_tag_size : Nat
  end_tag_size : Nat
  name : List Char
  deriving DecidableEq

/-- Modelled from the spec: the next element of a region. CDATA sections,
comments and processing instructions are skipped, an end tag ends the
content of the enclosing element, a self-closing tag is an element with end
tag length zero and a start tag is an element up to its matching end tag. -/
def nextElementAux : Nat → List Char → Result (Option Element)
  | 0, _ => .error .UnterminatedTag
  | fuel + 1, l =>
    match nextToken l with
    | .error e => .error e
    | .ok none => .ok none
    | .ok (some t) =>
      match t.kind with
      | .endTag => .ok none
      | .selfClosing =>
        .ok (some ⟨t.skip, t.len, t.len, 0, tagName ((l.drop t.skip).take t.len)⟩)
      | .startTag =>
        match matchEnd (tagName ((l.drop t.skip).take t.len))
            ((l.drop (t.skip + t.len)).length + 1) 0 (l.drop (t.skip + t.len)) with
        | .ok (p, e) =>
          .ok (some ⟨t.skip, t.len + p + e, t.len, e, tagName ((l.drop t.skip).take t.len)⟩)
        | .error e => .error e
      | _ =>
        match nextElementAux fuel (l.drop (t.skip + t.len)) with
        | .ok (some el) => .ok (some { el with skip := t.skip + t.len + el.skip })
        | r => r

/-- Modelled from the spec: the next element of a region. Every token
consumes a byte, so the length of the region bounds the number of skipped
tokens. -/
def nextElement (l : List Char) : Result (Option Element) := nextElementAux (l.length + 1) l

/-! ### Contexts and the regions they describe (spec 3) -/

/-- Modelled from the spec: the bytes of the window of a context. -/
def Xml.window (x : Xml) (c : context_t) : List Char :=
  (x.stream.drop c.offset.toNat).take c.size.toNat

/-- Modelled from the spec: the start tag of a context, the first
`start_tag_length` bytes of its window. -/
def Xml.startTag (x : Xml) (c : context_t) : List Char :=
  (x.window c).take c.start_tag_size.toNat

/-- Modelled from the spec: the inner content of a context, "the region
strictly between `start_tag_length` and `window.length − end_tag_length`". -/
def Xml.inner (x : Xml) (c : context_t) : List Char :=
  ((x.window c).take (c.size - c.end_tag_size).toNat).drop c.start_tag_size.toNat

/-- Modelled from the spec: the document root context, "the whole stream,
with no enclosing tags". -/
def Xml.root (x : Xml) : context_t := ⟨0, x.stream.length, 0, 0, 0⟩

/-- Modelled from the spec: the Context invariant of section 3. -/
def context_t.valid (c : context_t) : Prop :=
  0 ≤ c.cursor ∧ c.cursor ≤ c.size ∧ c.start_tag_size + c.end_tag_size ≤ c.size

instance (c : context_t) : Decidable c.valid := by
  unfold context_t.valid
  exact inferInstance

/-- Modelled from the spec: the context of an element located in a region
that starts at the absolute offset `base`, with a fresh cursor. -/
def Element.context (base : Nat) (el : Element) : context_t :=
  ⟨(base + el.skip : Nat), el.size, el.start_tag_size, el.end_tag_size, 0⟩

/-! ### Value Accessor (spec 4.4) -/

/-- Modelled from the spec: "the concatenated text/CDATA content" of a
region: the text outside of tokens and the bytes inside CDATA sections. -/
def textContentAux : Nat → List Char → List Char
  | 0, l => l
  | fuel + 1, l =>
    match nextToken l with
    | .ok (some t) =>
      l.take t.skip ++
        (if t.kind = .cdata then ((l.drop t.skip).take t.len).drop 9 |>.take (t.len - 12)
         else []) ++
        textContentAux fuel (l.drop (t.skip + t.len))
    | _ => l

/-- Modelled from the spec: the text content of a region; every token
consumes a byte, so the length of the region bounds their number. -/
def textContent (l : List Char) : List Char := textContentAux (l.length + 1) l

/-- Modelled from the spec: "leading/trailing whitespace trimmed". -/
def trim (l : List Char) : List Char :=
  ((l.dropWhile Char.isWhitespace).reverse.dropWhile Char.isWhitespace).reverse

/-- Modelled from the spec: an attribute found in an attribute list: its
name, its value without the quotes, the offset of the value in the scanned
bytes and the number of bytes up to and including the closing quote. -/
structure Attribute where
  name : List Char
  value : List Char
  value_offset : Nat
  next : Nat
  deriving DecidableEq

/-- Modelled from the spec: the next `name="value"` pair of an attribute
list, "pairs separated by whitespace". -/
def nextAttribute (l : List Char) : Option Attribute :=
  match (l.dropWhile Char.isWhitespace).dropWhile (fun c => c != '=' && !isNameEnd c) with
  | '=' :: '"' :: r =>
    match r.dropWhile (fun c => c != '"') with
    | _ :: _ =>
      if (l.dropWhile Char.isWhitespace).takeWhile (fun c => c != '=' && !isNameEnd c) = [] then
        none
      else
        some ⟨(l.dropWhile Char.isWhitespace).takeWhile (fun c => c != '=' && !isNameEnd c),
          r.takeWhile (fun c => c != '"'),
          l.length - r.length,
          l.length - r.length + (r.takeWhile (fun c => c != '"')).length + 1⟩
    | [] => none
  | _ => none

/-- Modelled from the spec: the attribute list of a start tag, its bytes
after `<` and the tag name. -/
def attrList (tag : List Char) : List Char := tag.drop (1 + (tagName tag).length)

/-- Modelled from the spec: the attribute named `key` of an attribute list:
the offset of its value in the list and the value's length, `NotFound`
"if the attribute does not exist". -/
def findAttribute (key : List Char) : Nat → List Char → Result (Nat × Nat)
  | 0, _ => .error .NotFound
  | fuel + 1, l =>
    match nextAttribute l with
    | none => .error .NotFound
    | some a =>
      if a.name = key then .ok (a.value_offset, a.value.length)
      else
        match findAttribute key fuel (l.drop a.next) with
        | .ok (o, n) => .ok (a.next + o, n)
        | .error e => .error e

/-! ### Navigator (spec 4.3) -/

/-- Modelled from the spec: one segment hop, the scan of a parent's inner
content for the elements named `name`, "skipping the first `segment.index`
matches"; `NotFound` when the scan is exhausted first. -/
def findNamed (name : List Char) : Nat → Nat → List Char → Result Element
  | 0, _, _ => .error .NotFound
  | fuel + 1, index, l =>
    match nextElement l with
    | .error e => .error e
    | .ok none => .error .NotFound
    | .ok (some el) =>
      if el.name = name ∧ index = 0 then .ok el
      else
        match findNamed name fuel (if el.name = name then index - 1 else index)
            (l.drop (el.skip + el.size)) with
        | .ok r => .ok { r with skip := el.skip + el.size + r.skip }
        | .error e => .error e

/-- Modelled from the spec: the context of the attribute `key` of the
context `c`: the window of the value, with no tags. -/
def Xml.attrContext (x : Xml) (c : context_t) (key : List Char) : Result context_t :=
  match findAttribute key ((attrList (x.startTag c)).length + 1)
      (attrList (x.startTag c)) with
  | .ok (o, n) =>
    .ok ⟨(c.offset.toNat + (1 + (tagName (x.startTag c)).length) + o : Nat), n, 0, 0, 0⟩
  | .error e => .error e

/-- Modelled from the spec: the resolution of the segments of a path
relative to the context `c`. A segment with a name hops to the selected
child of the current target; an attribute selector then ends the path at
the window of that attribute's value. The flag of the result says whether
the target is an attribute. -/
def Xml.resolve (x : Xml) : List Segment → context_t → Result (context_t × Bool)
  | [], c => .ok (c, false)
  | seg :: rest, c =>
    match (if seg.name = [] then Result.ok c
      else
        match findNamed seg.name ((x.inner c).length + 1) (seg.index.getD 0) (x.inner c) with
        | .ok el => .ok (el.context (c.offset.toNat + c.start_tag_size.toNat))
        | .error e => .error e) with
    | .error e => .error e
    | .ok target =>
      match seg.attr with
      | some key =>
        match x.attrContext target key with
        | .ok a => .ok (a, true)
        | .error e => .error e
      | none => x.resolve rest target

/-- The inline member `const context_t & context() const { return content; }`. -/
def Xml.context (x : Xml) : context_t := x.content

/-- The inline member `void setcontext(const context_t & context) { content = context; }`. -/
def Xml.setcontext (x : Xml) (context : context_t) : Xml := { x with content := context }

/-- The inline member `int size() const { return content.size; }`: the
member is an `ssize_t` and the result an `int`, so the value is converted to
`int`, which changes it where `ssize_t` is the wider type and the value lies
outside of the range of `int`. -/
def Xml.size (x : Xml) : Int := to_signed 32 x.content.size

/-- Modelled from the spec: `reset_context`, which is only declared in the
header: the current context becomes the document root context. -/
def Xml.reset_context (x : Xml) : Xml := { x with content := x.root }

/-- The inline member `void reset(void){ reset_context(); }`. -/
def Xml.reset (x : Xml) : Xml := x.reset_context

/-- Modelled from the spec: `find(path)` "resolves `path` against the root
context, replacing the current context on success". The result is the
outcome and the engine afterwards. -/
def Xml.find (x : Xml) (str : List Char) : Result Unit × Xml :=
  match parsePath str with
  | .error e => (.error e, x)
  | .ok segs =>
    match x.resolve segs x.root with
    | .ok (target, _) => (.ok (), { x with content := target })
    | .error e => (.error e, x)

/-- Modelled from the spec: `find_next(path)` "re-scans forward from the
end of the current context's window for another match of the same final
segment", replacing the window on success; `NotFound` otherwise. -/
def Xml.find_next (x : Xml) (str : List Char) : Result Unit × Xml :=
  match parsePath str with
  | .error e => (.error e, x)
  | .ok segs =>
    match segs.getLast? with
    | none => (.error .MalformedPath, x)
    | some seg =>
      match findNamed seg.name
          ((x.stream.drop (x.content.offset.toNat + x.content.size.toNat)).length + 1) 0
          (x.stream.drop (x.content.offset.toNat + x.content.size.toNat)) with
      | .ok el =>
        (.ok (), x.setcontext (el.context (x.content.offset.toNat + x.content.size.toNat)))
      | .error e => (.error e, x)

/-- Modelled from the spec: `value(key?)`. Without a key the result is the
text content of the current context, trimmed. With a key the path is
resolved relative to the current context and the value of the target is
extracted the same way, unless the target is an attribute, whose value is
returned directly. The current context does not change. -/
def Xml.value (x : Xml) (key : Option (List Char)) : Result (List Char) :=
  match key with
  | none => .ok (trim (textContent (x.inner x.content)))
  | some str =>
    match parsePath str with
    | .error e => .error e
    | .ok segs =>
      match x.resolve segs x.content with
      | .ok (target, true) => .ok (x.window target)
      | .ok (target, false) => .ok (trim (textContent (x.inner target)))
      | .error e => .error e

/-- Modelled from the spec: the bytes `child` has still to scan, the inner
content of the current context from the cursor on. -/
def Xml.remaining (x : Xml) : List Char := (x.inner x.content).drop x.content.cursor.toNat

/-- Modelled from the spec: `child(name_out, value_out?)`. The cursor is
the number of bytes of the inner content already enumerated: the scan starts
at the inner-content start plus the cursor ("on first call starts scanning
at the current context's inner-content start"); on success the cursor
advances past the returned child, whose name (and value, if requested) is
the result. `NoMoreItems` when no child is left. -/
def Xml.child (x : Xml) (want_value : Bool) :
    Result (List Char × Option (List Char)) × Xml :=
  match nextElement x.remaining with
  | .error e => (.error e, x)
  | .ok none => (.error .NoMoreItems, x)
  | .ok (some el) =>
    (.ok (el.name,
        if want_value then
          some (trim (textContent
            ((((x.remaining.drop el.skip).take el.size).take
              (el.size - el.end_tag_size)).drop el.start_tag_size)))
        else none),
      { x with content :=
        { x.content with cursor := (x.content.cursor.toNat + el.skip + el.size : Nat) } })

/-- Modelled from the spec: the bytes `sibling` has still to scan, the
stream "just after the current context's end tag" from the cursor on. The
scan ends at the end tag of the enclosing element, where the Tag Locator
finds no further element. -/
def Xml.remaining_siblings (x : Xml) : List Char :=
  (x.stream.drop (x.content.offset.toNat + x.content.size.toNat)).drop x.content.cursor.toNat

/-- Modelled from the spec: `sibling(name_out, value_out?)`, the "same
enumeration contract as `child`, but scans within the grandparent's
remaining content starting just after the current context's end tag". As
`child` it changes the cursor only, which here is the number of bytes behind
the window already enumerated: on success it advances past the returned
sibling. `NoMoreItems` when no sibling is left. -/
def Xml.sibling (x : Xml) (want_value : Bool) :
    Result (List Char × Option (List Char)) × Xml :=
  match nextElement x.remaining_siblings with
  | .error e => (.error e, x)
  | .ok none => (.error .NoMoreItems, x)
  | .ok (some el) =>
    (.ok (el.name,
        if want_value then
          some (trim (textContent
            ((((x.remaining_siblings.drop el.skip).take el.size).take
              (el.size - el.end_tag_size)).drop el.start_tag_size)))
        else none),
      { x with content :=
        { x.content with cursor := (x.content.cursor.toNat + el.skip + el.size : Nat) } })

/-- Modelled from the spec: the scan of `count`, the number of elements
found one after the other in a region. -/
def countElements : Nat → List Char → Nat
  | 0, _ => 0
  | fuel + 1, l =>
    match nextElement l with
    | .ok (some el) => countElements fuel (l.drop (el.skip + el.size)) + 1
    | _ => 0

/-- Modelled from the spec: `count()` "scans the current context's inner
content once, counting immediate children without altering enumeration
cursors used by `child`". The result is the count and the engine afterwards. -/
def Xml.count (x : Xml) : Nat × Xml :=
  (countElements ((x.inner x.content).length + 1) (x.inner x.content), x)

/-- Modelled from the spec: `attr(name_out, value_out?)`, the "stateful
enumeration over the attribute list embedded in the current context's start
tag"; the cursor is the number of bytes of the list already enumerated. -/
def Xml.attr (x : Xml) : Result (List Char × List Char) × Xml :=
  match nextAttribute ((attrList (x.startTag x.content)).drop x.content.cursor.toNat) with
  | none => (.error .NoMoreItems, x)
  | some a =>
    (.ok (a.name, a.value),
      { x with content := { x.content with cursor := (x.content.cursor.toNat + a.next : Nat) } })

/-! ### Writer (spec 4.5) -/

/-- Modelled from the spec: "the current indentation", `indent` copies of
the indentation unit `tab`, which the spec leaves open. -/
def indentation (tab : List Char) (indent : Int) : List Char :=
  (List.replicate indent.toNat tab).flatten

/-- Modelled from the spec: the attribute text of a tag, separated from
the name by a blank when there is one. -/
def attrsText (attrs : Option (List Char)) : List Char :=
  match attrs with
  | none => []
  | some a => ' ' :: a

/-- Modelled from the spec: `write_start_tag(name, attrs?)` "emits
`<name attrs>`, applying the current indentation, and increments
indentation depth". -/
def Xml.write_start_tag (x : Xml) (tab name : List Char) (attrs : Option (List Char)) : Xml :=
  { x with
    stream := x.stream ++ indentation tab x.indent ++ '<' :: name ++ attrsText attrs ++ ['>'],
    indent := x.indent + 1 }

/-- Modelled from the spec: `write_cdata(text)` "emits `<![CDATA[text]]>`
verbatim". -/
def Xml.write_cdata (x : Xml) (str : List Char) : Xml :=
  { x with stream := x.stream ++ "<![CDATA[".toList ++ str ++ "]]>".toList }

/-- Modelled from the spec: `write_end_tag(name)` "decrements indentation
depth, then emits `</name>` at the new (shallower) indentation". -/
def Xml.write_end_tag (x : Xml) (tab name : List Char) : Xml :=
  { x with
    stream := x.stream ++ indentation tab (x.indent - 1) ++ '<' :: '/' :: name ++ ['>'],
    indent := x.indent - 1 }

/-- Modelled from the spec: `write_empty_element_tag(name, attrs?)` "emits
`<name attrs/>` without touching indentation depth". -/
def Xml.write_empty_element_tag (x : Xml) (tab name : List Char)
    (attrs : Option (List Char)) : Xml :=
  { x with
    stream := x.stream ++ indentation tab x.indent ++ '<' :: name ++ attrsText attrs ++
      ['/', '>'] }

/-- Modelled from the spec: the literal text content `write_element` puts
between the tags. -/
def Xml.write_text (x : Xml) (data : List Char) : Xml :=
  { x with stream := x.stream ++ data }

/-- Modelled from the spec: `write_element(name, data, attrs?)`, the
"convenience composing start tag, literal text content (not CDATA-wrapped),
and end tag". -/
def Xml.write_element (x : Xml) (tab name data : List Char) (attrs : Option (List Char)) :
    Xml :=
  ((x.write_start_tag tab name attrs).write_text data).write_end_tag tab name

/-- Modelled from the spec: an empty document, opened for writing: no
bytes, the root context and indentation depth zero. -/
def Xml.empty : Xml := ⟨[], ⟨0, 0, 0, 0, 0⟩, 0⟩

/-- The example document of the class documentation in `Xml.hpp`. -/
def gpx_example : List Char :=
  ("<gpx\n" ++
   "version=\"1.0\"\n" ++
   "creator=\"ExpertGPS 1.1 - http://www.topografix.com\"\n" ++
   "xmlns:xsi=\"http://www.w3.org/2001/XMLSchema-instance\"\n" ++
   "xmlns=\"http://www.topografix.com/GPX/1/0\"\n" ++
   "xsi:schemaLocation=\"http://www.topografix.com/GPX/1/0 http://www.topografix.com/GPX/1/0/gpx.xsd\">\n" ++
   "<time>2002-02-27T17:18:33Z</time>\n" ++
   "<bounds minlat=\"42.401051\" minlon=\"-71.126602\" maxlat=\"42.468655\" maxlon=\"-71.102973\"/>\n" ++
   "<wpt lat=\"42.438878\" lon=\"-71.119277\">\n" ++
   " <ele>44.586548</ele>\n" ++
   " <time>2001-11-28T21:05:28Z</time>\n" ++
   " <name>5066</name>\n" ++
   " <desc><![CDATA[5066]]></desc>\n" ++
   " <sym>Crossing</sym>\n" ++
   " <type><![CDATA[Crossing]]></type>\n" ++
   "</wpt>\n" ++
   "<wpt lat=\"42.439227\" lon=\"-71.119689\">\n" ++
   " <ele>57.607200</ele>\n" ++
   " <time>2001-06-02T03:26:55Z</time>\n" ++
   " <name>5067</name>\n" ++
   " <desc><![CDATA[5067]]></desc>\n" ++
   " <sym>Dot</sym>\n" ++
   " <type><![CDATA[Intersection]]></type>\n" ++
   "</wpt>\n" ++
   "</gpx>\n").toList

/-- The engine opened on the example document, at the root context. -/
def gpx_xml : Xml := Xml.reset ⟨gpx_example, ⟨0, 0, 0, 0, 0⟩, 0⟩

/-- The engine after `n` successive calls of `child`. -/
def Xml.after_children (x : Xml) : Nat → Xml
  | 0 => x
  | n + 1 => ((x.child false).2).after_children n

/-- The outcome of call number `n` (counted from zero) in a row of
successive calls of `child`: the name returned, or the error. -/
def Xml.nth_child (x : Xml) (n : Nat) : Result (List Char) :=
  match ((x.after_children n).child false).1 with
  | .ok (name, _) => .ok name
  | .error e => .error e

/-- The bytes `write_element` appends at indentation depth zero. -/
def written (name data : List Char) : List Char :=
  '<' :: (name ++ '>' :: (data ++ '<' :: (('/' :: name) ++ ['>'])))

/-- The round trip of section 8: `write_element(name, data)` into an empty
document, then `find(name)` and, when that succeeds, `value()` with no key;
the result is the value, or the error of the call that failed. -/
def Xml.round_trip (tab name data : List Char) : Result (List Char) :=
  match ((Xml.empty.write_element tab name data none).find name).1 with
  | .ok _ => ((Xml.empty.write_element tab name data none).find name).2.value none
  | .error e => .error e

/-! ## calc::Lookup with an integer `data_type` -/

/-- Conversion of an integer to `unsigned int` (reduction modulo 2^32). -/
def to_unsigned32 (v : Int) : Int := v % 2 ^ 32

/-- Conversion of a constant to a `data_type` of 32 bits: `int` when `sgn`
is true, `unsigned int` otherwise. -/
def to_int32 (sgn : Bool) (v : Int) : Int := if sgn then to_signed 32 v else to_unsigned32 v

/-- The values of a 32-bit `data_type`: those of `int` when `sgn` is true,
those of `unsigned int` otherwise. -/
def int32_range (sgn : Bool) (v : Int) : Prop :=
  if sgn then -2 ^ 31 ≤ v ∧ v < 2 ^ 31 else 0 ≤ v ∧ v < 2 ^ 32

instance (sgn : Bool) (v : Int) : Decidable (int32_range sgn v) := by
  unfold int32_range
  exact inferInstance

/-- The result of an arithmetic operation of a 32-bit `data_type` whose
exact result is `v`: `unsigned int` arithmetic is reduced modulo 2^32; in
`int` arithmetic a result that `int` cannot represent (an overflow, which
includes the quotient of `INT_MIN` by -1) is undefined, `none`. -/
def int32_arith (sgn : Bool) (v : Int) : Option Int :=
  if sgn then (if int32_range true v then some v else none) else some (to_unsigned32 v)

/-- The method `data_type calc_value(data_type x)` of `Lookup<int>` (`sgn`
true) and of `Lookup<unsigned int>` (`sgn` false): every difference, product,
quotient and sum is an operation of `data_type`, `/` truncates toward zero,
and `return -1` converts the constant. The result is `none` where the
behaviour of the code is undefined. -/
def Lookup.calc_value_int32 (sgn : Bool) (t : Lookup Int) (x : Int) : Option Int :=
  let i := t.calc_value_loop x 0
  let p1 := i
  let p2 := (i + 2) % 2 ^ 32
  (int32_arith sgn (t.entry p1 - t.entry p2)).bind fun delta_x =>
    if delta_x = 0 then some (to_int32 sgn (-1))
    else
      (int32_arith sgn (t.entry (p1 + 1) - t.entry ((p2 + 1) % 2 ^ 32))).bind fun delta_y =>
        (int32_arith sgn (x - t.entry p1)).bind fun d =>
          (int32_arith sgn (d * delta_y)).bind fun prod =>
            (int32_arith sgn (Int.tdiv prod delta_x)).bind fun quot =>
              int32_arith sgn (quot + t.entry (p1 + 1))

/-- The table of the class documentation with an integer `data_type`. -/
def Lookup.doc_table_int : Lookup Int := ⟨[0, 2, 1, 4, 2, 16, 3, 25], 4⟩

/-! ## chrono::Timer (include/chrono/Timer.hpp) -/

/-- Modelled from the spec: the class `ClockTime`, whose header is not in
the sources, as far as `Timer.hpp` and `MicroTime.hpp` use it: a time with
the accessors `seconds()` and `nanoseconds()`. -/
structure ClockTime where
  seconds : Int
  nanoseconds : Int
  deriving DecidableEq

/-- The class `Timer` with its members `m_start` and `m_stop`. -/
structure Timer where
  m_start : ClockTime
  m_stop : ClockTime
  deriving DecidableEq

namespace Timer

/-- `bool is_stopped() const { return (m_stop.seconds() != -1) || (m_stop.seconds() == 0); }` -/
def is_stopped (t : Timer) : Bool := (t.m_stop.seconds != -1) || (t.m_stop.seconds == 0)

/-- `bool is_running() const { return !is_stopped(); }` -/
def is_running (t : Timer) : Bool := !t.is_stopped

/-- `bool is_started() const { return (m_start.nanoseconds() + m_start.seconds()) != 0; }` -/
def is_started (t : Timer) : Bool :=
  to_signed 32 (t.m_start.nanoseconds + t.m_start.seconds) != 0

/-- `bool is_reset() const { return m_stop.seconds() == 0; }` -/
def is_reset (t : Timer) : Bool := t.m_stop.seconds == 0

end Timer

/-! ## chrono::MicroTime: validity and microsecond values -/

namespace MicroTime

/-- `bool is_valid() const { return m_value_microseconds != (u32)-1; }` -/
def is_valid (t : MicroTime) : Bool := t.m_value_microseconds != 2 ^ 32 - 1

/-- `static MicroTime invalid(){ return MicroTime((u32)-1); }` -/
def invalid : MicroTime := ctor (2 ^ 32 - 1)

/-- The constructor `MicroTime(u32 microseconds = 0)` without an argument. -/
def ctor_default : MicroTime := ctor 0

/-- `static MicroTime from_microseconds(u32 microseconds){ return microseconds; }`
(the value is converted by the constructor). -/
def from_microseconds (microseconds : Nat) : MicroTime := ctor microseconds

/-- `static MicroTime from_usec(u32 usec){ return usec; }` -/
def from_usec (usec : Nat) : MicroTime := ctor usec

/-- `operator micro_time_t () const { return microseconds(); }` -/
def to_micro_time_t (t : MicroTime) : Nat := t.microseconds

end MicroTime

/-! ## var::String (src/var/String.cpp)

A C string is a list of bytes read up to the first zero. The header
`String.hpp` and the implementation of `var::Data` are not in the sources:
what `String.cpp` uses of them is modelled and says so. Operations whose
behaviour is undefined (a write behind the storage, a read in front of it, a
write through a null pointer) return `none`. -/

namespace var

/-- The terminating zero of a C string. -/
def NUL : Char := Char.ofNat 0

/-- The C string at a pointer: the bytes found there up to the first zero. -/
def cstr (p : List Char) : List Char := p.takeWhile (fun c => c != NUL)

/-- The C library function `strlen`. -/
def strlen (p : List Char) : Nat := (cstr p).length

/-- The comparison of `strcmp` on the characters of two C strings: zero for
equal strings, otherwise the difference of the first two characters that
differ, the end of a string counting as zero. -/
def strcmp_chars : List Char → List Char → Int
  | [], [] => 0
  | [], b :: _ => -(b.toNat : Int)
  | a :: _, [] => (a.toNat : Int)
  | a :: as, b :: bs => if a = b then strcmp_chars as bs else (a.toNat : Int) - (b.toNat : Int)

/-- The C library function `strcmp`. -/
def strcmp (p q : List Char) : Int := strcmp_chars (cstr p) (cstr q)

/-- The comparison of `strncmp` on the characters of two C strings: as
`strcmp_chars`, over at most `n` characters. -/
def strncmp_chars : Nat → List Char → List Char → Int
  | 0, _, _ => 0
  | _ + 1, [], [] => 0
  | _ + 1, [], b :: _ => -(b.toNat : Int)
  | _ + 1, a :: _, [] => (a.toNat : Int)
  | n + 1, a :: as, b :: bs =>
    if a = b then strncmp_chars n as bs else (a.toNat : Int) - (b.toNat : Int)

/-- The C library function `strncmp`. -/
def strncmp (p q : List Char) (n : Nat) : Int := strncmp_chars n (cstr p) (cstr q)

/-- A write of `bytes` into the storage `mem` at offset `off`; `none` when
the bytes do not fit (a write behind the storage). -/
def poke (mem : List Char) (off : Nat) (bytes : List Char) : Option (List Char) :=
  if off + bytes.length ≤ mem.length then
    some (mem.take off ++ bytes ++ mem.drop (off + bytes.length))
  else none

/-- The C library function `strncpy(dst, src, n)`: exactly `n` bytes are
written, the characters of `src` and then zeros. The result is the storage
of `dst` afterwards. -/
def strncpy (dst src : List Char) (n : Nat) : Option (List Char) :=
  poke dst 0 ((cstr src).take n ++ List.replicate (n - strlen src) NUL)

/-- The C library function `strncat(dst, src, n)`: at most `n` characters
of `src` and a terminating zero are written at the end of the C string in
`dst`, which has to end inside of its storage. -/
def strncat (dst src : List Char) (n : Nat) : Option (List Char) :=
  if strlen dst < dst.length then poke dst (strlen dst) ((cstr src).take n ++ [NUL])
  else none

/-- Modelled from the spec: the constant `npos` of `String.hpp`, which is
not in the sources: the largest `u32`, used as `(u32)npos` in `String.cpp`. -/
def npos : Nat := 2 ^ 32 - 1

/-- The class `var::String` with what it inherits from `var::Data`
(Data.hpp): the bytes of the storage at `m_mem` (`m_capacity` is their
number; none for an object with no data, whose `m_mem` points to a zero),
whether `m_mem_write` is not null, and whether the storage can be
reallocated (it is dynamically allocated, or there is none yet). -/
structure String where
  mem : List Char
  writable : Bool
  resizable : Bool
  deriving DecidableEq

namespace String

/-- The constructor `Data()`: "Data object with no data". -/
def no_data : String := ⟨[], false, true⟩

/-- Modelled from the spec: `c_str()` of `String.hpp`, which is not in the
sources: the pointer to the characters, `cdata_const()` of Data.hpp. -/
def c_str (x : String) : List Char := x.mem

/-- `char * cdata() const { return (char *)m_mem_write; }` of Data.hpp: the
storage, or `none` for the null pointer. -/
def cdata (x : String) : Option (List Char) := if x.writable then some x.mem else none

/-- Modelled from the spec: `size()` of `String.hpp`, which is not in the
sources: the length query of the text buffer, the length of the C string
held (Data.hpp: "Var::String will return the size of the string"). -/
def size (x : String) : Nat := strlen x.c_str

/-- The text a string holds: the C string at `c_str()`. -/
def contents (x : String) : List Char := cstr x.c_str

/-- `u32 String::capacity() const`: `Data::capacity() - 1`, or zero when
`Data::capacity()` is zero. -/
def capacity (x : String) : Nat := if x.mem.length ≠ 0 then x.mem.length - 1 else 0

/-- Modelled from the spec: `Data::set_capacity(s)`, which is not in the
sources, after the documentation of `set_min_capacity` and `alloc` in
Data.hpp: nothing happens when the capacity is at least `s`; otherwise the
storage is reallocated with the old data copied, which fails with -1 for
storage that cannot be reallocated and when the allocator fails. `fresh` is
the allocator's answer: `none` when it fails, otherwise the bytes found in
the added storage. -/
def data_set_capacity (x : String) (s : Nat) (fresh : Option (List Char)) : Int × String :=
  if s ≤ x.mem.length then (0, x)
  else if x.resizable then
    match fresh with
    | some bytes =>
      if s ≤ x.mem.length + bytes.length then (0, ⟨x.mem ++ bytes, true, true⟩) else (-1, x)
    | none => (-1, x)
  else (-1, x)

/-- `int String::set_capacity(u32 s)`: -1 if `Data::set_capacity(s+1) < 0`,
otherwise 0. -/
def set_capacity (x : String) (s : Nat) (fresh : Option (List Char)) : Int × String :=
  if (x.data_set_capacity ((s + 1) % 2 ^ 32) fresh).1 < 0 then
    (-1, (x.data_set_capacity ((s + 1) % 2 ^ 32) fresh).2)
  else (0, (x.data_set_capacity ((s + 1) % 2 ^ 32) fresh).2)

/-- Modelled from the spec: `clear()`, which is not in the sources, after
the documentation of `Data::clear` in Data.hpp: "Write all zeros to the
data. This will not attempt to write read-only data." -/
def clear (x : String) : String :=
  if x.writable then { x with mem := List.replicate x.mem.length NUL } else x

/-- `int String::assign(const char * a, u32 n)`; `a` is `none` for a null
pointer. The result is the return value and the string afterwards. -/
def assign_n (x : String) (a : Option (List Char)) (n : Nat) (fresh : Option (List Char)) :
    Option (Int × String) :=
  match a with
  | some p =>
    if (x.set_capacity (if n = npos then strlen p else n) fresh).1 < 0 then
      some (-1, (x.set_capacity (if n = npos then strlen p else n) fresh).2)
    else
      match ((x.set_capacity (if n = npos then strlen p else n) fresh).2).clear.cdata with
      | none => none
      | some dst =>
        match strncpy dst p (if n = npos then strlen p else n) with
        | some m =>
          some (0, { ((x.set_capacity (if n = npos then strlen p else n) fresh).2).clear
            with mem := m })
        | none => none
  | none => some (0, x.clear)

/-- `int String::append(const char * a)`; the result of `set_capacity` is
not looked at. -/
def append (x : String) (a : Option (List Char)) (fresh : Option (List Char)) :
    Option (Int × String) :=
  match a with
  | none => some (0, x)
  | some p =>
    match (if x.size = 0 then ((x.set_capacity ((x.size + strlen p) % 2 ^ 32) fresh).2).clear
        else (x.set_capacity ((x.size + strlen p) % 2 ^ 32) fresh).2) with
    | x2 =>
      match x2.cdata with
      | none => some (-1, x2)
      | some dst =>
        match strncat dst p ((x2.capacity + 2 ^ 32 - x.size) % 2 ^ 32) with
        | some m => some (0, { x2 with mem := m })
        | none => none

/-- `int String::append(char c)`: `strncat(cdata(),&c,1)` after
`set_capacity(len + alen + 1)`. -/
def append_char (x : String) (c : Char) (fresh : Option (List Char)) :
    Option (Int × String) :=
  match ((x.set_capacity ((x.size + 1 + 1) % 2 ^ 32) fresh).2).cdata with
  | none => some (-1, (x.set_capacity ((x.size + 1 + 1) % 2 ^ 32) fresh).2)
  | some dst =>
    match strncat dst [c] 1 with
    | some m => some (0, { (x.set_capacity ((x.size + 1 + 1) % 2 ^ 32) fresh).2 with mem := m })
    | none => none

/-- The constructor `String()`: `set_capacity(minimum_size()-1); clear();`
on an object with no data. `minimum_size()` is declared in `String.hpp`,
which is not in the sources, and is a parameter. -/
def ctor (minimum_size : Nat) (fresh : Option (List Char)) : String :=
  ((no_data.set_capacity ((minimum_size + 2 ^ 32 - 1) % 2 ^ 32) fresh).2).clear

/-- `String String::substr(u32 pos, u32 len) const`; `fresh1` answers the
allocation of the constructor of the result and `fresh2` that of `assign`
(`set_transfer_ownership` does not change the text). -/
def substr (x : String) (pos len : Nat) (minimum_size : Nat)
    (fresh1 fresh2 : Option (List Char)) : Option String :=
  if pos ≥ x.size then some (ctor minimum_size fresh1)
  else
    match (ctor minimum_size fresh1).assign_n (some (x.c_str.drop pos)) len fresh2 with
    | some (_, ret) => some ret
    | none => none

/-- The loop `for(i=pos; i < size(); i++)` of `find(s, pos, n)` started at
`i`, which returns `i` when `strncmp(c_str() + i, s, n) == 0`; `npos` when
the loop ends. The loop runs at most `size() - pos` times, which is the
first argument. -/
def find_loop (x : String) (s : List Char) (n : Nat) : Nat → Nat → Nat
  | 0, _ => npos
  | fuel + 1, i =>
    if i < x.size then
      if strncmp (x.c_str.drop i) s n = 0 then i else find_loop x s n fuel (i + 1)
    else npos

/-- `u32 String::find(const char * s, u32 pos, u32 n) const` -/
def find_n (x : String) (s : Option (List Char)) (pos n : Nat) : Nat :=
  match s with
  | some p => x.find_loop p n (x.size - pos) pos
  | none => npos

/-- `u32 String::find(const char * str, u32 pos) const`: `npos` for a null
pointer, otherwise `find(str, pos, len)` with `int len = strlen(str)`. -/
def find (x : String) (str : Option (List Char)) (pos : Nat) : Nat :=
  match str with
  | none => npos
  | some p => x.find_n (some p) pos (strlen p % 2 ^ 32)

/-- The loop `for(i=size()-n; i >= (s32)pos; i--)` of `rfind(s, pos, n)`
started at `i`, which returns `i` when `strncmp(c_str() + i, s, n) == 0`;
`npos` when the loop ends, `none` when `c_str() + i` lies in front of the
storage. The first argument bounds the number of rounds. -/
def rfind_loop (x : String) (s : List Char) (n : Nat) (spos : Int) : Nat → Int → Option Nat
  | 0, _ => some npos
  | fuel + 1, i =>
    if i ≥ spos then
      if i < 0 then none
      else if strncmp (x.c_str.drop i.toNat) s n = 0 then some i.toNat
      else rfind_loop x s n spos fuel (i - 1)
    else some npos

/-- `u32 String::rfind(const char * s, u32 pos, u32 n) const`: `n` is cut
down to `strlen(s)`, `i` is an `s32` that starts at `size()-n`, and `pos` is
compared as an `s32`. -/
def rfind_n (x : String) (s : Option (List Char)) (pos n : Nat) : Option Nat :=
  match s with
  | some p =>
    x.rfind_loop p (if n > strlen p then strlen p else n) (to_signed 32 pos)
      (to_signed 32 ((x.size + 2 ^ 32 - (if n > strlen p then strlen p else n)) % 2 ^ 32) -
        to_signed 32 pos + 1).toNat
      (to_signed 32 ((x.size + 2 ^ 32 - (if n > strlen p then strlen p else n)) % 2 ^ 32))
  | none => some npos

/-- `u32 String::rfind(const char * str, u32 pos) const`: `npos` for a null
pointer, otherwise `rfind(str, pos, len)` with `int len = strlen(str)`. -/
def rfind (x : String) (str : Option (List Char)) (pos : Nat) : Option Nat :=
  match str with
  | none => some npos
  | some p => x.rfind_n (some p) pos (strlen p % 2 ^ 32)

/-- `int String::compare(const char * s) const`: `npos` (as an `int`) for a
null pointer, otherwise `strcmp(s, c_str())`. -/
def compare (x : String) (s : Option (List Char)) : Int :=
  match s with
  | none => to_signed 32 npos
  | some p => strcmp p x.c_str

/-- `int String::compare(const String & str) const { return compare(str.c_str()); }` -/
def compare_String (x str : String) : Int := x.compare (some str.c_str)

/-- A string object that holds the text `s` in storage of its own, with
the terminating zero. -/
def of_text (s : List Char) : String := ⟨s ++ [NUL], true, true⟩

end String

end var

/-- The text `str` occurs in the text of `x` starting at index `i`. -/
def var.String.occurs_at (x : var.String) (str : List Char) (i : Nat) : Prop :=
  var.cstr str <+: x.contents.drop i

/-! # Theorems -/

set_option maxRecDepth 100000

/-! ## Fmt::Xml: the example document -/

/-- C1: on the example document `value("gpx(version)")` yields `1.0`,
`value("gpx.wpt[0].ele")` yields `44.586548` and `value("gpx.wpt[1].ele")`
yields `57.607200`, each with return code zero. -/
theorem C1_value_on_example :
    gpx_xml.value (some "gpx(version)".toList) = .ok "1.0".toList ∧
    (gpx_xml.value (some "gpx(version)".toList)).code = 0 ∧
    gpx_xml.value (some "gpx.wpt[0].ele".toList) = .ok "44.586548".toList ∧
    (gpx_xml.value (some "gpx.wpt[0].ele".toList)).code = 0 ∧
    gpx_xml.value (some "gpx.wpt[1].ele".toList) = .ok "57.607200".toList ∧
    (gpx_xml.value (some "gpx.wpt[1].ele".toList)).code = 0 := by
  decide

/-- C2: on the example document `find("gpx")` succeeds and the calls of
`child` that follow return `time`, `bounds`, `wpt`, `wpt` in this order; the
fifth call reports `NoMoreItems`. -/
theorem C2_children_of_gpx :
    (gpx_xml.find "gpx".toList).1 = .ok () ∧
    (gpx_xml.find "gpx".toList).2.nth_child 0 = .ok "time".toList ∧
    (gpx_xml.find "gpx".toList).2.nth_child 1 = .ok "bounds".toList ∧
    (gpx_xml.find "gpx".toList).2.nth_child 2 = .ok "wpt".toList ∧
    (gpx_xml.find "gpx".toList).2.nth_child 3 = .ok "wpt".toList ∧
    (gpx_xml.find "gpx".toList).2.nth_child 4 = .error .NoMoreItems := by
  decide

/-! ## Fmt::Xml: bounds of the Tag Locator -/

/-- The opening bracket found by `seekOpen` lies inside the region. -/
theorem seekOpen_lt : ∀ (l : List Char) (k : Nat), seekOpen l = some k → k < l.length
  | [], k, h => by simp [seekOpen] at h
  | c :: cs, k, h => by
    unfold seekOpen at h
    split at h
    · cases h
      simp
    · cases hs : seekOpen cs with
      | none => simp [hs] at h
      | some m =>
        have hm := seekOpen_lt cs m hs
        simp [hs] at h
        subst h
        simp only [List.length_cons]
        omega

/-- The terminator found by `seekTerm` ends inside the region. -/
theorem seekTerm_le (term : List Char) :
    ∀ (l : List Char) (n : Nat), seekTerm term l = some n → n ≤ l.length ∧ term.length ≤ n
  | [], n, h => by simp [seekTerm] at h
  | c :: cs, n, h => by
    unfold seekTerm at h
    split at h
    · rename_i hp
      cases h
      exact ⟨(List.isPrefixOf_iff_prefix.mp hp).length_le, le_refl _⟩
    · cases hs : seekTerm term cs with
      | none => simp [hs] at h
      | some m =>
        have hm := seekTerm_le term cs m hs
        simp [hs] at h
        subst h
        simp only [List.length_cons]
        omega

/-- The length of the prefix `opening` reports is at least one. -/
theorem opening_pos (s : List Char) : 1 ≤ (opening s).2.1 := by
  unfold opening
  split
  · simp
  · split
    · simp
    · split <;> simp

/-- A token lies inside the scanned region and is not empty. -/
theorem nextToken_bounds (l : List Char) (t : Token) (h : nextToken l = .ok (some t)) :
    t.skip + t.len ≤ l.length ∧ 1 ≤ t.len := by
  unfold nextToken at h
  split at h
  · simp at h
  · rename_i k hk
    split at h
    · simp at h
    · rename_i n hn
      have hlt := seekOpen_lt l k hk
      have hle := (seekTerm_le _ _ n hn).1
      have hpos := opening_pos (l.drop k)
      have hne : (l.drop k).drop (opening (l.drop k)).2.1 ≠ [] := by
        intro he
        rw [he] at hn
        simp [seekTerm] at hn
      have hlen : 0 < ((l.drop k).drop (opening (l.drop k)).2.1).length :=
        List.length_pos.mpr hne
      simp only [List.length_drop] at hle hlen
      injection h with h
      injection h with h
      subst h
      simp only
      omega

/-- The end tag found by `matchEnd` lies inside the scanned bytes. -/
theorem matchEnd_bounds (name : List Char) :
    ∀ (fuel depth : Nat) (l : List Char) (p e : Nat),
      matchEnd name fuel depth l = .ok (p, e) → p + e ≤ l.length
  | 0, _, _, _, _, h => by simp [matchEnd] at h
  | fuel + 1, depth, l, p, e, h => by
    unfold matchEnd at h
    cases ht : nextToken l with
    | error err => simp [ht] at h
    | ok o =>
      cases o with
      | none => simp [ht] at h
      | some t =>
        have hb := nextToken_bounds l t ht
        simp only [ht] at h
        split at h
        · injection h with h
          injection h with h1 h2
          subst h1 h2
          exact hb.1
        · split at h
          · rename_i p' e' hrec
            have := matchEnd_bounds name fuel _ _ p' e' hrec
            injection h with h
            injection h with h1 h2
            subst h1 h2
            simp only [List.length_drop] at this
            omega
          · simp at h

/-- An element lies inside the scanned region, is not empty and holds both
of its tags. -/
theorem nextElementAux_bounds :
    ∀ (fuel : Nat) (l : List Char) (el : Element),
      nextElementAux fuel l = .ok (some el) →
        el.skip + el.size ≤ l.length ∧ 1 ≤ el.size ∧
          el.start_tag_size + el.end_tag_size ≤ el.size
  | 0, _, _, h => by simp [nextElementAux] at h
  | fuel + 1, l, el, h => by
    unfold nextElementAux at h
    cases ht : nextToken l with
    | error err => simp [ht] at h
    | ok o =>
      cases o with
      | none => simp [ht] at h
      | some t =>
        have hb := nextToken_bounds l t ht
        simp only [ht] at h
        split at h
        · simp at h
        · injection h with h
          injection h with h
          subst h
          simp only
          omega
        · split at h
          · rename_i p e hm
            have := matchEnd_bounds _ _ _ _ p e hm
            injection h with h
            injection h with h
            subst h
            simp only [List.length_drop] at this
            simp only
            omega
          · simp at h
        · split at h
          · rename_i el' hrec
            have := nextElementAux_bounds fuel _ el' hrec
            injection h with h
            injection h with h
            subst h
            simp only [List.length_drop] at this
            simp only
            omega
          · rename_i r hr
            exact absurd h (hr el)

/-- The bounds of `nextElementAux`, for `nextElement`. -/
theorem nextElement_bounds (l : List Char) (el : Element)
    (h : nextElement l = .ok (some el)) :
    el.skip + el.size ≤ l.length ∧ 1 ≤ el.size ∧
      el.start_tag_size + el.end_tag_size ≤ el.size :=
  nextElementAux_bounds _ l el h

/-- The element selected by `findNamed` lies inside the scanned region and
holds both of its tags. -/
theorem findNamed_bounds (name : List Char) :
    ∀ (fuel index : Nat) (l : List Char) (el : Element),
      findNamed name fuel index l = .ok el →
        el.skip + el.size ≤ l.length ∧ 1 ≤ el.size ∧
          el.start_tag_size + el.end_tag_size ≤ el.size
  | 0, _, _, _, h => by simp [findNamed] at h
  | fuel + 1, index, l, el, h => by
    unfold findNamed at h
    cases hn : nextElement l with
    | error err => simp [hn] at h
    | ok o =>
      cases o with
      | none => simp [hn] at h
      | some e1 =>
        have hb := nextElement_bounds l e1 hn
        simp only [hn] at h
        split at h
        · injection h with h
          subst h
          exact hb
        · split at h
          · rename_i r hrec
            have := findNamed_bounds name fuel _ _ r hrec
            injection h with h
            subst h
            simp only [List.length_drop] at this
            simp only
            omega
          · simp at h

/-- An attribute found by `nextAttribute` ends inside the scanned bytes. -/
theorem nextAttribute_bounds (l : List Char) (a : Attribute) (h : nextAttribute l = some a) :
    a.next ≤ l.length ∧ 1 ≤ a.next := by
  unfold nextAttribute at h
  split at h
  · rename_i r hr
    split at h
    · rename_i c rest hq
      split at h
      · simp at h
      · injection h with h
        subst h
        simp only
        have h1 : ((l.dropWhile Char.isWhitespace).dropWhile
            (fun c => c != '=' && !isNameEnd c)).length ≤ l.length :=
          le_trans (List.dropWhile_suffix _).length_le (List.dropWhile_suffix _).length_le
        rw [hr] at h1
        have h2 := congrArg List.length
          (List.takeWhile_append_dropWhile (fun c => c != '"') r)
        rw [hq] at h2
        simp only [List.length_append, List.length_cons] at h1 h2
        omega
    · simp at h
  · simp at h

/-! ## Fmt::Xml: the Context invariant -/

/-- The window of a context is no longer than the context's size. -/
theorem Xml.window_length_le (x : Xml) (c : context_t) :
    (x.window c).length ≤ c.size.toNat := by
  unfold Xml.window
  simp only [List.length_take]
  omega

/-- The inner content of a context is no longer than the context's size. -/
theorem Xml.inner_length_le (x : Xml) (c : context_t) :
    (x.inner c).length ≤ c.size.toNat := by
  have := x.window_length_le c
  unfold Xml.inner
  simp only [List.length_drop, List.length_take]
  omega

/-- The attribute list of a context is no longer than the context's size. -/
theorem Xml.attrList_length_le (x : Xml) (c : context_t) :
    (attrList (x.startTag c)).length ≤ c.size.toNat := by
  have := x.window_length_le c
  unfold attrList Xml.startTag
  simp only [List.length_drop, List.length_take]
  omega

/-- The document root context satisfies the invariant. -/
theorem Xml.root_valid (x : Xml) : x.root.valid := by
  unfold Xml.root context_t.valid
  simp

/-- The context of a located element satisfies the invariant. -/
theorem Element.context_valid (base : Nat) (el : Element)
    (h : el.start_tag_size + el.end_tag_size ≤ el.size) : (el.context base).valid := by
  unfold Element.context context_t.valid
  simp only
  omega

/-- The context of an attribute value satisfies the invariant. -/
theorem Xml.attrContext_valid (x : Xml) (c a : context_t) (key : List Char)
    (h : x.attrContext c key = .ok a) : a.valid := by
  unfold Xml.attrContext at h
  split at h
  · injection h with h
    subst h
    unfold context_t.valid
    simp
  · simp at h

/-- The target of a resolved path satisfies the invariant when the context
the resolution starts from does. -/
theorem Xml.resolve_valid (x : Xml) :
    ∀ (segs : List Segment) (c t : context_t) (b : Bool),
      c.valid → x.resolve segs c = .ok (t, b) → t.valid
  | [], c, t, b, hc, h => by
    simp only [Xml.resolve] at h
    injection h with h
    injection h with h1 h2
    subst h1
    exact hc
  | seg :: rest, c, t, b, hc, h => by
    unfold Xml.resolve at h
    split at h
    · simp at h
    · rename_i target htarget
      have hvalid : target.valid := by
        split at htarget
        · injection htarget with htarget
          subst htarget
          exact hc
        · split at htarget
          · rename_i el hel
            injection htarget with htarget
            subst htarget
            exact Element.context_valid _ el (findNamed_bounds _ _ _ _ el hel).2.2
          · simp at htarget
      split at h
      · split at h
        · rename_i a ha
          injection h with h
          injection h with h1 h2
          subst h1
          exact x.attrContext_valid target a _ ha
        · simp at h
      · exact Xml.resolve_valid x rest target t b hvalid h

/-- After `find` the current context satisfies the invariant if it did
before: it is either the resolved target or unchanged. -/
theorem Xml.find_valid (x : Xml) (str : List Char) (h : x.content.valid) :
    (x.find str).2.content.valid := by
  unfold Xml.find
  split
  · exact h
  · split
    · rename_i target b hres
      exact x.resolve_valid _ _ target b x.root_valid hres
    · exact h

/-- After a successful `find` the current context satisfies the invariant. -/
theorem Xml.find_ok_valid (x : Xml) (str : List Char) (h : (x.find str).1 = .ok ()) :
    (x.find str).2.content.valid := by
  cases hp : parsePath str with
  | error e => simp [Xml.find, hp] at h
  | ok segs =>
    cases hr : x.resolve segs x.root with
    | error e => simp [Xml.find, hp, hr] at h
    | ok p =>
      obtain ⟨target, b⟩ := p
      simp only [Xml.find, hp, hr]
      exact x.resolve_valid _ _ target b x.root_valid hr

/-- After `find_next` the current context satisfies the invariant if it did
before. -/
theorem Xml.find_next_valid (x : Xml) (str : List Char) (h : x.content.valid) :
    (x.find_next str).2.content.valid := by
  unfold Xml.find_next
  split
  · exact h
  · split
    · exact h
    · split
      · rename_i el hel
        exact Element.context_valid _ el (findNamed_bounds _ _ _ _ el hel).2.2
      · exact h

/-- After a successful `find_next` the current context satisfies the
invariant. -/
theorem Xml.find_next_ok_valid (x : Xml) (str : List Char)
    (h : (x.find_next str).1 = .ok ()) : (x.find_next str).2.content.valid := by
  cases hp : parsePath str with
  | error e => simp [Xml.find_next, hp] at h
  | ok segs =>
    cases hl : segs.getLast? with
    | none => simp [Xml.find_next, hp, hl] at h
    | some seg =>
      cases hf : findNamed seg.name
          ((x.stream.drop (x.content.offset.toNat + x.content.size.toNat)).length + 1) 0
          (x.stream.drop (x.content.offset.toNat + x.content.size.toNat)) with
      | error e =>
        simp only [Xml.find_next, hp, hl, hf] at h
        simp at h
      | ok el =>
        simp only [Xml.find_next, hp, hl, hf]
        exact Element.context_valid _ el (findNamed_bounds _ _ _ _ el hf).2.2

/-- After `child` the current context satisfies the invariant if it did
before: the cursor stays inside the window. -/
theorem Xml.child_valid (x : Xml) (b : Bool) (h : x.content.valid) :
    (x.child b).2.content.valid := by
  unfold Xml.child
  split
  · exact h
  · exact h
  · rename_i el hel
    have hb := nextElement_bounds _ el hel
    have hi := x.inner_length_le x.content
    unfold Xml.remaining at hb
    simp only [List.length_drop] at hb
    unfold context_t.valid at h ⊢
    simp only
    omega

/-- After `attr` the current context satisfies the invariant if it did
before. -/
theorem Xml.attr_valid (x : Xml) (h : x.content.valid) : x.attr.2.content.valid := by
  unfold Xml.attr
  split
  · exact h
  · rename_i a ha
    have hb := nextAttribute_bounds _ a ha
    have hi := x.attrList_length_le x.content
    simp only [List.length_drop] at hb
    unfold context_t.valid at h ⊢
    simp only
    omega

/-! ## Fmt::Xml: `count` and the enumeration by `child` -/

/-- After a successful call of `child` the bytes left to scan are those
behind the returned element. -/
theorem Xml.child_remaining (x : Xml) (el : Element)
    (hel : nextElement x.remaining = .ok (some el)) :
    ((x.child false).2).remaining = x.remaining.drop (el.skip + el.size) := by
  unfold Xml.child
  simp only [hel]
  unfold Xml.remaining Xml.inner Xml.window
  simp only [Int.toNat_ofNat, List.drop_drop]
  congr 1
  omega

/-- The first call of `child` succeeds exactly when the scan of the bytes
left finds an element, whose name it returns. -/
theorem Xml.nth_child_zero (x : Xml) (name : List Char) :
    x.nth_child 0 = .ok name ↔
      ∃ el, nextElement x.remaining = .ok (some el) ∧ el.name = name := by
  unfold Xml.nth_child Xml.after_children Xml.child
  cases hn : nextElement x.remaining with
  | error e => simp
  | ok o =>
    cases o with
    | none => simp
    | some el => simp

/-- Call `n + 1` of a row of calls is call `n` of the row that starts
after the first call. -/
theorem Xml.nth_child_succ (x : Xml) (n : Nat) :
    x.nth_child (n + 1) = ((x.child false).2).nth_child n := by
  unfold Xml.nth_child
  rfl

/-- The scan of `count` over the bytes `child` has still to scan finds as
many elements as there are successful calls of `child` in a row. -/
theorem Xml.countElements_remaining :
    ∀ (n : Nat) (x : Xml) (fuel : Nat),
      (∀ i, i < n → ∃ name, x.nth_child i = .ok name) →
      (∀ name, x.nth_child n ≠ .ok name) →
      x.remaining.length < fuel →
      countElements fuel x.remaining = n
  | 0, x, fuel, _, hend, hfuel => by
    cases fuel with
    | zero => omega
    | succ fuel =>
      unfold countElements
      split
      · rename_i el hel
        exact absurd ((x.nth_child_zero el.name).mpr ⟨el, hel, rfl⟩) (hend el.name)
      · rfl
  | n + 1, x, fuel, hok, hend, hfuel => by
    obtain ⟨name, hname⟩ := hok 0 (by omega)
    obtain ⟨el, hel, _⟩ := (x.nth_child_zero name).mp hname
    have hrem := x.child_remaining el hel
    have hb := nextElement_bounds _ el hel
    cases fuel with
    | zero => omega
    | succ fuel =>
      unfold countElements
      simp only [hel]
      rw [← hrem]
      have ih := Xml.countElements_remaining n ((x.child false).2) fuel
        (fun i hi => by
          obtain ⟨nm, hnm⟩ := hok (i + 1) (by omega)
          exact ⟨nm, by rw [← x.nth_child_succ i]; exact hnm⟩)
        (fun nm => by rw [← x.nth_child_succ n]; exact hend nm)
        (by rw [hrem, List.length_drop]; omega)
      rw [ih]

/-- C3: for every engine state whose context has a fresh cursor, if the
first `n` calls of `child` succeed and the next one reports `NoMoreItems`,
then `count()` is `n`; and `count()` leaves the engine, and with it the
cursor `child` resumes from, unchanged. -/
theorem C3_count_agrees_with_child (x : Xml) (n : Nat)
    (hfresh : x.content.cursor = 0)
    (hok : ∀ i, i < n → ∃ name, x.nth_child i = .ok name)
    (hend : x.nth_child n = .error .NoMoreItems) :
    x.count.1 = n ∧ x.count.2 = x := by
  refine ⟨?_, rfl⟩
  have hrem : x.remaining = x.inner x.content := by
    unfold Xml.remaining
    rw [hfresh]
    rfl
  have h := Xml.countElements_remaining n x ((x.inner x.content).length + 1) hok
    (fun nm hnm => by rw [hend] at hnm; cases hnm) (by rw [hrem]; omega)
  rw [hrem] at h
  exact h

/-- C3 witness: the context of `gpx` in the example document, where four
calls of `child` succeed and the fifth reports `NoMoreItems`. -/
theorem C3_count_agrees_with_child_witness :
    ((gpx_xml.setcontext ⟨0, 810, 264, 6, 0⟩).content.cursor = 0 ∧
      (∀ i, i < 4 → ∃ name, (gpx_xml.setcontext ⟨0, 810, 264, 6, 0⟩).nth_child i = .ok name) ∧
      (gpx_xml.setcontext ⟨0, 810, 264, 6, 0⟩).nth_child 4 = .error .NoMoreItems) ∧
    ((gpx_xml.setcontext ⟨0, 810, 264, 6, 0⟩).count.1 = 4 ∧
      (gpx_xml.setcontext ⟨0, 810, 264, 6, 0⟩).count.2 = gpx_xml.setcontext ⟨0, 810, 264, 6, 0⟩) := by
  have hok : ∀ i, i < 4 →
      ∃ name, (gpx_xml.setcontext ⟨0, 810, 264, 6, 0⟩).nth_child i = .ok name := by
    intro i hi
    interval_cases i
    · exact ⟨"time".toList, by decide⟩
    · exact ⟨"bounds".toList, by decide⟩
    · exact ⟨"wpt".toList, by decide⟩
    · exact ⟨"wpt".toList, by decide⟩
  have hend : (gpx_xml.setcontext ⟨0, 810, 264, 6, 0⟩).nth_child 4 = .error .NoMoreItems := by
    decide
  exact ⟨⟨rfl, hok, hend⟩,
    C3_count_agrees_with_child (gpx_xml.setcontext ⟨0, 810, 264, 6, 0⟩) 4 rfl hok hend⟩

/-! ## Fmt::Xml: writing an element and reading it back -/

/-- Text without `<` holds no opening bracket. -/
theorem seekOpen_none : ∀ (a : List Char), (∀ c ∈ a, c ≠ '<') → seekOpen a = none
  | [], _ => rfl
  | c :: cs, h => by
    unfold seekOpen
    rw [if_neg (h c (List.mem_cons_self c cs)),
      seekOpen_none cs (fun d hd => h d (List.mem_cons_of_mem c hd))]
    rfl

/-- The first `<` behind text without `<` is the opening bracket. -/
theorem seekOpen_append : ∀ (a b : List Char), (∀ c ∈ a, c ≠ '<') →
    seekOpen (a ++ '<' :: b) = some a.length
  | [], b, _ => by simp [seekOpen]
  | c :: cs, b, h => by
    rw [List.cons_append]
    unfold seekOpen
    rw [if_neg (h c (List.mem_cons_self c cs)),
      seekOpen_append cs b (fun d hd => h d (List.mem_cons_of_mem c hd))]
    rfl

/-- The first `>` behind bytes without `>` is the terminator. -/
theorem seekTerm_append : ∀ (a b : List Char), (∀ c ∈ a, c ≠ '>') →
    seekTerm ['>'] (a ++ '>' :: b) = some (a.length + 1)
  | [], b, _ => by simp [seekTerm]
  | c :: cs, b, h => by
    rw [List.cons_append]
    unfold seekTerm
    have hc : c ≠ '>' := h c (List.mem_cons_self c cs)
    have hp : List.isPrefixOf ['>'] (c :: (cs ++ '>' :: b)) = false := by
      simp [List.isPrefixOf, Ne.symm hc]
    rw [hp, seekTerm_append cs b (fun d hd => h d (List.mem_cons_of_mem c hd))]
    rfl

/-- A `<` followed by neither `!` nor `?` opens a tag. -/
theorem opening_tag (c : Char) (r : List Char) (h1 : c ≠ '!') (h2 : c ≠ '?') :
    opening ('<' :: c :: r) = (none, 1, ['>']) := by
  have e1 : "<![CDATA[".toList = '<' :: '!' :: "[CDATA[".toList := rfl
  have e2 : "<!--".toList = '<' :: '!' :: "--".toList := rfl
  have e3 : "<?".toList = ['<', '?'] := rfl
  have e4 : ">".toList = ['>'] := rfl
  unfold opening
  rw [e1, e2, e3, e4]
  simp [List.isPrefixOf, Ne.symm h1, Ne.symm h2]

/-- A prefix of bytes followed by `c` that does not hold `c` is a prefix of
those bytes. -/
theorem prefix_of_append_stop (c : Char) (rest : List Char) :
    ∀ (p a : List Char), (∀ d ∈ p, d ≠ c) → p <+: a ++ c :: rest → p <+: a
  | [], a, _, _ => List.nil_prefix
  | d :: ps, [], h, hp => by
    rw [List.nil_append, List.cons_prefix_cons] at hp
    exact absurd hp.1 (h d (List.mem_cons_self d ps))
  | d :: ps, e :: as, h, hp => by
    rw [List.cons_append, List.cons_prefix_cons] at hp
    rw [List.cons_prefix_cons]
    exact ⟨hp.1, prefix_of_append_stop c rest ps as
      (fun x hx => h x (List.mem_cons_of_mem d hx)) hp.2⟩

/-- The `<` in front of a name without `[` that starts neither with `?`
nor with `!--` opens a tag: none of the literal prefixes matches. -/
theorem opening_name (name post : List Char) (hbr : ∀ d ∈ name, d ≠ '[')
    (hq : name.head? ≠ some '?') (hcom : "!--".toList.isPrefixOf name = false) :
    opening ('<' :: (name ++ '>' :: post)) = (none, 1, ['>']) := by
  have e1 : "<![CDATA[".toList = '<' :: "![CDATA[".toList := rfl
  have e2 : "<!--".toList = '<' :: "!--".toList := rfl
  have e3 : "<?".toList = '<' :: ['?'] := rfl
  have e4 : ">".toList = ['>'] := rfl
  have h1 : List.isPrefixOf "<![CDATA[".toList ('<' :: (name ++ '>' :: post)) = false := by
    rw [Bool.eq_false_iff]
    intro h
    have hp := List.isPrefixOf_iff_prefix.mp h
    rw [e1, List.cons_prefix_cons] at hp
    have hin := prefix_of_append_stop '>' post _ name (by decide) hp.2
    exact hbr '[' (hin.subset (by decide)) rfl
  have h2 : List.isPrefixOf "<!--".toList ('<' :: (name ++ '>' :: post)) = false := by
    rw [Bool.eq_false_iff]
    intro h
    have hp := List.isPrefixOf_iff_prefix.mp h
    rw [e2, List.cons_prefix_cons] at hp
    have hin := prefix_of_append_stop '>' post _ name (by decide) hp.2
    rw [List.isPrefixOf_iff_prefix.mpr hin] at hcom
    cases hcom
  have h3 : List.isPrefixOf "<?".toList ('<' :: (name ++ '>' :: post)) = false := by
    rw [Bool.eq_false_iff]
    intro h
    have hp := List.isPrefixOf_iff_prefix.mp h
    rw [e3, List.cons_prefix_cons] at hp
    obtain ⟨t, ht⟩ := prefix_of_append_stop '>' post _ name (by decide) hp.2
    apply hq
    rw [← ht]
    rfl
  unfold opening
  rw [h1, h2, h3, e4]
  simp

/-- The token the locator finds for a tag `<body>` behind text, when the
`<` opens a tag and `body` holds no `>`. -/
theorem nextToken_tag (pre body post : List Char) (hpre : ∀ d ∈ pre, d ≠ '<')
    (hop : opening ('<' :: (body ++ '>' :: post)) = (none, 1, ['>']))
    (hgt : ∀ d ∈ body, d ≠ '>') :
    nextToken (pre ++ '<' :: (body ++ '>' :: post)) =
      .ok (some ⟨pre.length, body.length + 2, tagKind ('<' :: (body ++ ['>']))⟩) := by
  unfold nextToken
  rw [seekOpen_append pre _ hpre]
  simp only [List.drop_left]
  rw [hop]
  simp only [List.drop_succ_cons, List.drop_zero]
  rw [seekTerm_append body post hgt]
  simp only [Option.getD_none]
  have htake : List.take (1 + (body.length + 1)) ('<' :: (body ++ '>' :: post)) =
      '<' :: (body ++ ['>']) := by
    rw [show 1 + (body.length + 1) = (body.length + 1) + 1 by omega, List.take_succ_cons]
    congr 1
    have : body ++ '>' :: post = (body ++ ['>']) ++ post := by simp
    rw [this, show body.length + 1 = (body ++ ['>']).length by simp, List.take_left]
  rw [htake]
  congr 3
  omega

/-- Bytes that satisfy `p` in front of one that does not are what
`takeWhile p` takes. -/
theorem takeWhile_append_stop (p : Char → Bool) :
    ∀ (a b : List Char) (e : Char), (∀ d ∈ a, p d = true) → p e = false →
      (a ++ e :: b).takeWhile p = a
  | [], b, e, _, he => by simp [List.takeWhile, he]
  | c :: cs, b, e, h, he => by
    rw [List.cons_append, List.takeWhile_cons, h c (List.mem_cons_self c cs)]
    simp only [if_true]
    rw [takeWhile_append_stop p cs b e (fun d hd => h d (List.mem_cons_of_mem c hd)) he]

/-- The start tag `<name>` of a name without white space, `/` and `>` is
classified as a start tag and carries that name. -/
theorem startTag_kind_name (name : List Char) (hne : name ≠ [])
    (hname : ∀ d ∈ name, isNameEnd d = false) :
    tagKind ('<' :: (name ++ ['>'])) = .startTag ∧ tagName ('<' :: (name ++ ['>'])) = name := by
  have hslash : ∀ d ∈ name, d ≠ '/' := by
    intro d hd he
    have := hname d hd
    rw [he] at this
    revert this
    decide
  obtain ⟨c, r, hcr⟩ := List.exists_cons_of_ne_nil hne
  have hhead : (List.drop 1 ('<' :: (name ++ ['>']))).head? ≠ some '/' := by
    rw [hcr]
    simp only [List.drop_succ_cons, List.drop_zero, List.cons_append, List.head?_cons]
    intro he
    injection he with he
    exact hslash c (by rw [hcr]; exact List.mem_cons_self c r) he
  constructor
  · unfold tagKind
    rw [if_neg hhead]
    have hlast : name = name.dropLast ++ [name.getLast hne] :=
      (List.dropLast_append_getLast hne).symm
    have hz : name.getLast hne ≠ '/' := hslash _ (List.getLast_mem hne)
    rw [if_neg]
    intro he
    have hlen : ('<' :: (name ++ ['>'])).length - 2 = ('<' :: name.dropLast).length := by
      simp only [List.length_cons, List.length_append, List.length_dropLast, List.length_nil]
      have := List.length_pos.mpr hne
      omega
    have hsplit : '<' :: (name ++ ['>']) =
        ('<' :: name.dropLast) ++ [name.getLast hne, '>'] := by
      conv_lhs => rw [hlast]
      simp
    rw [hlen, hsplit, List.drop_left] at he
    have e5 : "/>".toList = ['/', '>'] := rfl
    rw [e5] at he
    injection he with he
    exact hz he
  · unfold tagName
    rw [if_neg hhead]
    simp only [List.drop_succ_cons, List.drop_zero]
    exact takeWhile_append_stop _ name [] '>'
      (fun d hd => by rw [hname d hd]; rfl) (by decide)

/-- The end tag `</name>` is classified as an end tag and carries the name. -/
theorem endTag_kind_name (name : List Char) (hname : ∀ d ∈ name, isNameEnd d = false) :
    tagKind ('<' :: (('/' :: name) ++ ['>'])) = .endTag ∧
      tagName ('<' :: (('/' :: name) ++ ['>'])) = name := by
  constructor
  · unfold tagKind
    simp
  · unfold tagName
    simp only [List.cons_append, List.drop_succ_cons, List.drop_zero, List.head?_cons,
      if_true]
    exact takeWhile_append_stop _ name [] '>'
      (fun d hd => by rw [hname d hd]; rfl) (by decide)

/-- The matching end tag of `<name>` in `data</name>` follows the data. -/
theorem matchEnd_written (name data : List Char) (fuel : Nat)
    (hname : ∀ d ∈ name, isNameEnd d = false) (hdata : ∀ d ∈ data, d ≠ '<') :
    matchEnd name (fuel + 1) 0 (data ++ '<' :: (('/' :: name) ++ ['>'])) =
      .ok (data.length, name.length + 3) := by
  have hgt : ∀ d ∈ '/' :: name, d ≠ '>' := by
    intro d hd he
    rcases List.mem_cons.mp hd with h | h
    · rw [h] at he
      revert he
      decide
    · have := hname d h
      rw [he] at this
      revert this
      decide
  have htok := nextToken_tag data ('/' :: name) [] hdata
    (by rw [List.cons_append]; exact opening_tag '/' _ (by decide) (by decide)) hgt
  have hk := endTag_kind_name name hname
  unfold matchEnd
  rw [htok]
  simp only [List.drop_left]
  have htake : List.take (('/' :: name).length + 2) ('<' :: (('/' :: name) ++ ['>'])) =
      '<' :: (('/' :: name) ++ ['>']) := by
    apply List.take_of_length_le
    simp
  rw [htake, hk.1, hk.2]
  simp

/-- The element the locator finds in the bytes of a written element. -/
theorem nextElement_written (name data : List Char) (hne : name ≠ [])
    (hop : ∀ post, opening ('<' :: (name ++ '>' :: post)) = (none, 1, ['>']))
    (hname : ∀ d ∈ name, isNameEnd d = false) (hdata : ∀ d ∈ data, d ≠ '<') :
    nextElement (written name data) =
      .ok (some ⟨0, name.length + 2 + data.length + (name.length + 3),
        name.length + 2, name.length + 3, name⟩) := by
  have hgt : ∀ d ∈ name, d ≠ '>' := by
    intro d hd he
    have := hname d hd
    rw [he] at this
    revert this
    decide
  have htok := nextToken_tag [] name (data ++ '<' :: (('/' :: name) ++ ['>']))
    (by simp) (hop _) hgt
  have hk := startTag_kind_name name hne hname
  rw [List.nil_append] at htok
  unfold nextElement written nextElementAux
  rw [htok, hk.1]
  simp only [List.length_nil, List.drop_zero, Nat.zero_add]
  have htake : List.take (name.length + 2)
      ('<' :: (name ++ '>' :: (data ++ '<' :: (('/' :: name) ++ ['>'])))) =
      '<' :: (name ++ ['>']) := by
    rw [List.take_succ_cons]
    congr 1
    have : name ++ '>' :: (data ++ '<' :: (('/' :: name) ++ ['>'])) =
        (name ++ ['>']) ++ (data ++ '<' :: (('/' :: name) ++ ['>'])) := by simp
    rw [this, show name.length + 1 = (name ++ ['>']).length by simp, List.take_left]
  have hdrop : List.drop (name.length + 2)
      ('<' :: (name ++ '>' :: (data ++ '<' :: (('/' :: name) ++ ['>'])))) =
      data ++ '<' :: (('/' :: name) ++ ['>']) := by
    rw [List.drop_succ_cons]
    have : name ++ '>' :: (data ++ '<' :: (('/' :: name) ++ ['>'])) =
        (name ++ ['>']) ++ (data ++ '<' :: (('/' :: name) ++ ['>'])) := by simp
    rw [this, show name.length + 1 = (name ++ ['>']).length by simp, List.drop_left]
  rw [htake, hdrop, hk.2, matchEnd_written name data _ hname hdata]

/-- A name without path syntax parses as the path of one segment. -/
theorem parsePath_name (name : List Char) (hne : name ≠ [])
    (hname : ∀ d ∈ name, isPathSyntax d = false) :
    parsePath name = .ok [⟨name, none, none⟩] := by
  have htake : name.takeWhile (fun c => !isPathSyntax c) = name := by
    rw [List.takeWhile_eq_self_iff]
    intro d hd
    rw [hname d hd]
    rfl
  have hdrop : name.dropWhile (fun c => !isPathSyntax c) = [] := by
    rw [List.dropWhile_eq_nil_iff]
    intro d hd
    rw [hname d hd]
    rfl
  unfold parsePath parsePathAux parseSegment
  rw [hdrop, htake]
  simp [parseIndex, parseAttribute, hne]

/-- Text without `<` is its own text content. -/
theorem textContent_plain (data : List Char) (hdata : ∀ d ∈ data, d ≠ '<') :
    textContent data = data := by
  unfold textContent textContentAux nextToken
  rw [seekOpen_none data hdata]

/-- Text that neither starts nor ends with white space is not changed by
trimming. -/
theorem trim_plain (data : List Char)
    (hhead : ∀ c, data.head? = some c → c.isWhitespace = false)
    (hlast : ∀ c, data.getLast? = some c → c.isWhitespace = false) :
    trim data = data := by
  unfold trim
  have h1 : data.dropWhile Char.isWhitespace = data := by
    cases data with
    | nil => rfl
    | cons c cs =>
      rw [List.dropWhile_cons, hhead c rfl]
      simp
  rw [h1]
  have h2 : data.reverse.dropWhile Char.isWhitespace = data.reverse := by
    cases hr : data.reverse with
    | nil => rfl
    | cons c cs =>
      have hl : data.getLast? = some c := by
        rw [← List.head?_reverse, hr]
        rfl
      rw [List.dropWhile_cons, hlast c hl]
      simp
  rw [h2, List.reverse_reverse]

/-- The stream of an empty document after `write_element(name, data)`. -/
theorem write_element_stream (tab name data : List Char) :
    (Xml.empty.write_element tab name data none).stream = written name data := by
  simp [Xml.write_element, Xml.write_start_tag, Xml.write_text, Xml.write_end_tag,
    Xml.empty, indentation, attrsText, written]

/-- The inner content of the root context is the whole stream. -/
theorem Xml.inner_root (x : Xml) : x.inner x.root = x.stream := by
  unfold Xml.inner Xml.window Xml.root
  simp

/-- On the bytes of a written element `find(name)` succeeds and installs
the context of that element. -/
theorem find_written (x : Xml) (name data : List Char)
    (hx : x.stream = written name data) (hne : name ≠ [])
    (hop : ∀ post, opening ('<' :: (name ++ '>' :: post)) = (none, 1, ['>']))
    (hpath : ∀ d ∈ name, isPathSyntax d = false)
    (hname : ∀ d ∈ name, isNameEnd d = false) (hdata : ∀ d ∈ data, d ≠ '<') :
    x.find name = (.ok (), { x with content :=
      ⟨(0 : Nat), (name.length + 2 + data.length + (name.length + 3) : Nat),
        (name.length + 2 : Nat), (name.length + 3 : Nat), 0⟩ }) := by
  unfold Xml.find
  rw [parsePath_name name hne hpath]
  simp only [Xml.resolve, hne, if_false, x.inner_root, hx, Option.getD_none]
  unfold findNamed
  rw [nextElement_written name data hne hop hname hdata]
  simp [Element.context, Xml.root]

/-- The inner content of the context of a written element is its data. -/
theorem inner_written (stream : List Char) (content : context_t) (indent : Int)
    (name data : List Char) (hx : stream = written name data) :
    (Xml.mk stream content indent).inner ⟨(0 : Nat), (name.length + 2 + data.length + (name.length + 3) : Nat),
        (name.length + 2 : Nat), (name.length + 3 : Nat), 0⟩ = data := by
  unfold Xml.inner Xml.window
  simp only
  rw [hx]
  have hsplit : written name data =
      ('<' :: (name ++ ['>'])) ++ (data ++ '<' :: (('/' :: name) ++ ['>'])) := by
    simp [written]
  have hcast : ((name.length + 2 + data.length + (name.length + 3) : Nat) : Int) -
      ((name.length + 3 : Nat) : Int) = ((name.length + 2 + data.length : Nat) : Int) := by
    push_cast
    ring
  simp only [hcast, Int.toNat_ofNat, List.drop_zero, List.take_take]
  rw [hsplit, show name.length + 2 = ('<' :: (name ++ ['>'])).length by simp]
  rw [List.drop_take, List.drop_left]
  simp

/-- C4 (amended): for every non-empty tag name that holds no `>`, `/`,
white space or character of the path syntax (`. [ ] ( )`) and starts neither
with `?` nor with `!--`, and every text data that holds no `<` and neither
starts nor ends with white space, writing `write_element(name, data)` into an
empty document and then calling `find(name)` followed by `value()` with no
key returns exactly data. -/
theorem C4_round_trip (tab name data : List Char)
    (hne : name ≠ [])
    (hq : name.head? ≠ some '?')
    (hcom : "!--".toList.isPrefixOf name = false)
    (hpath : ∀ d ∈ name, isPathSyntax d = false)
    (hname : ∀ d ∈ name, isNameEnd d = false)
    (hdata : ∀ d ∈ data, d ≠ '<')
    (hhead : ∀ c, data.head? = some c → c.isWhitespace = false)
    (hlast : ∀ c, data.getLast? = some c → c.isWhitespace = false) :
    ((Xml.empty.write_element tab name data none).find name).1 = .ok () ∧
    (((Xml.empty.write_element tab name data none).find name).2.value none) = .ok data ∧
    Xml.round_trip tab name data = .ok data := by
  have hbr : ∀ d ∈ name, d ≠ '[' := by
    intro d hd he
    have := hpath d hd
    rw [he] at this
    revert this
    decide
  have hop : ∀ post, opening ('<' :: (name ++ '>' :: post)) = (none, 1, ['>']) :=
    fun post => opening_name name post hbr hq hcom
  have hx := write_element_stream tab name data
  unfold Xml.round_trip
  generalize Xml.empty.write_element tab name data none = X at hx ⊢
  rw [find_written _ name data hx hne hop hpath hname hdata]
  have hval : Xml.value { X with content :=
      ⟨(0 : Nat), (name.length + 2 + data.length + (name.length + 3) : Nat),
        (name.length + 2 : Nat), (name.length + 3 : Nat), 0⟩ } none = .ok data := by
    unfold Xml.value
    simp only
    rw [inner_written X.stream _ X.indent name data hx, textContent_plain data hdata,
      trim_plain data hhead hlast]
  exact ⟨rfl, hval, hval⟩

/-- C4 (counterexample): names and data without `<`, `>` and `&` for which
the round trip does not return the data. Data ` x` and `x ` come back as `x`: `value()` trims white space. With data `data`, `find(name)`
fails for the empty name, for the names `a b` and `a/b` (the tag name ends
at white space and at `/`), for the names `a.b`, `a[0]`, `a[`, `a]`, `a(b)`,
`a(` and `a)` (`find` reads its argument as a path expression), for the name
`?a` (`<?` opens a processing instruction) and for the name `!--` (`<!--`
opens a comment). -/
theorem C4_round_trip_counterexample :
    (∀ s ∈ [" x", "x ", "data", "", "a b", "a/b", "a.b", "a[0]", "a[", "a]", "a(b)", "a(",
        "a)", "?a", "!--"],
      ∀ c ∈ s.toList, c ≠ '<' ∧ c ≠ '>' ∧ c ≠ '&') ∧
    Xml.round_trip ['\t'] "a".toList " x".toList = .ok "x".toList ∧
    Xml.round_trip ['\t'] "a".toList "x ".toList = .ok "x".toList ∧
    Xml.round_trip ['\t'] "".toList "data".toList = .error .MalformedPath ∧
    Xml.round_trip ['\t'] "a b".toList "data".toList = .error .NotFound ∧
    Xml.round_trip ['\t'] "a/b".toList "data".toList = .error .NotFound ∧
    Xml.round_trip ['\t'] "a.b".toList "data".toList = .error .NotFound ∧
    Xml.round_trip ['\t'] "a[0]".toList "data".toList = .error .NotFound ∧
    Xml.round_trip ['\t'] "a[".toList "data".toList = .error .MalformedPath ∧
    Xml.round_trip ['\t'] "a]".toList "data".toList = .error .MalformedPath ∧
    Xml.round_trip ['\t'] "a(b)".toList "data".toList = .error .NotFound ∧
    Xml.round_trip ['\t'] "a(".toList "data".toList = .error .MalformedPath ∧
    Xml.round_trip ['\t'] "a)".toList "data".toList = .error .MalformedPath ∧
    Xml.round_trip ['\t'] "?a".toList "data".toList = .error .UnterminatedTag ∧
    Xml.round_trip ['\t'] "!--".toList "data".toList = .error .NotFound := by
  decide

/-- C4 witness: the spec's own example, name `name` and data `data`, and the
name `!a` with the data ` x > y`, which holds white space and `>` inside. -/
theorem C4_round_trip_witness :
    (("name".toList ≠ [] ∧ "name".toList.head? ≠ some '?' ∧
        "!--".toList.isPrefixOf "name".toList = false ∧
        (∀ d ∈ "name".toList, isPathSyntax d = false) ∧
        (∀ d ∈ "name".toList, isNameEnd d = false) ∧
        (∀ d ∈ "data".toList, d ≠ '<')) ∧
      (((Xml.empty.write_element ['\t'] "name".toList "data".toList none).find
          "name".toList).1 = .ok () ∧
        ((Xml.empty.write_element ['\t'] "name".toList "data".toList none).find
          "name".toList).2.value none = .ok "data".toList ∧
        Xml.round_trip ['\t'] "name".toList "data".toList = .ok "data".toList)) ∧
    (("!a".toList ≠ [] ∧ "!a".toList.head? ≠ some '?' ∧
        "!--".toList.isPrefixOf "!a".toList = false ∧
        (∀ d ∈ "!a".toList, isPathSyntax d = false) ∧
        (∀ d ∈ "!a".toList, isNameEnd d = false) ∧
        (∀ d ∈ "x > y".toList, d ≠ '<')) ∧
      Xml.round_trip ['\t'] "!a".toList "x > y".toList = .ok "x > y".toList) :=
  ⟨⟨by decide,
      C4_round_trip ['\t'] "name".toList "data".toList (by decide) (by decide) (by decide)
        (by decide) (by decide) (by decide) (by decide) (by decide)⟩,
    ⟨by decide,
      (C4_round_trip ['\t'] "!a".toList "x > y".toList (by decide) (by decide) (by decide)
        (by decide) (by decide) (by decide) (by decide) (by decide)).2.2⟩⟩

/-- The call `sibling` changes the cursor only, which does not become
negative. -/
theorem Xml.sibling_content (x : Xml) (b : Bool) :
    (x.sibling b).2.content.offset = x.content.offset ∧
    (x.sibling b).2.content.size = x.content.size ∧
    (x.sibling b).2.content.start_tag_size = x.content.start_tag_size ∧
    (x.sibling b).2.content.end_tag_size = x.content.end_tag_size ∧
    (0 ≤ x.content.cursor → 0 ≤ (x.sibling b).2.content.cursor) := by
  unfold Xml.sibling
  split
  · exact ⟨rfl, rfl, rfl, rfl, fun h => h⟩
  · exact ⟨rfl, rfl, rfl, rfl, fun h => h⟩
  · refine ⟨rfl, rfl, rfl, rfl, fun _ => ?_⟩
    simp only
    omega

/-- C5 (counterexample): `setcontext` installs a context with cursor 9 in a
window of size 4 whose tags take 6 bytes, although the context before the
call satisfies the invariant. On the example document, after `find` has
installed the context of `gpx.time`, a window of 33 bytes that satisfies the
invariant, `sibling` returns `bounds` and leaves the cursor at 88, behind
the end of the window. -/
theorem C5_context_invariant_counterexample :
    (gpx_xml.content.valid ∧
      (gpx_xml.setcontext ⟨0, 4, 3, 3, 9⟩).context = ⟨0, 4, 3, 3, 9⟩ ∧
      ¬ (gpx_xml.setcontext ⟨0, 4, 3, 3, 9⟩).content.valid) ∧
    ((gpx_xml.find "gpx.time".toList).1 = .ok () ∧
      (gpx_xml.find "gpx.time".toList).2.content = ⟨265, 33, 6, 7, 0⟩ ∧
      (gpx_xml.find "gpx.time".toList).2.content.valid ∧
      ((gpx_xml.find "gpx.time".toList).2.sibling false).1 = .ok ("bounds".toList, none) ∧
      ((gpx_xml.find "gpx.time".toList).2.sibling false).2.content = ⟨265, 33, 6, 7, 88⟩ ∧
      ¬ ((gpx_xml.find "gpx.time".toList).2.sibling false).2.content.valid) := by
  decide

/-- C5 (amended): `reset` leaves the current context satisfying the Context
invariant, and so does every successful `find` or `find_next`;
`setcontext(c)` installs `c` as it is, so that the invariant holds afterwards
exactly when `c` satisfies it; `find`, `find_next`, `child`, `attr` and
`count` leave the context satisfying the invariant when it did before;
`sibling` changes the cursor only and, when the invariant held before, leaves
`0 <= cursor` and `start_tag_size + end_tag_size <= size`. -/
theorem C5_context_invariant (x : Xml) (c : context_t) (str : List Char) (b : Bool) :
    x.reset.content.valid ∧
    ((x.find str).1 = .ok () → (x.find str).2.content.valid) ∧
    ((x.find_next str).1 = .ok () → (x.find_next str).2.content.valid) ∧
    (x.setcontext c).context = c ∧
    ((x.setcontext c).content.valid ↔ c.valid) ∧
    (x.content.valid →
      (x.find str).2.content.valid ∧
      (x.find_next str).2.content.valid ∧
      (x.child b).2.content.valid ∧
      x.attr.2.content.valid ∧
      x.count.2.content.valid ∧
      0 ≤ (x.sibling b).2.content.cursor ∧
      (x.sibling b).2.content.start_tag_size + (x.sibling b).2.content.end_tag_size ≤
        (x.sibling b).2.content.size) ∧
    ((x.sibling b).2.content.offset = x.content.offset ∧
      (x.sibling b).2.content.size = x.content.size ∧
      (x.sibling b).2.content.start_tag_size = x.content.start_tag_size ∧
      (x.sibling b).2.content.end_tag_size = x.content.end_tag_size) := by
  have hs := x.sibling_content b
  refine ⟨x.root_valid, x.find_ok_valid str, x.find_next_ok_valid str, rfl, Iff.rfl, ?_,
    hs.1, hs.2.1, hs.2.2.1, hs.2.2.2.1⟩
  intro h
  refine ⟨x.find_valid str h, x.find_next_valid str h, x.child_valid b h, x.attr_valid h, h,
    hs.2.2.2.2 h.1, ?_⟩
  rw [hs.2.1, hs.2.2.1, hs.2.2.2.1]
  exact h.2.2

/-- C5 witness: the engine on the example document after `find("gpx.wpt")`,
where `find("gpx.wpt")` and `find_next("gpx.wpt")` both succeed. -/
theorem C5_context_invariant_witness :
    (((gpx_xml.find "gpx.wpt".toList).2.find "gpx.wpt".toList).1 = .ok () ∧
      ((gpx_xml.find "gpx.wpt".toList).2.find_next "gpx.wpt".toList).1 = .ok () ∧
      (gpx_xml.find "gpx.wpt".toList).2.content.valid) ∧
    (((gpx_xml.find "gpx.wpt".toList).2.find "gpx.wpt".toList).2.content.valid ∧
      ((gpx_xml.find "gpx.wpt".toList).2.find_next "gpx.wpt".toList).2.content.valid) ∧
    ((gpx_xml.find "gpx.wpt".toList).2.child true).2.content.valid ∧
    (gpx_xml.find "gpx.wpt".toList).2.attr.2.content.valid ∧
    0 ≤ ((gpx_xml.find "gpx.wpt".toList).2.sibling true).2.content.cursor :=
  ⟨by decide,
    ⟨(C5_context_invariant (gpx_xml.find "gpx.wpt".toList).2 ⟨0, 810, 264, 6, 0⟩
        "gpx.wpt".toList true).2.1 (by decide),
      (C5_context_invariant (gpx_xml.find "gpx.wpt".toList).2 ⟨0, 810, 264, 6, 0⟩
        "gpx.wpt".toList true).2.2.1 (by decide)⟩,
    ((C5_context_invariant (gpx_xml.find "gpx.wpt".toList).2 ⟨0, 810, 264, 6, 0⟩
      "gpx.wpt".toList true).2.2.2.2.2.1 (by decide)).2.2.1,
    ((C5_context_invariant (gpx_xml.find "gpx.wpt".toList).2 ⟨0, 810, 264, 6, 0⟩
      "gpx.wpt".toList true).2.2.2.2.2.1 (by decide)).2.2.2.1,
    ((C5_context_invariant (gpx_xml.find "gpx.wpt".toList).2 ⟨0, 810, 264, 6, 0⟩
      "gpx.wpt".toList true).2.2.2.2.2.1 (by decide)).2.2.2.2.2.1⟩

/-! ## draw::DrawingScaledAttr -/

/-- C6 (evaluation at the failing input): on the object with width 3 and
height 4, `set_width(7)` leaves `width()` at 3 and makes `height()` 7. -/
theorem C6_set_width_assigns_height :
    (DrawingScaledAttr.set_width ⟨⟨0, ⟨⟨0, 0⟩, ⟨3, 4⟩⟩⟩⟩ 7).width = 3 ∧
    (DrawingScaledAttr.set_width ⟨⟨0, ⟨⟨0, 0⟩, ⟨3, 4⟩⟩⟩⟩ 7).height = 7 := by
  decide

/-! ## chrono::MicroTime -/

/-- C7 (evaluation at the failing input): `from_sec(1)` holds
`(1000000 * 1000000) mod 2^32 = 3567587328` microseconds, so its `seconds()`
is 3567, while `from_seconds(1)` holds 1000000 microseconds. -/
theorem C7_from_sec_scales_twice :
    (MicroTime.from_sec 1).microseconds = 3567587328 ∧
    (MicroTime.from_sec 1).seconds = 3567 ∧
    (MicroTime.from_seconds 1).microseconds = 1000000 ∧
    (MicroTime.from_seconds 1).seconds = 1 := by
  decide

/-- C8: for `sec <= 4294` the seconds round-trip through `from_seconds`, for
`msec <= 4294967` the milliseconds round-trip through `from_milliseconds`;
for every `s`, `from_seconds(s)` holds `(s * 1000000) mod 2^32` microseconds,
and `set_seconds`, `set_milliseconds` store what `from_seconds`,
`from_milliseconds` hold. -/
theorem C8_unit_conversion_round_trip (sec msec : Nat) (hs : sec ≤ 4294)
    (hm : msec ≤ 4294967) (t : MicroTime) (s m : Nat) :
    (MicroTime.from_seconds sec).seconds = sec ∧
    (MicroTime.from_milliseconds msec).milliseconds = msec ∧
    (MicroTime.from_seconds s).microseconds = (s * 1000000) % 2 ^ 32 ∧
    (MicroTime.set_seconds t s).microseconds = (MicroTime.from_seconds s).microseconds ∧
    (MicroTime.set_milliseconds t m).microseconds =
      (MicroTime.from_milliseconds m).microseconds := by
  refine ⟨?_, ?_, rfl, rfl, rfl⟩ <;>
    simp only [MicroTime.from_seconds, MicroTime.from_milliseconds, MicroTime.ctor,
      MicroTime.seconds, MicroTime.milliseconds, MicroTime.usec, MicroTime.microseconds,
      to_u32] <;>
    omega

/-- C8 witness: the largest admitted arguments, 4294 s and 4294967 ms. -/
theorem C8_unit_conversion_round_trip_witness :
    (4294 ≤ 4294 ∧ 4294967 ≤ 4294967) ∧
    ((MicroTime.from_seconds 4294).seconds = 4294 ∧
    (MicroTime.from_milliseconds 4294967).milliseconds = 4294967 ∧
    (MicroTime.from_seconds 5000).microseconds = (5000 * 1000000) % 2 ^ 32 ∧
    (MicroTime.set_seconds ⟨7⟩ 5000).microseconds =
      (MicroTime.from_seconds 5000).microseconds ∧
    (MicroTime.set_milliseconds ⟨7⟩ 5000000).microseconds =
      (MicroTime.from_milliseconds 5000000).microseconds) :=
  ⟨⟨by decide, by decide⟩,
    C8_unit_conversion_round_trip 4294 4294967 (by decide) (by decide) ⟨7⟩ 5000 5000000⟩

/-! ## Calc::Ema -/

/-- The alpha values of 1.0: 65535 for 32-bit and 255 for 16-bit filters. -/
theorem DSP_EMA_ALPHA_one : DSP_EMA_I32_ALPHA 1 = 65535 ∧ DSP_EMA_I16_ALPHA 1 = 255 := by
  constructor
  · norm_num [DSP_EMA_I32_ALPHA]
    rfl
  · norm_num [DSP_EMA_I16_ALPHA]
    rfl

/-- With the largest alpha, `calc(in)` is `in` plus the floor of
`(average - in + small_max) / small_max` as long as nothing overflows. -/
theorem Ema.calc_next_i32_alpha_max (avg inp : Int)
    (ha : -2 ^ 31 ≤ avg ∧ avg < 2 ^ 31) (hi : -2 ^ 31 ≤ inp ∧ inp < 2 ^ 31 - 1) :
    (Ema.calc_next Ema_i32 ⟨avg, 65535⟩ inp).1 = inp + (avg - inp + 65536) / 65536 := by
  simp only [Ema.calc_next, Ema.small_max, Ema_i32, to_signed, Int.shiftRight_eq_div_pow]
  norm_num
  omega

/-- C9 (evaluation at the failing input): with alpha set to 1.0 and an
average of 0, `calc(0)` returns 1 for `Ema_i32` and for `Ema_i16`; with an
average of 1000000, `Ema_i32::calc(0)` returns 16. -/
theorem C9_alpha_one_still_averages :
    (Ema.calc_next Ema_i32 ⟨0, DSP_EMA_I32_ALPHA 1⟩ 0).1 = 1 ∧
    (Ema.calc_next Ema_i16 ⟨0, DSP_EMA_I16_ALPHA 1⟩ 0).1 = 1 ∧
    (Ema.calc_next Ema_i32 ⟨1000000, DSP_EMA_I32_ALPHA 1⟩ 0).1 = 16 := by
  rw [DSP_EMA_ALPHA_one.1, DSP_EMA_ALPHA_one.2]
  decide

/-! ## calc::Lookup -/

/-- The loop bound is twice `m_size - 2` for a size that fits an `int`. -/
theorem Lookup.bound_eq {α : Type} (t : Lookup α) (h2 : 2 ≤ t.m_size)
    (hmax : t.m_size < 2 ^ 31) : t.bound = 2 * (t.m_size - 2) := by
  unfold Lookup.bound
  omega

section LookupField

variable {α : Type} [LinearOrderedField α]

/-- The search loop started at entry `j` stops at entry `k` when `x` is at
least every x value of the entries `j+1 .. k` and either `k` is the last
segment or `x` is below the x value of entry `k+1`. -/
theorem Lookup.calc_value_loop_eq (t : Lookup α) (x : α) (h2 : 2 ≤ t.m_size)
    (hmax : t.m_size < 2 ^ 31) (k : Nat) (hk : k ≤ t.m_size - 2)
    (hstop : k = t.m_size - 2 ∨ x < t.xs (k + 1)) :
    ∀ (d j : Nat), j + d = k → (∀ i, j ≤ i → i < k → t.xs (i + 1) ≤ x) →
      t.calc_value_loop x (2 * j) = 2 * k := by
  have hb := Lookup.bound_eq t h2 hmax
  intro d
  induction d with
  | zero =>
    intro j hj _
    have hjk : j = k := by omega
    subst hjk
    rw [Lookup.calc_value_loop]
    have hidx : (2 * j + 2) % 2 ^ 32 = 2 * (j + 1) := by omega
    rw [hidx, hb]
    rcases hstop with hlast | hlt
    · rw [if_neg]
      intro hc
      omega
    · rw [if_neg]
      intro hc
      exact absurd hc.1 (not_le.mpr hlt)
  | succ d ih =>
    intro j hj hle
    rw [Lookup.calc_value_loop]
    have hidx : (2 * j + 2) % 2 ^ 32 = 2 * (j + 1) := by omega
    rw [hidx, hb]
    have hx : t.xs (j + 1) ≤ x := hle j (le_refl j) (by omega)
    rw [if_pos ⟨hx, by omega⟩]
    have hstep : 2 * j + 2 = 2 * (j + 1) := by ring
    rw [hstep]
    exact ih (j + 1) (by omega) (fun i hi hik => hle i (by omega) hik)

/-- In a strictly ascending table the x values are monotone. -/
theorem Lookup.xs_mono (t : Lookup α)
    (hasc : ∀ j, j + 1 < t.m_size → t.xs j < t.xs (j + 1)) :
    ∀ (b a : Nat), a ≤ b → b < t.m_size → t.xs a ≤ t.xs b := by
  intro b
  induction b with
  | zero =>
    intro a ha _
    have h0 : a = 0 := by omega
    rw [h0]
  | succ b ih =>
    intro a ha hb
    rcases Nat.eq_or_lt_of_le ha with heq | hlt
    · rw [heq]
    · exact le_trans (ih a (by omega) (by omega)) (le_of_lt (hasc b hb))

/-- C10: for a table of at least two entries with strictly ascending x
values over an ordered field (exact arithmetic), with `k` the largest index
`<= size-2` such that `x_k <= x` (`k = 0` when `x < x_0`), `calc_value(x)` is
`((x - x_k) * (y_k - y_{k+1})) / (x_k - x_{k+1}) + y_k`, which is the value
at `x` of the line through `(x_k, y_k)` and `(x_{k+1}, y_{k+1})`. -/
theorem C10_calc_value_interpolates (t : Lookup α) (x : α) (k : Nat)
    (h2 : 2 ≤ t.m_size) (hmax : t.m_size < 2 ^ 31)
    (hasc : ∀ j, j + 1 < t.m_size → t.xs j < t.xs (j + 1))
    (hk : k ≤ t.m_size - 2)
    (hlow : t.xs k ≤ x ∨ (k = 0 ∧ x < t.xs 0))
    (hlargest : ∀ j, j ≤ t.m_size - 2 → t.xs j ≤ x → j ≤ k) :
    t.calc_value x =
        ((x - t.xs k) * (t.ys k - t.ys (k + 1))) / (t.xs k - t.xs (k + 1)) + t.ys k ∧
      t.calc_value x =
        t.ys k + (t.ys (k + 1) - t.ys k) / (t.xs (k + 1) - t.xs k) * (x - t.xs k) := by
  have hstop : k = t.m_size - 2 ∨ x < t.xs (k + 1) := by
    by_cases hlast : k = t.m_size - 2
    · exact Or.inl hlast
    · right
      by_contra hc
      have := hlargest (k + 1) (by omega) (not_lt.mp hc)
      omega
  have hbelow : ∀ i, 0 ≤ i → i < k → t.xs (i + 1) ≤ x := by
    intro i _ hik
    have hkx : t.xs k ≤ x := by
      rcases hlow with h | ⟨h0, _⟩
      · exact h
      · omega
    exact le_trans (Lookup.xs_mono t hasc k (i + 1) (by omega) (by omega)) hkx
  have hloop : t.calc_value_loop x 0 = 2 * k := by
    have := Lookup.calc_value_loop_eq t x h2 hmax k hk hstop k 0 (by omega) hbelow
    simpa using this
  have hlt : t.xs k < t.xs (k + 1) := hasc k (by omega)
  have hne : t.xs k - t.xs (k + 1) ≠ 0 := sub_ne_zero.mpr (ne_of_lt hlt)
  have hne2 : t.xs (k + 1) - t.xs k ≠ 0 := sub_ne_zero.mpr (ne_of_gt hlt)
  have hidx : (2 * k + 2) % 2 ^ 32 = 2 * (k + 1) := by omega
  have hidx2 : (2 * (k + 1) + 1) % 2 ^ 32 = 2 * (k + 1) + 1 := by omega
  have hval : t.calc_value x =
      ((x - t.xs k) * (t.ys k - t.ys (k + 1))) / (t.xs k - t.xs (k + 1)) + t.ys k := by
    unfold Lookup.calc_value
    simp only [hloop, hidx, hidx2]
    unfold Lookup.xs Lookup.ys at *
    rw [if_neg hne]
  refine ⟨hval, ?_⟩
  rw [hval]
  field_simp
  ring

/-- C10 witness: on the documented table, `x = 5/2` lies in the last segment
(`k = 2`) and `calc_value` gives the value of the line through (2,16) and
(3,25) there. -/
theorem C10_calc_value_interpolates_witness :
    (2 ≤ Lookup.doc_table.m_size ∧ Lookup.doc_table.m_size < 2 ^ 31 ∧
      (∀ j, j + 1 < Lookup.doc_table.m_size →
        Lookup.doc_table.xs j < Lookup.doc_table.xs (j + 1)) ∧
      Lookup.doc_table.xs 2 ≤ 5 / 2) ∧
    (Lookup.doc_table.calc_value (5 / 2) =
        ((5 / 2 - Lookup.doc_table.xs 2) *
          (Lookup.doc_table.ys 2 - Lookup.doc_table.ys 3)) /
          (Lookup.doc_table.xs 2 - Lookup.doc_table.xs 3) + Lookup.doc_table.ys 2 ∧
      Lookup.doc_table.calc_value (5 / 2) =
        Lookup.doc_table.ys 2 + (Lookup.doc_table.ys 3 - Lookup.doc_table.ys 2) /
          (Lookup.doc_table.xs 3 - Lookup.doc_table.xs 2) *
          (5 / 2 - Lookup.doc_table.xs 2)) := by
  have hasc : ∀ j, j + 1 < Lookup.doc_table.m_size →
      Lookup.doc_table.xs j < Lookup.doc_table.xs (j + 1) := by
    intro j hj
    have hj4 : j < 3 := by
      have hsize : Lookup.doc_table.m_size = 4 := rfl
      omega
    interval_cases j <;> norm_num [Lookup.doc_table, Lookup.xs, Lookup.entry]
  have hx : Lookup.doc_table.xs 2 ≤ 5 / 2 := by
    norm_num [Lookup.doc_table, Lookup.xs, Lookup.entry]
  exact ⟨⟨by decide, by decide, hasc, hx⟩,
    C10_calc_value_interpolates Lookup.doc_table (5 / 2) 2 (by decide) (by decide) hasc
      (by decide) (Or.inl hx) (fun j hj _ => hj)⟩

end LookupField

/-! ## calc::Lookup at the entries of the table -/

section LookupRing

variable {α : Type} [LinearOrderedRing α]

/-- In a strictly ascending table the x values are monotone (for every
ordered `data_type`). -/
theorem Lookup.xs_monotone (t : Lookup α)
    (hasc : ∀ j, j + 1 < t.m_size → t.xs j < t.xs (j + 1)) :
    ∀ (b a : Nat), a ≤ b → b < t.m_size → t.xs a ≤ t.xs b := by
  intro b
  induction b with
  | zero =>
    intro a ha _
    have h0 : a = 0 := by omega
    rw [h0]
  | succ b ih =>
    intro a ha hb
    rcases Nat.eq_or_lt_of_le ha with heq | hlt
    · rw [heq]
    · exact le_trans (ih a (by omega) (by omega)) (le_of_lt (hasc b hb))

/-- The search loop started at entry `j` with an `x` that is at least the x
values of the entries `j+1 .. k` stops at entry `k` when `k` is the last
segment or `x` is below the x value of entry `k+1` (for every ordered
`data_type`). -/
theorem Lookup.calc_value_loop_stops (t : Lookup α) (x : α) (h2 : 2 ≤ t.m_size)
    (hmax : t.m_size < 2 ^ 31) (k : Nat) (hk : k ≤ t.m_size - 2)
    (hstop : k = t.m_size - 2 ∨ x < t.xs (k + 1)) :
    ∀ (d j : Nat), j + d = k → (∀ i, j ≤ i → i < k → t.xs (i + 1) ≤ x) →
      t.calc_value_loop x (2 * j) = 2 * k := by
  have hb := Lookup.bound_eq t h2 hmax
  intro d
  induction d with
  | zero =>
    intro j hj _
    have hjk : j = k := by omega
    subst hjk
    rw [Lookup.calc_value_loop]
    have hidx : (2 * j + 2) % 2 ^ 32 = 2 * (j + 1) := by omega
    rw [hidx, hb]
    rcases hstop with hlast | hlt
    · rw [if_neg]
      intro hc
      omega
    · rw [if_neg]
      intro hc
      exact absurd hc.1 (not_le.mpr hlt)
  | succ d ih =>
    intro j hj hle
    rw [Lookup.calc_value_loop]
    have hidx : (2 * j + 2) % 2 ^ 32 = 2 * (j + 1) := by omega
    rw [hidx, hb]
    have hx : t.xs (j + 1) ≤ x := hle j (le_refl j) (by omega)
    rw [if_pos ⟨hx, by omega⟩]
    have hstep : 2 * j + 2 = 2 * (j + 1) := by ring
    rw [hstep]
    exact ih (j + 1) (by omega) (fun i hi hik => hle i (by omega) hik)

/-- At the x value of an entry other than the last the search loop stops
at that entry. -/
theorem Lookup.calc_value_loop_inner (t : Lookup α) (k : Nat) (h2 : 2 ≤ t.m_size)
    (hmax : t.m_size < 2 ^ 31)
    (hasc : ∀ j, j + 1 < t.m_size → t.xs j < t.xs (j + 1)) (hk : k ≤ t.m_size - 2) :
    t.calc_value_loop (t.xs k) 0 = 2 * k := by
  have h := Lookup.calc_value_loop_stops t (t.xs k) h2 hmax k hk
    (Or.inr (hasc k (by omega))) k 0 (by omega)
    (fun i _ hik => Lookup.xs_monotone t hasc k (i + 1) (by omega) (by omega))
  simpa using h

/-- At the x value of the last entry the search loop stops at the last
segment. -/
theorem Lookup.calc_value_loop_last (t : Lookup α) (h2 : 2 ≤ t.m_size)
    (hmax : t.m_size < 2 ^ 31)
    (hasc : ∀ j, j + 1 < t.m_size → t.xs j < t.xs (j + 1)) :
    t.calc_value_loop (t.xs (t.m_size - 1)) 0 = 2 * (t.m_size - 2) := by
  have h := Lookup.calc_value_loop_stops t (t.xs (t.m_size - 1)) h2 hmax (t.m_size - 2)
    (le_refl _) (Or.inl rfl) (t.m_size - 2) 0 (by omega)
    (fun i _ hik => Lookup.xs_monotone t hasc (t.m_size - 1) (i + 1) (by omega) (by omega))
  simpa using h

end LookupRing

/-- Over a field `calc_value` returns the y value at the x value of every
entry of a strictly ascending table. -/
theorem Lookup.calc_value_at_entry {α : Type} [LinearOrderedField α] (t : Lookup α) (k : Nat)
    (h2 : 2 ≤ t.m_size) (hmax : t.m_size < 2 ^ 31)
    (hasc : ∀ j, j + 1 < t.m_size → t.xs j < t.xs (j + 1)) (hk : k < t.m_size) :
    t.calc_value (t.xs k) = t.ys k := by
  by_cases hin : k ≤ t.m_size - 2
  · have hloop := Lookup.calc_value_loop_inner t k h2 hmax hasc hin
    have hlt : t.xs k < t.xs (k + 1) := hasc k (by omega)
    have hne : t.xs k - t.xs (k + 1) ≠ 0 := sub_ne_zero.mpr (ne_of_lt hlt)
    have hidx : (2 * k + 2) % 2 ^ 32 = 2 * (k + 1) := by omega
    have hidx2 : (2 * (k + 1) + 1) % 2 ^ 32 = 2 * (k + 1) + 1 := by omega
    unfold Lookup.calc_value
    simp only [hloop, hidx, hidx2]
    unfold Lookup.xs Lookup.ys at *
    rw [if_neg hne]
    simp
  · have hlast : k = t.m_size - 1 := by omega
    obtain ⟨m, hm⟩ : ∃ m, t.m_size = m + 2 := ⟨t.m_size - 2, by omega⟩
    have hk1 : k = m + 1 := by omega
    have hloop := Lookup.calc_value_loop_last t h2 hmax hasc
    rw [hm] at hloop
    simp only [Nat.add_sub_cancel, show m + 2 - 1 = m + 1 by omega] at hloop
    have hlt : t.xs m < t.xs (m + 1) := hasc m (by omega)
    have hne : t.xs m - t.xs (m + 1) ≠ 0 := sub_ne_zero.mpr (ne_of_lt hlt)
    have hidx : (2 * m + 2) % 2 ^ 32 = 2 * (m + 1) := by omega
    have hidx2 : (2 * (m + 1) + 1) % 2 ^ 32 = 2 * (m + 1) + 1 := by omega
    rw [hk1]
    unfold Lookup.calc_value
    simp only [hloop, hidx, hidx2]
    unfold Lookup.xs Lookup.ys at *
    rw [if_neg hne]
    field_simp
    ring

/-- An arithmetic result that the `data_type` can represent is that result. -/
theorem int32_arith_of_range (sgn : Bool) (v : Int) (h : int32_range sgn v) :
    int32_arith sgn v = some v := by
  unfold int32_arith
  cases sgn
  · unfold int32_range at h
    simp only [Bool.false_eq_true, if_false] at h ⊢
    unfold to_unsigned32
    congr 1
    omega
  · simp only [if_true]
    rw [if_pos h]

/-- The difference of two different values of `unsigned int` is a value
other than zero. -/
theorem int32_arith_unsigned_sub (a b : Int) (ha : int32_range false a)
    (hb : int32_range false b) (hab : a < b) :
    ∃ d, int32_arith false (a - b) = some d ∧ d ≠ 0 := by
  unfold int32_range at ha hb
  simp only [Bool.false_eq_true, if_false] at ha hb
  refine ⟨(a - b) % 2 ^ 32, rfl, ?_⟩
  omega

/-- A search loop over a table of two entries stops at the first segment. -/
theorem Lookup.calc_value_loop_two {α : Type} [LinearOrderedRing α] (t : Lookup α) (x : α)
    (h : t.m_size = 2) : t.calc_value_loop x 0 = 0 := by
  rw [Lookup.calc_value_loop, if_neg]
  intro hc
  have hb := hc.2
  unfold Lookup.bound at hb
  rw [h] at hb
  simp at hb

/-- With a 32-bit integer `data_type`, at the x value of an entry other than
the last `calc_value` returns the y value, provided that with `int` the two
differences of the segment that starts at the entry do not overflow. -/
theorem Lookup.calc_value_int32_inner (sgn : Bool) (t : Lookup Int) (k : Nat)
    (h2 : 2 ≤ t.m_size) (hmax : t.m_size < 2 ^ 31)
    (hasc : ∀ j, j + 1 < t.m_size → t.xs j < t.xs (j + 1))
    (hrange : ∀ j, j < 2 * t.m_size → int32_range sgn (t.entry j))
    (hk : k ≤ t.m_size - 2)
    (hdiff : sgn = true → int32_range true (t.xs k - t.xs (k + 1)) ∧
      int32_range true (t.ys k - t.ys (k + 1))) :
    t.calc_value_int32 sgn (t.xs k) = some (t.ys k) := by
  have hloop := Lookup.calc_value_loop_inner t k h2 hmax hasc hk
  have hidx : (2 * k + 2) % 2 ^ 32 = 2 * (k + 1) := by omega
  have hidx2 : (2 * (k + 1) + 1) % 2 ^ 32 = 2 * (k + 1) + 1 := by omega
  have hlt : t.xs k < t.xs (k + 1) := hasc k (by omega)
  have hy : int32_arith sgn (0 + t.ys k) = some (t.ys k) := by
    rw [Int.zero_add]
    exact int32_arith_of_range sgn _ (hrange (2 * k + 1) (by omega))
  have h0 : int32_arith sgn 0 = some 0 := by
    cases sgn <;> decide
  have hdx : ∃ dx, int32_arith sgn (t.xs k - t.xs (k + 1)) = some dx ∧ dx ≠ 0 := by
    cases sgn
    · exact int32_arith_unsigned_sub _ _ (hrange (2 * k) (by omega))
        (hrange (2 * (k + 1)) (by omega)) hlt
    · exact ⟨_, int32_arith_of_range true _ (hdiff rfl).1, by omega⟩
  have hdy : ∃ dy, int32_arith sgn (t.ys k - t.ys (k + 1)) = some dy := by
    cases sgn
    · exact ⟨_, rfl⟩
    · exact ⟨_, int32_arith_of_range true _ (hdiff rfl).2⟩
  obtain ⟨dx, hdx, hdx0⟩ := hdx
  obtain ⟨dy, hdy⟩ := hdy
  unfold Lookup.calc_value_int32
  simp only [hloop, hidx, hidx2]
  unfold Lookup.xs Lookup.ys at *
  simp only [hdx, hdy, Option.some_bind, if_neg hdx0, sub_self, h0, Int.zero_mul,
    Int.zero_tdiv, hy]

/-- With `int`, at the x value of the last entry `calc_value` returns the
last y value when neither the difference of the x values of the last
segment, the two differences of its y values nor the product overflow. -/
theorem Lookup.calc_value_int32_last (t : Lookup Int) (m : Nat)
    (hm : t.m_size = m + 2) (hmax : t.m_size < 2 ^ 31)
    (hasc : ∀ j, j + 1 < t.m_size → t.xs j < t.xs (j + 1))
    (hrange : ∀ j, j < 2 * t.m_size → int32_range true (t.entry j))
    (hd : int32_range true (t.xs (m + 1) - t.xs m))
    (hdy : int32_range true (t.ys m - t.ys (m + 1)))
    (hdy2 : int32_range true (t.ys (m + 1) - t.ys m))
    (hprod : int32_range true ((t.xs (m + 1) - t.xs m) * (t.ys m - t.ys (m + 1)))) :
    t.calc_value_int32 true (t.xs (m + 1)) = some (t.ys (m + 1)) := by
  have hloop := Lookup.calc_value_loop_last t (by omega) hmax hasc
  rw [hm] at hloop
  simp only [Nat.add_sub_cancel, show m + 2 - 1 = m + 1 by omega] at hloop
  have hlt : t.xs m < t.xs (m + 1) := hasc m (by omega)
  have hne : t.xs m - t.xs (m + 1) ≠ 0 := by omega
  have hne2 : t.xs (m + 1) - t.xs m ≠ 0 := by omega
  have hidx : (2 * m + 2) % 2 ^ 32 = 2 * (m + 1) := by omega
  have hidx2 : (2 * (m + 1) + 1) % 2 ^ 32 = 2 * (m + 1) + 1 := by omega
  have hdx : int32_range true (t.xs m - t.xs (m + 1)) := by
    unfold int32_range at hd ⊢
    simp only [if_true] at hd ⊢
    omega
  have hquot : Int.tdiv ((t.xs (m + 1) - t.xs m) * (t.ys m - t.ys (m + 1)))
      (t.xs m - t.xs (m + 1)) = t.ys (m + 1) - t.ys m := by
    have hneg : t.xs m - t.xs (m + 1) = -(t.xs (m + 1) - t.xs m) := by ring
    rw [hneg, Int.tdiv_neg, Int.mul_tdiv_cancel_left _ hne2]
    ring
  have hsum : t.ys (m + 1) - t.ys m + t.ys m = t.ys (m + 1) := by ring
  have hres : int32_arith true (t.ys (m + 1) - t.ys m + t.ys m) = some (t.ys (m + 1)) := by
    rw [hsum]
    exact int32_arith_of_range true _ (hrange (2 * (m + 1) + 1) (by omega))
  unfold Lookup.calc_value_int32
  simp only [hloop, hidx, hidx2]
  unfold Lookup.xs Lookup.ys at *
  simp only [int32_arith_of_range true _ hdx, int32_arith_of_range true _ hdy,
    int32_arith_of_range true _ hd, int32_arith_of_range true _ hprod, Option.some_bind,
    if_neg hne, hquot, int32_arith_of_range true _ hdy2, hres]

/-- C11 (counterexample): tables of two entries with strictly ascending x
values and all values in the range of the `data_type`. With `unsigned int`
the table (0,2), (1,4) gives `calc_value(1) == 2` although the entry is
(1,4). With `int` the behaviour is undefined at the last entry of (0,0),
(65536,65536), where the product `65536 * -65536` overflows, of (0,-2^31),
(1,0), where `-2^31` is divided by -1, and of (-1,0), (2^31-1,0), where
`x_1 - x_0` overflows, at both entries of (0,2^31-1), (1,-1), where
`y_0 - y_1` overflows, and at the first entry of (-2^31,0), (1,0), where
`x_0 - x_1` overflows. -/
theorem C11_calc_value_at_entries_counterexample :
    ((∀ j, j < 4 → int32_range false ((⟨[0, 2, 1, 4], 2⟩ : Lookup Int).entry j)) ∧
      (⟨[0, 2, 1, 4], 2⟩ : Lookup Int).xs 0 < (⟨[0, 2, 1, 4], 2⟩ : Lookup Int).xs 1 ∧
      (⟨[0, 2, 1, 4], 2⟩ : Lookup Int).xs 1 = 1 ∧
      (⟨[0, 2, 1, 4], 2⟩ : Lookup Int).ys 1 = 4 ∧
      Lookup.calc_value_int32 false ⟨[0, 2, 1, 4], 2⟩ 1 = some 2) ∧
    ((∀ j, j < 4 → int32_range true ((⟨[0, 0, 65536, 65536], 2⟩ : Lookup Int).entry j)) ∧
      (⟨[0, 0, 65536, 65536], 2⟩ : Lookup Int).xs 0 <
        (⟨[0, 0, 65536, 65536], 2⟩ : Lookup Int).xs 1 ∧
      (⟨[0, 0, 65536, 65536], 2⟩ : Lookup Int).xs 1 = 65536 ∧
      Lookup.calc_value_int32 true ⟨[0, 0, 65536, 65536], 2⟩ 65536 = none) ∧
    ((∀ j, j < 4 → int32_range true ((⟨[0, -2 ^ 31, 1, 0], 2⟩ : Lookup Int).entry j)) ∧
      (⟨[0, -2 ^ 31, 1, 0], 2⟩ : Lookup Int).xs 0 < (⟨[0, -2 ^ 31, 1, 0], 2⟩ : Lookup Int).xs 1 ∧
      (⟨[0, -2 ^ 31, 1, 0], 2⟩ : Lookup Int).xs 1 = 1 ∧
      Lookup.calc_value_int32 true ⟨[0, -2 ^ 31, 1, 0], 2⟩ 1 = none) ∧
    ((∀ j, j < 4 → int32_range true ((⟨[0, 2 ^ 31 - 1, 1, -1], 2⟩ : Lookup Int).entry j)) ∧
      (⟨[0, 2 ^ 31 - 1, 1, -1], 2⟩ : Lookup Int).xs 0 <
        (⟨[0, 2 ^ 31 - 1, 1, -1], 2⟩ : Lookup Int).xs 1 ∧
      (⟨[0, 2 ^ 31 - 1, 1, -1], 2⟩ : Lookup Int).xs 0 = 0 ∧
      (⟨[0, 2 ^ 31 - 1, 1, -1], 2⟩ : Lookup Int).xs 1 = 1 ∧
      Lookup.calc_value_int32 true ⟨[0, 2 ^ 31 - 1, 1, -1], 2⟩ 0 = none ∧
      Lookup.calc_value_int32 true ⟨[0, 2 ^ 31 - 1, 1, -1], 2⟩ 1 = none) ∧
    ((∀ j, j < 4 → int32_range true ((⟨[-1, 0, 2 ^ 31 - 1, 0], 2⟩ : Lookup Int).entry j)) ∧
      (⟨[-1, 0, 2 ^ 31 - 1, 0], 2⟩ : Lookup Int).xs 0 <
        (⟨[-1, 0, 2 ^ 31 - 1, 0], 2⟩ : Lookup Int).xs 1 ∧
      (⟨[-1, 0, 2 ^ 31 - 1, 0], 2⟩ : Lookup Int).xs 1 = 2 ^ 31 - 1 ∧
      Lookup.calc_value_int32 true ⟨[-1, 0, 2 ^ 31 - 1, 0], 2⟩ (2 ^ 31 - 1) = none) ∧
    ((∀ j, j < 4 → int32_range true ((⟨[-2 ^ 31, 0, 1, 0], 2⟩ : Lookup Int).entry j)) ∧
      (⟨[-2 ^ 31, 0, 1, 0], 2⟩ : Lookup Int).xs 0 < (⟨[-2 ^ 31, 0, 1, 0], 2⟩ : Lookup Int).xs 1 ∧
      (⟨[-2 ^ 31, 0, 1, 0], 2⟩ : Lookup Int).xs 0 = -2 ^ 31 ∧
      Lookup.calc_value_int32 true ⟨[-2 ^ 31, 0, 1, 0], 2⟩ (-2 ^ 31) = none) := by
  refine ⟨⟨by decide, by decide, by decide, by decide, ?_⟩,
    ⟨by decide, by decide, by decide, ?_⟩, ⟨by decide, by decide, by decide, ?_⟩,
    ⟨by decide, by decide, by decide, by decide, ?_, ?_⟩,
    ⟨by decide, by decide, by decide, ?_⟩, ⟨by decide, by decide, by decide, ?_⟩⟩ <;>
  · unfold Lookup.calc_value_int32
    rw [Lookup.calc_value_loop_two _ _ rfl]
    decide

/-- C11 (amended): for every table of at least two entries with strictly
ascending x values: over a field (exact arithmetic) `calc_value(x_k)` is
`y_k` for every entry `k`; with `unsigned int` `calc_value(x_k)` is `y_k` for
every entry `k` but the last; with `int` `calc_value(x_k)` is `y_k` for every
entry `k` but the last for which neither `x_k - x_{k+1}` nor `y_k - y_{k+1}`
overflows, and for the last entry when neither `x_last - x_prev`,
`y_prev - y_last`, `y_last - y_prev` nor the product
`(x_last - x_prev) * (y_prev - y_last)` overflows. -/
theorem C11_calc_value_at_entries {α : Type} [LinearOrderedField α] (t : Lookup α)
    (h2 : 2 ≤ t.m_size) (hmax : t.m_size < 2 ^ 31)
    (hasc : ∀ j, j + 1 < t.m_size → t.xs j < t.xs (j + 1))
    (sgn : Bool) (ti : Lookup Int)
    (hi2 : 2 ≤ ti.m_size) (himax : ti.m_size < 2 ^ 31)
    (hiasc : ∀ j, j + 1 < ti.m_size → ti.xs j < ti.xs (j + 1))
    (hrange : ∀ j, j < 2 * ti.m_size → int32_range sgn (ti.entry j)) :
    (∀ k, k < t.m_size → t.calc_value (t.xs k) = t.ys k) ∧
    (sgn = false → ∀ k, k ≤ ti.m_size - 2 →
      ti.calc_value_int32 false (ti.xs k) = some (ti.ys k)) ∧
    (sgn = true → ∀ k, k ≤ ti.m_size - 2 →
      int32_range true (ti.xs k - ti.xs (k + 1)) →
      int32_range true (ti.ys k - ti.ys (k + 1)) →
      ti.calc_value_int32 true (ti.xs k) = some (ti.ys k)) ∧
    (sgn = true →
      int32_range true (ti.xs (ti.m_size - 1) - ti.xs (ti.m_size - 2)) →
      int32_range true (ti.ys (ti.m_size - 2) - ti.ys (ti.m_size - 1)) →
      int32_range true (ti.ys (ti.m_size - 1) - ti.ys (ti.m_size - 2)) →
      int32_range true ((ti.xs (ti.m_size - 1) - ti.xs (ti.m_size - 2)) *
        (ti.ys (ti.m_size - 2) - ti.ys (ti.m_size - 1))) →
      ti.calc_value_int32 true (ti.xs (ti.m_size - 1)) = some (ti.ys (ti.m_size - 1))) := by
  refine ⟨fun k hk => Lookup.calc_value_at_entry t k h2 hmax hasc hk, ?_, ?_, ?_⟩
  · intro hs k hk
    subst hs
    exact Lookup.calc_value_int32_inner false ti k hi2 himax hiasc hrange hk
      (fun h => by cases h)
  · intro hs k hk hdx hdy
    subst hs
    exact Lookup.calc_value_int32_inner true ti k hi2 himax hiasc hrange hk
      (fun _ => ⟨hdx, hdy⟩)
  · intro hs hd hdy hdy2 hprod
    subst hs
    obtain ⟨m, hm⟩ : ∃ m, ti.m_size = m + 2 := ⟨ti.m_size - 2, by omega⟩
    rw [hm] at hd hdy hdy2 hprod ⊢
    simp only [Nat.add_sub_cancel, show m + 2 - 1 = m + 1 by omega] at hd hdy hdy2 hprod ⊢
    exact Lookup.calc_value_int32_last ti m hm himax hiasc hrange hd hdy hdy2 hprod

/-- C11 witness: the table of the class documentation, (0,2), (1,4), (2,16),
(3,25): `calc_value(2) == 16` and `calc_value(3) == 25` over the rationals
and with `int`, and `calc_value(2) == 16` with `unsigned int`. -/
theorem C11_calc_value_at_entries_witness :
    ((∀ j, j + 1 < Lookup.doc_table.m_size →
        Lookup.doc_table.xs j < Lookup.doc_table.xs (j + 1)) ∧
      (∀ j, j + 1 < Lookup.doc_table_int.m_size →
        Lookup.doc_table_int.xs j < Lookup.doc_table_int.xs (j + 1)) ∧
      (∀ j, j < 2 * Lookup.doc_table_int.m_size →
        int32_range true (Lookup.doc_table_int.entry j)) ∧
      (∀ j, j < 2 * Lookup.doc_table_int.m_size →
        int32_range false (Lookup.doc_table_int.entry j)) ∧
      Lookup.doc_table.xs 2 = 2 ∧ Lookup.doc_table.ys 2 = 16 ∧
      Lookup.doc_table.xs 3 = 3 ∧ Lookup.doc_table.ys 3 = 25 ∧
      Lookup.doc_table_int.xs 2 = 2 ∧ Lookup.doc_table_int.ys 2 = 16 ∧
      Lookup.doc_table_int.xs 3 = 3 ∧ Lookup.doc_table_int.ys 3 = 25) ∧
    (Lookup.doc_table.calc_value (Lookup.doc_table.xs 2) = Lookup.doc_table.ys 2 ∧
      Lookup.doc_table.calc_value (Lookup.doc_table.xs 3) = Lookup.doc_table.ys 3) ∧
    (Lookup.doc_table_int.calc_value_int32 false (Lookup.doc_table_int.xs 2) =
        some (Lookup.doc_table_int.ys 2) ∧
      Lookup.doc_table_int.calc_value_int32 true (Lookup.doc_table_int.xs 2) =
        some (Lookup.doc_table_int.ys 2) ∧
      Lookup.doc_table_int.calc_value_int32 true
          (Lookup.doc_table_int.xs (Lookup.doc_table_int.m_size - 1)) =
        some (Lookup.doc_table_int.ys (Lookup.doc_table_int.m_size - 1))) := by
  have hasc : ∀ j, j + 1 < Lookup.doc_table.m_size →
      Lookup.doc_table.xs j < Lookup.doc_table.xs (j + 1) := by
    intro j hj
    have hj4 : j < 3 := by
      have hsize : Lookup.doc_table.m_size = 4 := rfl
      omega
    interval_cases j <;> norm_num [Lookup.doc_table, Lookup.xs, Lookup.entry]
  have hiasc : ∀ j, j + 1 < Lookup.doc_table_int.m_size →
      Lookup.doc_table_int.xs j < Lookup.doc_table_int.xs (j + 1) := by
    intro j hj
    have hj4 : j < 3 := by
      have hsize : Lookup.doc_table_int.m_size = 4 := rfl
      omega
    interval_cases j <;> decide
  have hrange : ∀ (sgn : Bool) (j : Nat), j < 2 * Lookup.doc_table_int.m_size →
      int32_range sgn (Lookup.doc_table_int.entry j) := by
    intro sgn j hj
    have hj8 : j < 8 := hj
    cases sgn <;> interval_cases j <;> decide
  exact ⟨⟨hasc, hiasc, hrange true, hrange false,
      by norm_num [Lookup.doc_table, Lookup.xs, Lookup.entry],
      by norm_num [Lookup.doc_table, Lookup.ys, Lookup.entry],
      by norm_num [Lookup.doc_table, Lookup.xs, Lookup.entry],
      by norm_num [Lookup.doc_table, Lookup.ys, Lookup.entry],
      by decide, by decide, by decide, by decide⟩,
    ⟨(C11_calc_value_at_entries Lookup.doc_table (by decide) (by decide) hasc
        true Lookup.doc_table_int (by decide) (by decide) hiasc (hrange true)).1 2 (by decide),
      (C11_calc_value_at_entries Lookup.doc_table (by decide) (by decide) hasc
        true Lookup.doc_table_int (by decide) (by decide) hiasc (hrange true)).1 3 (by decide)⟩,
    ⟨(C11_calc_value_at_entries Lookup.doc_table (by decide) (by decide) hasc
        false Lookup.doc_table_int (by decide) (by decide) hiasc (hrange false)).2.1 rfl 2
        (by decide),
      (C11_calc_value_at_entries Lookup.doc_table (by decide) (by decide) hasc
        true Lookup.doc_table_int (by decide) (by decide) hiasc (hrange true)).2.2.1 rfl 2
        (by decide) (by decide) (by decide),
      (C11_calc_value_at_entries Lookup.doc_table (by decide) (by decide) hasc
        true Lookup.doc_table_int (by decide) (by decide) hiasc (hrange true)).2.2.2 rfl
        (by decide) (by decide) (by decide) (by decide)⟩⟩

/-! ## chrono::Timer -/

/-- C12 (counterexample): the timer whose stop time is zero seconds is in
the reset state, and `is_stopped()` returns true there. -/
theorem C12_reset_state_counterexample :
    (Timer.mk ⟨0, 0⟩ ⟨0, 0⟩).is_reset = true ∧
    (Timer.mk ⟨0, 0⟩ ⟨0, 0⟩).is_stopped = true ∧
    ¬ ((Timer.mk ⟨0, 0⟩ ⟨0, 0⟩).is_running = false ∧
      (Timer.mk ⟨0, 0⟩ ⟨0, 0⟩).is_stopped = false) := by
  decide

/-- C12 (amended): in every Timer state where `is_reset()` is true,
`is_running()` returns false and `is_stopped()` returns true. -/
theorem C12_reset_state (t : Timer) (h : t.is_reset = true) :
    t.is_running = false ∧ t.is_stopped = true := by
  unfold Timer.is_reset at h
  unfold Timer.is_running Timer.is_stopped
  simp only [beq_iff_eq] at h
  simp [h]

/-- C12 witness: the timer whose stop time is zero seconds. -/
theorem C12_reset_state_witness :
    (Timer.mk ⟨5, 7⟩ ⟨0, 0⟩).is_reset = true ∧
    ((Timer.mk ⟨5, 7⟩ ⟨0, 0⟩).is_running = false ∧ (Timer.mk ⟨5, 7⟩ ⟨0, 0⟩).is_stopped = true) :=
  ⟨by decide, C12_reset_state (Timer.mk ⟨5, 7⟩ ⟨0, 0⟩) (by decide)⟩

/-- C13: in every state `is_running()` is the negation of `is_stopped()`
and `is_stopped()` is true exactly when the seconds of the stop time differ
from -1; a timer `r` for which `is_reset()` is true reports
`is_stopped() == true` and `is_running() == false`. -/
theorem C13_running_and_stopped (t r : Timer) (hr : r.is_reset = true) :
    t.is_running = !t.is_stopped ∧
    (t.is_stopped = true ↔ t.m_stop.seconds ≠ -1) ∧
    r.is_stopped = true ∧ r.is_running = false := by
  refine ⟨rfl, ?_, ?_, ?_⟩
  · unfold Timer.is_stopped
    simp only [Bool.or_eq_true, bne_iff_ne, beq_iff_eq]
    constructor
    · intro h
      rcases h with h | h
      · exact h
      · rw [h]
        decide
    · intro h
      exact Or.inl h
  · unfold Timer.is_reset at hr
    unfold Timer.is_stopped
    simp only [beq_iff_eq] at hr
    simp [hr]
  · unfold Timer.is_reset at hr
    unfold Timer.is_running Timer.is_stopped
    simp only [beq_iff_eq] at hr
    simp [hr]

/-- C13 witness: a running timer (stop time -1 s) and a reset timer. -/
theorem C13_running_and_stopped_witness :
    (Timer.mk ⟨0, 0⟩ ⟨0, 0⟩).is_reset = true ∧
    ((Timer.mk ⟨3, 0⟩ ⟨-1, 0⟩).is_running = !(Timer.mk ⟨3, 0⟩ ⟨-1, 0⟩).is_stopped ∧
    ((Timer.mk ⟨3, 0⟩ ⟨-1, 0⟩).is_stopped = true ↔ (Timer.mk ⟨3, 0⟩ ⟨-1, 0⟩).m_stop.seconds ≠ -1) ∧
    (Timer.mk ⟨0, 0⟩ ⟨0, 0⟩).is_stopped = true ∧ (Timer.mk ⟨0, 0⟩ ⟨0, 0⟩).is_running = false) :=
  ⟨by decide, C13_running_and_stopped (Timer.mk ⟨3, 0⟩ ⟨-1, 0⟩) (Timer.mk ⟨0, 0⟩ ⟨0, 0⟩)
    (by decide)⟩

/-! ## chrono::MicroTime: validity -/

/-- C14: `is_valid()` is false exactly when the stored value is `2^32-1`;
`invalid()` is not valid; the default-constructed `MicroTime` holds zero and
is valid; and for every `u32` value `u`, `from_usec(u)`,
`from_microseconds(u)` and `MicroTime(u)` hold `u`, which `microseconds()`
and the conversion to `micro_time_t` return. -/
theorem C14_valid_and_value (t : MicroTime) (u : Nat) (hu : u < 2 ^ 32) :
    (t.is_valid = false ↔ t.m_value_microseconds = 2 ^ 32 - 1) ∧
    MicroTime.invalid.is_valid = false ∧
    MicroTime.ctor_default.microseconds = 0 ∧
    MicroTime.ctor_default.is_valid = true ∧
    (MicroTime.from_usec u).microseconds = u ∧
    (MicroTime.from_microseconds u).microseconds = u ∧
    (MicroTime.ctor u).microseconds = u ∧
    (MicroTime.from_usec u).to_micro_time_t = u ∧
    (MicroTime.from_microseconds u).to_micro_time_t = u ∧
    (MicroTime.ctor u).to_micro_time_t = u := by
  have hval : (MicroTime.ctor u).microseconds = u := by
    unfold MicroTime.ctor MicroTime.microseconds to_u32
    exact Nat.mod_eq_of_lt hu
  refine ⟨?_, by decide, by decide, by decide, hval, hval, hval, hval, hval, hval⟩
  unfold MicroTime.is_valid
  simp

/-- C14 witness: the value 1000 of the example in the documentation. -/
theorem C14_valid_and_value_witness :
    1000 < 2 ^ 32 ∧
    (((MicroTime.ctor 1000).is_valid = false ↔
      (MicroTime.ctor 1000).m_value_microseconds = 2 ^ 32 - 1) ∧
    MicroTime.invalid.is_valid = false ∧
    MicroTime.ctor_default.microseconds = 0 ∧
    MicroTime.ctor_default.is_valid = true ∧
    (MicroTime.from_usec 1000).microseconds = 1000 ∧
    (MicroTime.from_microseconds 1000).microseconds = 1000 ∧
    (MicroTime.ctor 1000).microseconds = 1000 ∧
    (MicroTime.from_usec 1000).to_micro_time_t = 1000 ∧
    (MicroTime.from_microseconds 1000).to_micro_time_t = 1000 ∧
    (MicroTime.ctor 1000).to_micro_time_t = 1000) :=
  ⟨by decide, C14_valid_and_value (MicroTime.ctor 1000) 1000 (by decide)⟩

/-! ## Fmt::Xml: `size`, `context` and `setcontext` -/

/-- C20 (counterexample): after `setcontext(c)` with `c.size == 2^31`, a
value of an `ssize_t` of 64 bits, `context()` returns `c` but `size()`
returns `-2^31`, not `c.size`. -/
theorem C20_size_and_context_round_trip_counterexample :
    (Xml.empty.setcontext ⟨0, 2 ^ 31, 0, 0, 0⟩).context = ⟨0, 2 ^ 31, 0, 0, 0⟩ ∧
    (Xml.empty.setcontext ⟨0, 2 ^ 31, 0, 0, 0⟩).size = -2 ^ 31 ∧
    (Xml.empty.setcontext ⟨0, 2 ^ 31, 0, 0, 0⟩).size ≠
      (⟨0, 2 ^ 31, 0, 0, 0⟩ : context_t).size := by
  decide

/-- C20 (amended): `size()` is the member `size` of the current context
converted to `int`; after `setcontext(c)` the context `context()` returns is
`c`, member for member; and `size()` is `c.size` exactly when `c.size` lies
in the range of `int`, `-2^31 <= c.size < 2^31`. -/
theorem C20_size_and_context_round_trip (x : Xml) (c : context_t) :
    x.size = to_signed 32 x.context.size ∧
    (x.setcontext c).context = c ∧
    (x.setcontext c).context.offset = c.offset ∧
    (x.setcontext c).context.size = c.size ∧
    (x.setcontext c).context.start_tag_size = c.start_tag_size ∧
    (x.setcontext c).context.end_tag_size = c.end_tag_size ∧
    (x.setcontext c).context.cursor = c.cursor ∧
    ((x.setcontext c).size = c.size ↔ -2 ^ 31 ≤ c.size ∧ c.size < 2 ^ 31) ∧
    (x.size = x.context.size ↔ -2 ^ 31 ≤ x.context.size ∧ x.context.size < 2 ^ 31) := by
  have hconv : ∀ v : Int, to_signed 32 v = v ↔ -2 ^ 31 ≤ v ∧ v < 2 ^ 31 := by
    intro v
    unfold to_signed
    norm_num
    constructor
    · intro h
      omega
    · intro h
      omega
  exact ⟨rfl, rfl, rfl, rfl, rfl, rfl, rfl, hconv c.size, hconv x.content.size⟩

/-- C20 witness: the context of `gpx` in the example document, whose size
810 is in the range of `int`: after `setcontext`, `size()` is 810. -/
theorem C20_size_and_context_round_trip_witness :
    (-2 ^ 31 ≤ (⟨0, 810, 264, 6, 0⟩ : context_t).size ∧
      (⟨0, 810, 264, 6, 0⟩ : context_t).size < 2 ^ 31) ∧
    (gpx_xml.setcontext ⟨0, 810, 264, 6, 0⟩).context = ⟨0, 810, 264, 6, 0⟩ ∧
    (gpx_xml.setcontext ⟨0, 810, 264, 6, 0⟩).size = (⟨0, 810, 264, 6, 0⟩ : context_t).size :=
  ⟨by decide,
    (C20_size_and_context_round_trip gpx_xml ⟨0, 810, 264, 6, 0⟩).2.1,
    (C20_size_and_context_round_trip gpx_xml ⟨0, 810, 264, 6, 0⟩).2.2.2.2.2.2.2.1.mpr
      (by decide)⟩

/-! ## var::String: C strings -/

namespace var

/-- The characters of a C string are not zero. -/
theorem mem_cstr_ne_NUL (p : List Char) (c : Char) (h : c ∈ cstr p) : c ≠ NUL := by
  have := List.mem_takeWhile_imp h
  simpa using this

/-- A character other than the terminating zero has a code other than zero. -/
theorem toNat_ne_zero (c : Char) (h : c ≠ NUL) : (c.toNat : Int) ≠ 0 := by
  intro h0
  apply h
  have h1 : c.toNat = 0 := by exact_mod_cast h0
  have := congrArg Char.ofNat h1
  simpa [NUL] using this

/-- Two characters with the same code are the same. -/
theorem toNat_sub_eq_zero (a b : Char) (h : (a.toNat : Int) - (b.toNat : Int) = 0) : a = b := by
  have h1 : a.toNat = b.toNat := by omega
  have := congrArg Char.ofNat h1
  simpa using this

/-- The C string at a pointer moved forward inside of a C string is the
rest of that C string. -/
theorem cstr_drop : ∀ (p : List Char) (i : Nat), i ≤ strlen p →
    cstr (p.drop i) = (cstr p).drop i
  | _, 0, _ => by simp
  | [], i + 1, _ => by simp [cstr]
  | c :: cs, i + 1, h => by
    unfold strlen cstr at h
    unfold cstr
    by_cases hc : c = NUL
    · rw [hc] at h
      simp [List.takeWhile] at h
    · have hp : (c != NUL) = true := by simpa using hc
      rw [List.takeWhile_cons] at h ⊢
      simp only [hp, if_true, List.length_cons, List.drop_succ_cons] at h ⊢
      exact cstr_drop cs i (by unfold strlen cstr; omega)

/-- Over the length of `b`, `strncmp` finds two C strings equal exactly
when `b` is a prefix of `a`. -/
theorem strncmp_chars_eq_zero_iff : ∀ (a b : List Char), (∀ c ∈ a, c ≠ NUL) →
    (∀ c ∈ b, c ≠ NUL) → (strncmp_chars b.length a b = 0 ↔ b <+: a)
  | a, [], _, _ => by simp [strncmp_chars]
  | [], d :: ds, _, hb => by
    simp only [List.length_cons, strncmp_chars, List.prefix_nil]
    constructor
    · intro h
      exact absurd (neg_eq_zero.mp h) (toNat_ne_zero d (hb d (List.mem_cons_self d ds)))
    · intro h
      cases h
  | c :: cs, d :: ds, ha, hb => by
    simp only [List.length_cons, strncmp_chars, List.cons_prefix_cons]
    by_cases hcd : c = d
    · rw [if_pos hcd]
      rw [strncmp_chars_eq_zero_iff cs ds (fun e he => ha e (List.mem_cons_of_mem c he))
        (fun e he => hb e (List.mem_cons_of_mem d he))]
      simp [hcd]
    · rw [if_neg hcd]
      constructor
      · intro h
        exact absurd (toNat_sub_eq_zero c d h) hcd
      · intro h
        exact absurd h.1 (fun e => hcd e.symm)

/-- Inside of the text of a string, `strncmp(c_str() + i, s, strlen(s))` is
zero exactly when `s` occurs at index `i`. -/
theorem String.strncmp_eq_zero_iff (x : String) (s : List Char) (i : Nat) (hi : i ≤ x.size) :
    strncmp (x.c_str.drop i) s (strlen s) = 0 ↔ x.occurs_at s i := by
  unfold strncmp String.occurs_at String.contents strlen
  rw [cstr_drop x.c_str i hi]
  exact strncmp_chars_eq_zero_iff _ _
    (fun c hc => mem_cstr_ne_NUL x.c_str c (List.mem_of_mem_drop hc))
    (fun c hc => mem_cstr_ne_NUL s c hc)

/-- The loop of `find` started at `i` returns the first index from `i` on at
which `s` occurs, and `npos` when there is none below `size()`. -/
theorem String.find_loop_spec (x : String) (s : List Char) :
    ∀ (fuel i : Nat), fuel = x.size - i →
      (x.find_loop s (strlen s) fuel i = npos ∧
          ∀ j, i ≤ j → j < x.size → ¬ x.occurs_at s j) ∨
        (i ≤ x.find_loop s (strlen s) fuel i ∧ x.find_loop s (strlen s) fuel i < x.size ∧
          x.occurs_at s (x.find_loop s (strlen s) fuel i) ∧
          ∀ j, i ≤ j → j < x.find_loop s (strlen s) fuel i → ¬ x.occurs_at s j)
  | 0, i, h => by
    left
    refine ⟨rfl, ?_⟩
    intro j hij hj
    omega
  | fuel + 1, i, h => by
    have hi : i < x.size := by omega
    unfold String.find_loop
    rw [if_pos hi]
    by_cases hocc : strncmp (x.c_str.drop i) s (strlen s) = 0
    · rw [if_pos hocc]
      right
      refine ⟨le_refl i, hi, (x.strncmp_eq_zero_iff s i (le_of_lt hi)).mp hocc, ?_⟩
      intro j hij hji
      omega
    · rw [if_neg hocc]
      have hno : ¬ x.occurs_at s i := fun h' =>
        hocc ((x.strncmp_eq_zero_iff s i (le_of_lt hi)).mpr h')
      rcases String.find_loop_spec x s fuel (i + 1) (by omega) with ⟨hn, hall⟩ | ⟨h1, h2, h3, h4⟩
      · left
        refine ⟨hn, ?_⟩
        intro j hij hj
        rcases Nat.eq_or_lt_of_le hij with heq | hlt
        · rw [← heq]
          exact hno
        · exact hall j hlt hj
      · right
        refine ⟨by omega, h2, h3, ?_⟩
        intro j hij hjr
        rcases Nat.eq_or_lt_of_le hij with heq | hlt
        · rw [← heq]
          exact hno
        · exact h4 j hlt hjr

/-- C15: `find(str, pos)` is `npos` for a null `str`; a result other than
`npos` lies in `[pos, size())`, `str` occurs in the string starting there and
at no index from `pos` on before it; and the result is `npos` exactly when
`str` occurs at no index `i` with `pos <= i < size()`. -/
theorem C15_find_first_occurrence (x : String) (str : List Char) (pos : Nat)
    (hsize : x.size ≤ npos) (hstr : strlen str < 2 ^ 32) :
    x.find none pos = npos ∧
    (x.find (some str) pos ≠ npos →
      pos ≤ x.find (some str) pos ∧ x.find (some str) pos < x.size ∧
      x.occurs_at str (x.find (some str) pos) ∧
      ∀ j, pos ≤ j → j < x.find (some str) pos → ¬ x.occurs_at str j) ∧
    (x.find (some str) pos = npos ↔ ∀ j, pos ≤ j → j < x.size → ¬ x.occurs_at str j) := by
  have hfind : x.find (some str) pos = x.find_loop str (strlen str) (x.size - pos) pos := by
    simp only [String.find, String.find_n]
    rw [Nat.mod_eq_of_lt hstr]
  rw [hfind]
  refine ⟨rfl, ?_, ?_⟩
  · intro hne
    rcases String.find_loop_spec x str (x.size - pos) pos rfl with ⟨hn, _⟩ | h
    · exact absurd hn hne
    · exact h
  · constructor
    · intro hn
      rcases String.find_loop_spec x str (x.size - pos) pos rfl with ⟨_, hall⟩ | ⟨_, h2, _, _⟩
      · exact hall
      · rw [hn] at h2
        omega
    · intro hall
      rcases String.find_loop_spec x str (x.size - pos) pos rfl with ⟨hn, _⟩ | ⟨h1, h2, h3, _⟩
      · exact hn
      · exact absurd h3 (hall _ h1 h2)

/-- C15 witness: in `hello world` the first `o` from index 5 on is at 7. -/
theorem C15_find_first_occurrence_witness :
    ((String.of_text "hello world".toList).size ≤ npos ∧ strlen "o".toList < 2 ^ 32) ∧
    (String.of_text "hello world".toList).find (some "o".toList) 5 = 7 ∧
    ((String.of_text "hello world".toList).find none 5 = npos ∧
    ((String.of_text "hello world".toList).find (some "o".toList) 5 ≠ npos →
      5 ≤ (String.of_text "hello world".toList).find (some "o".toList) 5 ∧
      (String.of_text "hello world".toList).find (some "o".toList) 5 <
        (String.of_text "hello world".toList).size ∧
      (String.of_text "hello world".toList).occurs_at "o".toList
        ((String.of_text "hello world".toList).find (some "o".toList) 5) ∧
      ∀ j, 5 ≤ j → j < (String.of_text "hello world".toList).find (some "o".toList) 5 →
        ¬ (String.of_text "hello world".toList).occurs_at "o".toList j) ∧
    ((String.of_text "hello world".toList).find (some "o".toList) 5 = npos ↔
      ∀ j, 5 ≤ j → j < (String.of_text "hello world".toList).size →
        ¬ (String.of_text "hello world".toList).occurs_at "o".toList j)) :=
  ⟨by decide, by decide,
    C15_find_first_occurrence (String.of_text "hello world".toList) "o".toList 5
      (by decide) (by decide)⟩

/-! ## var::String: `rfind` -/

/-- With `0 <= pos` as an `s32`, the loop of `rfind` started at an index `i`
inside of the text returns the last index from `i` down to `pos` at which `s`
occurs, and `npos` when there is none. -/
theorem String.rfind_loop_spec (x : String) (s : List Char) (pos : Nat) :
    ∀ (fuel : Nat) (i : Int), i ≤ (x.size : Int) → fuel = (i - (pos : Int) + 1).toNat →
      ∃ r, x.rfind_loop s (strlen s) (pos : Int) fuel i = some r ∧
        ((r = npos ∧ ∀ j : Nat, pos ≤ j → (j : Int) ≤ i → ¬ x.occurs_at s j) ∨
          (pos ≤ r ∧ (r : Int) ≤ i ∧ x.occurs_at s r ∧
            ∀ j : Nat, r < j → (j : Int) ≤ i → ¬ x.occurs_at s j))
  | 0, i, _, h => by
    refine ⟨npos, rfl, Or.inl ⟨rfl, ?_⟩⟩
    intro j hj hji
    omega
  | fuel + 1, i, hi, h => by
    have hge : i ≥ (pos : Int) := by omega
    have hnn : ¬ i < 0 := by omega
    have htn : ((i.toNat : Nat) : Int) = i := Int.toNat_of_nonneg (by omega)
    unfold String.rfind_loop
    rw [if_pos hge, if_neg hnn]
    by_cases hocc : strncmp (x.c_str.drop i.toNat) s (strlen s) = 0
    · rw [if_pos hocc]
      refine ⟨i.toNat, rfl, Or.inr ⟨by omega, by omega, ?_, ?_⟩⟩
      · exact (x.strncmp_eq_zero_iff s i.toNat (by omega)).mp hocc
      · intro j hj hji
        omega
    · rw [if_neg hocc]
      have hno : ¬ x.occurs_at s i.toNat := fun h' =>
        hocc ((x.strncmp_eq_zero_iff s i.toNat (by omega)).mpr h')
      obtain ⟨r, hr, hspec⟩ := String.rfind_loop_spec x s pos fuel (i - 1) (by omega) (by omega)
      refine ⟨r, hr, ?_⟩
      rcases hspec with ⟨hn, hall⟩ | ⟨h1, h2, h3, h4⟩
      · left
        refine ⟨hn, ?_⟩
        intro j hj hji
        by_cases hlast : (j : Int) = i
        · have : j = i.toNat := by omega
          rw [this]
          exact hno
        · exact hall j hj (by omega)
      · right
        refine ⟨h1, by omega, h3, ?_⟩
        intro j hj hji
        by_cases hlast : (j : Int) = i
        · have : j = i.toNat := by omega
          rw [this]
          exact hno
        · exact h4 j hj (by omega)

/-- A text occurs only where it fits. -/
theorem String.occurs_at_fits (x : String) (s : List Char) (j : Nat)
    (h : x.occurs_at s j) : j + strlen s ≤ x.size ∨ strlen s = 0 := by
  unfold String.occurs_at at h
  have hl := h.length_le
  simp only [List.length_drop] at hl
  have hc : x.contents.length = x.size := rfl
  unfold strlen
  omega

/-- For `pos` below `2^31` (and a string and a text shorter than `2^31`)
`rfind(str, pos)` returns the largest index `i` with
`pos <= i <= size() - strlen(str)` at which `str` occurs, and `npos` exactly
when there is none. -/
theorem String.rfind_spec (x : String) (str : List Char) (pos : Nat)
    (hsize : x.size < 2 ^ 31) (hstr : strlen str < 2 ^ 31) (hpos : pos < 2 ^ 31) :
    ∃ r, x.rfind (some str) pos = some r ∧
      (r ≠ npos → pos ≤ r ∧ r + strlen str ≤ x.size ∧ x.occurs_at str r ∧
        ∀ j, r < j → j + strlen str ≤ x.size → ¬ x.occurs_at str j) ∧
      (r = npos ↔ ∀ j, pos ≤ j → j + strlen str ≤ x.size → ¬ x.occurs_at str j) := by
  have hn : strlen str % 2 ^ 32 = strlen str := Nat.mod_eq_of_lt (by omega)
  have hspos : to_signed 32 (pos : Int) = (pos : Int) := by
    unfold to_signed
    omega
  have hi0 : to_signed 32 (((x.size : Int) + 2 ^ 32 - (strlen str : Int)) % 2 ^ 32) =
      (x.size : Int) - (strlen str : Int) := by
    unfold to_signed
    omega
  have hrfind : x.rfind (some str) pos = x.rfind_loop str (strlen str) (pos : Int)
      ((x.size : Int) - (strlen str : Int) - (pos : Int) + 1).toNat
      ((x.size : Int) - (strlen str : Int)) := by
    simp only [String.rfind, String.rfind_n, hn, lt_irrefl, if_false]
    rw [hspos, hi0]
  obtain ⟨r, hr, hspec⟩ := String.rfind_loop_spec x str pos
    ((x.size : Int) - (strlen str : Int) - (pos : Int) + 1).toNat
    ((x.size : Int) - (strlen str : Int)) (by omega) rfl
  refine ⟨r, by rw [hrfind]; exact hr, ?_, ?_⟩
  · intro hne
    rcases hspec with ⟨hn', _⟩ | ⟨h1, h2, h3, h4⟩
    · exact absurd hn' hne
    · exact ⟨h1, by omega, h3, fun j hj hfit => h4 j hj (by omega)⟩
  · constructor
    · intro hnp
      rcases hspec with ⟨_, hall⟩ | ⟨_, h2, _, _⟩
      · exact fun j hj hfit => hall j hj (by omega)
      · rw [hnp] at h2
        unfold npos at h2
        omega
    · intro hall
      rcases hspec with ⟨hn', _⟩ | ⟨h1, h2, h3, _⟩
      · exact hn'
      · exact absurd h3 (hall r h1 (by omega))

/-- C16 (evaluation at the failing input): on the string `abc`,
`rfind("b", 0x80000000)` returns 1, an index below `pos`, because `pos` is
compared as an `s32`; `find("b", 0x80000000)` returns `npos`. -/
theorem C16_rfind_ignores_large_pos :
    (String.of_text "abc".toList).rfind (some "b".toList) (2 ^ 31) = some 1 ∧
    (1 : Nat) < 2 ^ 31 ∧
    (String.of_text "abc".toList).find (some "b".toList) (2 ^ 31) = npos := by
  decide

/-! ## var::String: `substr` -/

/-- The C string in storage that holds characters other than zero followed
by zeros only consists of those characters. -/
theorem cstr_append_zeros (a : List Char) (k : Nat) (ha : ∀ c ∈ a, c ≠ NUL) :
    cstr (a ++ List.replicate k NUL) = a := by
  unfold cstr
  rw [List.takeWhile_append_of_pos (fun c hc => by simpa using ha c hc)]
  have : List.takeWhile (fun c => c != NUL) (List.replicate k NUL) = [] := by
    cases k with
    | zero => rfl
    | succ k => simp [List.replicate_succ]
  rw [this, List.append_nil]

/-- The string a constructor leaves behind can be reallocated and is either
writable or without storage, and it holds zeros only. -/
theorem String.ctor_shape (minimum_size : Nat) (fresh : Option (List Char)) :
    (String.ctor minimum_size fresh).resizable = true ∧
    ((String.ctor minimum_size fresh).writable = true ∨
      (String.ctor minimum_size fresh).mem = []) ∧
    (String.ctor minimum_size fresh).contents = [] := by
  unfold String.ctor String.set_capacity String.data_set_capacity String.no_data
  simp only [List.length_nil, List.nil_append, Nat.zero_add]
  split
  · split <;> simp [String.clear, String.contents, String.c_str, cstr]
  · cases fresh with
    | none => simp [String.clear, String.contents, String.c_str, cstr]
    | some bytes =>
      have hz : cstr (List.replicate bytes.length NUL) = [] := by
        have := cstr_append_zeros [] bytes.length (by simp)
        simpa using this
      simp only [if_true]
      split <;> simp [String.clear, String.contents, String.c_str, hz, cstr]

/-- When the storage for `n` characters can be set, `assign(a, n)` returns 0
and leaves the first `n` characters of `a` (all of them when `n` is `npos`)
as the text. -/
theorem String.assign_n_contents (r : String) (p : List Char) (len : Nat) (f2 : List Char)
    (hres : r.resizable = true) (hw : r.writable = true ∨ r.mem = [])
    (hn : (if len = npos then strlen p else len) + 1 < 2 ^ 32)
    (halloc : (if len = npos then strlen p else len) + 1 ≤ f2.length) :
    ∃ ret, r.assign_n (some p) len (some f2) = some (0, ret) ∧
      ret.contents = (cstr p).take (if len = npos then strlen p else len) := by
  unfold String.assign_n
  simp only
  generalize (if len = npos then strlen p else len) = n at hn halloc ⊢
  have hcap : ∃ r1, r.set_capacity n (some f2) = (0, r1) ∧ r1.writable = true ∧
      n + 1 ≤ r1.mem.length ∧ r1.resizable = true := by
    unfold String.set_capacity String.data_set_capacity
    rw [Nat.mod_eq_of_lt hn]
    by_cases hfit : n + 1 ≤ r.mem.length
    · simp only [hfit, if_true]
      refine ⟨r, by simp, ?_, hfit, hres⟩
      rcases hw with h | h
      · exact h
      · rw [h] at hfit
        simp at hfit
    · simp only [hfit, if_false, hres, if_true]
      have henough : n + 1 ≤ r.mem.length + f2.length := by omega
      simp only [henough, if_true]
      refine ⟨⟨r.mem ++ f2, true, true⟩, by simp, rfl, ?_, rfl⟩
      simp only [List.length_append]
      omega
  obtain ⟨r1, h1, hw1, hlen1, _⟩ := hcap
  simp only [h1]
  have hclear : r1.clear = { r1 with mem := List.replicate r1.mem.length NUL } := by
    unfold String.clear
    rw [if_pos hw1]
  have hcdata : r1.clear.cdata = some (List.replicate r1.mem.length NUL) := by
    rw [hclear]
    unfold String.cdata
    simp [hw1]
  have hbytes : ((cstr p).take n ++ List.replicate (n - strlen p) NUL).length = n := by
    simp only [List.length_append, List.length_take, List.length_replicate, strlen]
    omega
  have hcopy : strncpy (List.replicate r1.mem.length NUL) p n =
      some ((cstr p).take n ++ List.replicate (n - strlen p) NUL ++
        List.replicate (r1.mem.length - n) NUL) := by
    unfold strncpy poke
    simp only [Nat.zero_add, List.take_zero, List.nil_append, List.length_replicate]
    rw [if_pos (by rw [hbytes]; omega), hbytes, List.drop_replicate]
  simp only [show ¬ ((0 : Int) < 0) by omega, if_false, hcdata, hcopy]
  refine ⟨_, rfl, ?_⟩
  unfold String.contents String.c_str
  simp only
  rw [List.append_assoc, ← List.replicate_add]
  exact cstr_append_zeros _ _ (fun c hc => mem_cstr_ne_NUL p c (List.mem_of_mem_take hc))

/-- C17: when the storage can be allocated and `pos < size()`,
`substr(pos, len)` holds the characters at the indices from `pos` up to (not
including) `min(pos + len, size())`, `len == npos` meaning up to the end, so
that its length is `min(len, size() - pos)`; for `pos >= size()` it is the
empty string; and `substr(0, npos)` holds the text of the string itself. -/
theorem C17_substr_characters (x : String) (pos len minimum_size : Nat)
    (fresh1 : Option (List Char)) (f2 : List Char)
    (hsize : x.size < npos) (hlen : len ≤ npos)
    (halloc : (if len = npos then x.size - pos else len) + 1 ≤ f2.length) :
    (pos < x.size →
      ∃ ret, x.substr pos len minimum_size fresh1 (some f2) = some ret ∧
        ret.contents = (x.contents.drop pos).take len ∧
        ret.size = min len (x.size - pos)) ∧
    (x.size ≤ pos →
      ∃ ret, x.substr pos len minimum_size fresh1 (some f2) = some ret ∧ ret.contents = []) ∧
    (pos = 0 → len = npos →
      ∃ ret, x.substr pos len minimum_size fresh1 (some f2) = some ret ∧
        ret.contents = x.contents) := by
  have hshape := String.ctor_shape minimum_size fresh1
  have hinner : pos < x.size →
      ∃ ret, x.substr pos len minimum_size fresh1 (some f2) = some ret ∧
        ret.contents = (x.contents.drop pos).take len ∧
        ret.size = min len (x.size - pos) := by
    intro hpos
    have hp : cstr (x.c_str.drop pos) = x.contents.drop pos :=
      cstr_drop x.c_str pos (le_of_lt hpos)
    have hplen : strlen (x.c_str.drop pos) = x.size - pos := by
      unfold strlen
      rw [hp]
      simp [String.contents, String.size, strlen]
    have hn : (if len = npos then strlen (x.c_str.drop pos) else len) + 1 < 2 ^ 32 := by
      rw [hplen]
      unfold npos at *
      split <;> omega
    obtain ⟨ret, hret, hcont⟩ := String.assign_n_contents (String.ctor minimum_size fresh1)
      (x.c_str.drop pos) len f2 hshape.1 hshape.2.1 hn (by rw [hplen]; exact halloc)
    have htake : ret.contents = (x.contents.drop pos).take len := by
      rw [hcont, hp, hplen]
      split
      · rename_i hnpos
        have hl : (x.contents.drop pos).length = x.size - pos := by
          simp [String.contents, String.size, strlen]
        rw [← hl, List.take_length, List.take_of_length_le]
        rw [hl, hnpos]
        omega
      · rfl
    refine ⟨ret, ?_, htake, ?_⟩
    · unfold String.substr
      rw [if_neg (by omega), hret]
    · have : ret.size = ret.contents.length := rfl
      rw [this, htake]
      simp [String.contents, String.size, strlen]
  refine ⟨hinner, ?_, ?_⟩
  · intro hpos
    refine ⟨String.ctor minimum_size fresh1, ?_, hshape.2.2⟩
    unfold String.substr
    rw [if_pos hpos]
  · intro hp0 hnpos
    by_cases hempty : x.size = 0
    · refine ⟨String.ctor minimum_size fresh1, ?_, ?_⟩
      · unfold String.substr
        rw [if_pos (by omega)]
      · rw [hshape.2.2]
        have : x.contents.length = 0 := hempty
        exact (List.length_eq_zero.mp this).symm
    · obtain ⟨ret, hret, hcont, _⟩ := hinner (by omega)
      refine ⟨ret, hret, ?_⟩
      rw [hcont, hp0, List.drop_zero, List.take_of_length_le]
      have : x.contents.length = x.size := rfl
      rw [this, hnpos]
      omega

/-- C17 witness: `substr(6, 3)` of `hello world` is `wor`. -/
theorem C17_substr_characters_witness :
    ((String.of_text "hello world".toList).size < npos ∧ 3 ≤ npos ∧
      (if 3 = npos then (String.of_text "hello world".toList).size - 6 else 3) + 1 ≤
        (List.replicate 8 'Q').length ∧
      6 < (String.of_text "hello world".toList).size) ∧
    (∃ ret, (String.of_text "hello world".toList).substr 6 3 16 (some (List.replicate 16 'Z'))
        (some (List.replicate 8 'Q')) = some ret ∧
      ret.contents = ((String.of_text "hello world".toList).contents.drop 6).take 3 ∧
      ret.size = min 3 ((String.of_text "hello world".toList).size - 6)) ∧
    ((String.of_text "hello world".toList).contents.drop 6).take 3 = "wor".toList :=
  ⟨by decide,
    (C17_substr_characters (String.of_text "hello world".toList) 6 3 16
      (some (List.replicate 16 'Z')) (List.replicate 8 'Q') (by decide) (by decide)
      (by decide)).1 (by decide),
    by decide⟩

/-! ## var::String: `append` -/

/-- The C string in storage is the storage up to the length of the string. -/
theorem cstr_eq_take (p : List Char) : cstr p = p.take (strlen p) := by
  unfold strlen cstr
  exact List.prefix_iff_eq_take.mp (List.takeWhile_prefix _)

/-- The byte behind a C string that ends inside of its storage is zero: the
storage is the string, a zero and the rest. -/
theorem cstr_split (p : List Char) (h : strlen p < p.length) :
    p = cstr p ++ NUL :: p.drop (strlen p + 1) := by
  have h1 : p = cstr p ++ p.dropWhile (fun c => c != NUL) :=
    (List.takeWhile_append_dropWhile _ p).symm
  have hlen : (p.dropWhile (fun c => c != NUL)).length = p.length - strlen p := by
    have := congrArg List.length h1
    simp only [List.length_append] at this
    unfold strlen
    omega
  cases hd : p.dropWhile (fun c => c != NUL) with
  | nil =>
    rw [hd] at hlen
    simp only [List.length_nil] at hlen
    omega
  | cons c rest =>
    have hc : c = NUL := by
      have := List.head_dropWhile_not (fun c => c != NUL) p (by rw [hd]; simp)
      simp only [hd, List.head_cons] at this
      simpa using this
    have hrest : rest = p.drop (strlen p + 1) := by
      have h2 : p.drop (strlen p) = c :: rest := by
        have h3 : p.drop (cstr p).length = (cstr p ++ c :: rest).drop (cstr p).length := by
          rw [← hd, ← h1]
        rw [List.drop_left] at h3
        exact h3
      rw [← List.drop_drop, h2]
      rfl
    rw [← hrest, ← hc, ← hd]
    exact h1

/-- Characters other than zero in front of a zero are the C string. -/
theorem cstr_append_NUL (a rest : List Char) (ha : ∀ c ∈ a, c ≠ NUL) :
    cstr (a ++ NUL :: rest) = a := by
  unfold cstr
  rw [List.takeWhile_append_of_pos (fun c hc => by simpa using ha c hc)]
  simp [NUL]

/-- Storage added behind a C string that ends inside of its storage does
not change the string. -/
theorem cstr_append_of_terminated (p g : List Char) (h : strlen p < p.length) :
    cstr (p ++ g) = cstr p := by
  conv_lhs => rw [cstr_split p h]
  rw [List.append_assoc, List.cons_append]
  exact cstr_append_NUL _ _ (mem_cstr_ne_NUL p)

/-- `strncat` on a C string that ends inside of its storage, with room for
the characters taken from `src` and the terminating zero: the string
afterwards is the old one followed by those characters. -/
theorem strncat_spec (dst src : List Char) (n : Nat) (hterm : strlen dst < dst.length)
    (hroom : strlen dst + ((cstr src).take n).length + 1 ≤ dst.length) :
    ∃ m, strncat dst src n = some m ∧ cstr m = cstr dst ++ (cstr src).take n ∧
      m.length = dst.length := by
  unfold strncat poke
  rw [if_pos hterm, if_pos (by simpa [Nat.add_assoc] using hroom)]
  refine ⟨_, rfl, ?_, ?_⟩
  · rw [← cstr_eq_take dst, List.append_assoc, List.append_assoc, List.singleton_append,
      ← List.append_assoc]
    exact cstr_append_NUL _ _ (fun c hc => by
      rcases List.mem_append.mp hc with h | h
      · exact mem_cstr_ne_NUL dst c h
      · exact mem_cstr_ne_NUL src c (List.mem_of_mem_take h))
  · simp only [List.length_append, List.length_take, List.length_drop, List.length_cons,
      List.length_nil]
    simp only [List.length_take] at hroom
    omega

/-- After `set_capacity(s)` with an allocator that grants the storage, the
storage is the old one with bytes added behind it, it holds at least `s + 1`
bytes and is writable. -/
theorem String.set_capacity_grows (x : String) (s : Nat) (f : List Char)
    (hres : x.resizable = true) (hw : x.writable = true ∨ x.mem = [])
    (hs : s + 1 < 2 ^ 32) (halloc : s + 1 ≤ x.mem.length + f.length) :
    ∃ g, (x.set_capacity s (some f)).2 = ⟨x.mem ++ g, true, true⟩ ∧
      s + 1 ≤ (x.mem ++ g).length ∧ (g = [] ∨ g = f) := by
  unfold String.set_capacity String.data_set_capacity
  rw [Nat.mod_eq_of_lt hs]
  by_cases hfit : s + 1 ≤ x.mem.length
  · simp only [hfit, if_true]
    refine ⟨[], ?_, by simpa using hfit, Or.inl rfl⟩
    have hwr : x.writable = true := by
      rcases hw with h | h
      · exact h
      · rw [h] at hfit
        simp at hfit
    cases x with
    | mk mem writable resizable =>
      simp only at hwr hres
      simp [hwr, hres]
  · simp only [hfit, if_false, hres, if_true, halloc]
    refine ⟨f, by simp, by simpa using halloc, Or.inr rfl⟩

/-- For a string that can be reallocated and holds its text in storage of its
own (or has none), `append(a)` with an allocator that grants the storage
returns 0 and leaves the old text followed by `a`; the size grows by
`strlen(a)`. `append` of a null pointer returns 0 and changes nothing. -/
theorem String.append_spec (x : String) (a f : List Char)
    (hres : x.resizable = true)
    (hwf : (x.writable = true ∧ x.size < x.mem.length) ∨ x.mem = [])
    (halloc : x.size + strlen a + 1 ≤ x.mem.length + f.length)
    (h32 : x.mem.length + f.length < 2 ^ 32) :
    x.append none (some f) = some (0, x) ∧
    ∃ ret, x.append (some a) (some f) = some (0, ret) ∧
      ret.contents = x.contents ++ cstr a ∧ ret.size = x.size + strlen a := by
  refine ⟨rfl, ?_⟩
  have hw : x.writable = true ∨ x.mem = [] := by
    rcases hwf with h | h
    · exact Or.inl h.1
    · exact Or.inr h
  obtain ⟨g, hg, hlen, hgf⟩ := x.set_capacity_grows (x.size + strlen a) f hres hw (by omega) halloc
  have hL : (x.mem ++ g).length < 2 ^ 32 := by
    rcases hgf with h | h <;> rw [h] <;> simp only [List.length_append, List.length_nil] <;> omega
  have hmain : ∃ ret, x.append (some a) (some f) = some (0, ret) ∧
      ret.contents = x.contents ++ cstr a := by
    unfold String.append
    simp only [Nat.mod_eq_of_lt (show x.size + strlen a < 2 ^ 32 by omega), hg]
    by_cases hzero : x.size = 0
    · simp only [hzero, if_true, String.clear, String.cdata, String.capacity]
      have hz : strlen (List.replicate (x.mem ++ g).length NUL) = 0 := by
        have := cstr_append_zeros [] (x.mem ++ g).length (by simp)
        simp only [List.nil_append] at this
        unfold strlen
        rw [this]
        rfl
      have hroom : strlen (List.replicate (x.mem ++ g).length NUL) +
          ((cstr a).take (((x.mem ++ g).length - 1 + 2 ^ 32 - 0) % 2 ^ 32)).length + 1 ≤
          (List.replicate (x.mem ++ g).length NUL).length := by
        rw [hz]
        simp only [List.length_take, List.length_replicate]
        have : (cstr a).length = strlen a := rfl
        omega
      obtain ⟨m, hm, hcm, _⟩ := strncat_spec (List.replicate (x.mem ++ g).length NUL) a
        (((x.mem ++ g).length - 1 + 2 ^ 32 - 0) % 2 ^ 32)
        (by rw [hz]; simp only [List.length_replicate]; omega) hroom
      have hne : (x.mem ++ g).length ≠ 0 := by omega
      simp only [List.length_replicate, hne, ne_eq, not_false_eq_true, if_true, hm]
      refine ⟨_, rfl, ?_⟩
      unfold String.contents String.c_str
      simp only
      rw [hcm]
      have hc0 : cstr x.mem = [] := List.length_eq_zero.mp hzero
      have hz' : cstr (List.replicate (x.mem ++ g).length NUL) = [] := List.length_eq_zero.mp hz
      rw [hz', hc0, List.nil_append, List.nil_append, List.take_of_length_le]
      have : (cstr a).length = strlen a := rfl
      omega
    · have hterm : x.size < x.mem.length := by
        rcases hwf with h | h
        · exact h.2
        · exfalso
          apply hzero
          unfold String.size String.c_str strlen cstr
          rw [h]
          rfl
      have hcs : cstr (x.mem ++ g) = cstr x.mem := cstr_append_of_terminated x.mem g hterm
      have hsl : strlen (x.mem ++ g) = x.size := by
        unfold strlen
        rw [hcs]
        rfl
      simp only [hzero, if_false, String.cdata, String.capacity, if_true]
      have hne : (x.mem ++ g).length ≠ 0 := by omega
      simp only [hne, ne_eq, not_false_eq_true, if_true]
      have hroom : strlen (x.mem ++ g) +
          ((cstr a).take (((x.mem ++ g).length - 1 + 2 ^ 32 - x.size) % 2 ^ 32)).length + 1 ≤
          (x.mem ++ g).length := by
        rw [hsl]
        simp only [List.length_take]
        have : (cstr a).length = strlen a := rfl
        omega
      obtain ⟨m, hm, hcm, _⟩ := strncat_spec (x.mem ++ g) a
        (((x.mem ++ g).length - 1 + 2 ^ 32 - x.size) % 2 ^ 32) (by rw [hsl]; omega) hroom
      simp only [hm]
      refine ⟨_, rfl, ?_⟩
      unfold String.contents String.c_str
      simp only
      rw [hcm, hcs, List.take_of_length_le]
      have : (cstr a).length = strlen a := rfl
      omega
  obtain ⟨ret, hret, hcont⟩ := hmain
  refine ⟨ret, hret, hcont, ?_⟩
  have : ret.size = ret.contents.length := rfl
  rw [this, hcont, List.length_append]
  rfl

/-- For a string that can be reallocated and holds its text in writable
storage of its own, `append(c)` with `c != 0` and an allocator that grants
the storage returns 0 and extends the text by exactly `c`. -/
theorem String.append_char_spec (x : String) (c : Char) (f : List Char)
    (hres : x.resizable = true) (hw : x.writable = true) (hterm : x.size < x.mem.length)
    (hc : c ≠ NUL)
    (halloc : x.size + 3 ≤ x.mem.length + f.length) (h32 : x.size + 3 < 2 ^ 32) :
    ∃ ret, x.append_char c (some f) = some (0, ret) ∧ ret.contents = x.contents ++ [c] := by
  obtain ⟨g, hg, hlen, _⟩ := x.set_capacity_grows (x.size + 1 + 1) f hres (Or.inl hw)
    (by omega) (by omega)
  have hcs : cstr (x.mem ++ g) = cstr x.mem := cstr_append_of_terminated x.mem g hterm
  have hsl : strlen (x.mem ++ g) = x.size := by
    unfold strlen
    rw [hcs]
    rfl
  have hsrc : cstr [c] = [c] := by
    unfold cstr
    simp [hc]
  have hroom : strlen (x.mem ++ g) + ((cstr [c]).take 1).length + 1 ≤ (x.mem ++ g).length := by
    rw [hsl, hsrc]
    simp only [List.take_succ_cons, List.take_zero, List.length_cons, List.length_nil]
    omega
  obtain ⟨m, hm, hcm, _⟩ := strncat_spec (x.mem ++ g) [c] 1 (by rw [hsl]; omega) hroom
  unfold String.append_char
  simp only [Nat.mod_eq_of_lt (show x.size + 1 + 1 < 2 ^ 32 by omega), hg, String.cdata,
    if_true, hm]
  refine ⟨_, rfl, ?_⟩
  unfold String.contents String.c_str
  simp only
  rw [hcm, hcs, hsrc]
  rfl

/-- C18 (evaluation at the failing inputs): `append("cd")` on the string
`ab`, whose storage of three bytes is full, returns 0 when the allocator
fails and leaves the text `ab`; `append('x')` on a string with no storage
appends to whatever the new storage holds, here the bytes `A`, 0, 0, and the
text becomes `Ax`, while `append("x")` clears the new storage first and the
text becomes `x`. -/
theorem C18_append_failing_inputs :
    (String.of_text "ab".toList).resizable = true ∧
    ((String.of_text "ab".toList).append (some "cd".toList) none).map
      (fun r => (r.1, r.2.contents)) = some (0, "ab".toList) ∧
    String.no_data.resizable = true ∧
    String.no_data.contents = [] ∧
    (String.no_data.append_char 'x' (some ['A', NUL, NUL])).map
      (fun r => (r.1, r.2.contents)) = some (0, "Ax".toList) ∧
    (String.no_data.append (some "x".toList) (some ['A', NUL, NUL])).map
      (fun r => (r.1, r.2.contents)) = some (0, "x".toList) := by
  decide

/-! ## var::String: `compare` -/

/-- `strcmp` finds two C strings equal exactly when they have the same
characters. -/
theorem strcmp_chars_eq_zero_iff : ∀ (a b : List Char), (∀ c ∈ a, c ≠ NUL) →
    (∀ c ∈ b, c ≠ NUL) → (strcmp_chars a b = 0 ↔ a = b)
  | [], [], _, _ => by simp [strcmp_chars]
  | [], d :: ds, _, hb => by
    simp only [strcmp_chars]
    constructor
    · intro h
      exact absurd (neg_eq_zero.mp h) (toNat_ne_zero d (hb d (List.mem_cons_self d ds)))
    · intro h
      cases h
  | c :: cs, [], ha, _ => by
    simp only [strcmp_chars]
    constructor
    · intro h
      exact absurd h (toNat_ne_zero c (ha c (List.mem_cons_self c cs)))
    · intro h
      cases h
  | c :: cs, d :: ds, ha, hb => by
    simp only [strcmp_chars, List.cons.injEq]
    by_cases hcd : c = d
    · rw [if_pos hcd]
      rw [strcmp_chars_eq_zero_iff cs ds (fun e he => ha e (List.mem_cons_of_mem c he))
        (fun e he => hb e (List.mem_cons_of_mem d he))]
      simp [hcd]
    · rw [if_neg hcd]
      constructor
      · intro h
        exact absurd (toNat_sub_eq_zero c d h) hcd
      · intro h
        exact absurd h.1 hcd

/-- Exchanging the arguments of `strcmp` negates the result. -/
theorem strcmp_chars_swap : ∀ (a b : List Char), strcmp_chars b a = -strcmp_chars a b
  | [], [] => by simp [strcmp_chars]
  | [], d :: ds => by simp [strcmp_chars]
  | c :: cs, [] => by simp [strcmp_chars]
  | c :: cs, d :: ds => by
    simp only [strcmp_chars]
    by_cases hcd : c = d
    · rw [if_pos hcd, if_pos hcd.symm]
      exact strcmp_chars_swap cs ds
    · rw [if_neg hcd, if_neg (fun e => hcd e.symm)]
      ring

/-- C19: `compare(s)` is `strcmp(s, c_str())` and is zero exactly when the
text of the string equals `s` character for character; `compare(const
String&)` is `compare(str.c_str())`; and for two strings `a`, `b` with
different texts `a.compare(b)` and `b.compare(a)` have opposite signs. -/
theorem C19_compare_strings (x y a b : String) (s : List Char)
    (hne : a.contents ≠ b.contents) :
    (x.compare (some s) = 0 ↔ x.contents = cstr s) ∧
    x.compare (some s) = strcmp s x.c_str ∧
    x.compare_String y = x.compare (some y.c_str) ∧
    ((a.compare_String b < 0 ∧ 0 < b.compare_String a) ∨
      (0 < a.compare_String b ∧ b.compare_String a < 0)) := by
  refine ⟨?_, rfl, rfl, ?_⟩
  · unfold String.compare strcmp String.contents
    simp only
    rw [strcmp_chars_eq_zero_iff _ _ (mem_cstr_ne_NUL s) (mem_cstr_ne_NUL x.c_str)]
    exact eq_comm
  · have hswap : b.compare_String a = -a.compare_String b := by
      unfold String.compare_String String.compare strcmp
      exact strcmp_chars_swap _ _
    have hnz : a.compare_String b ≠ 0 := by
      unfold String.compare_String String.compare strcmp
      simp only
      rw [Ne, strcmp_chars_eq_zero_iff _ _ (mem_cstr_ne_NUL b.c_str) (mem_cstr_ne_NUL a.c_str)]
      exact fun e => hne e.symm
    rw [hswap]
    rcases lt_or_gt_of_ne hnz with h | h
    · left
      exact ⟨h, by omega⟩
    · right
      exact ⟨h, by omega⟩

/-- C19 witness: the strings `abc` and `abd`. -/
theorem C19_compare_strings_witness :
    (String.of_text "abc".toList).contents ≠ (String.of_text "abd".toList).contents ∧
    (((String.of_text "abc".toList).compare (some "abc".toList) = 0 ↔
      (String.of_text "abc".toList).contents = cstr "abc".toList) ∧
    (String.of_text "abc".toList).compare (some "abc".toList) =
      strcmp "abc".toList (String.of_text "abc".toList).c_str ∧
    (String.of_text "abc".toList).compare_String (String.of_text "abd".toList) =
      (String.of_text "abc".toList).compare (some (String.of_text "abd".toList).c_str) ∧
    (((String.of_text "abc".toList).compare_String (String.of_text "abd".toList) < 0 ∧
        0 < (String.of_text "abd".toList).compare_String (String.of_text "abc".toList)) ∨
      (0 < (String.of_text "abc".toList).compare_String (String.of_text "abd".toList) ∧
        (String.of_text "abd".toList).compare_String (String.of_text "abc".toList) < 0))) :=
  ⟨by decide,
    C19_compare_strings (String.of_text "abc".toList) (String.of_text "abd".toList)
      (String.of_text "abc".toList) (String.of_text "abd".toList) "abc".toList (by decide)⟩

/-! ## var::String: `assign` -/

/-- The three outcomes of `Data::set_capacity(s)`: the storage is large
enough and stays; it is reallocated with the bytes the allocator adds; or
the call fails and the object stays as it was. -/
theorem String.data_set_capacity_cases (x : String) (s : Nat) (fresh : Option (List Char)) :
    (s ≤ x.mem.length ∧ x.data_set_capacity s fresh = (0, x)) ∨
    (¬ s ≤ x.mem.length ∧ x.resizable = true ∧
      ∃ bytes, fresh = some bytes ∧ s ≤ x.mem.length + bytes.length ∧
        x.data_set_capacity s fresh = (0, ⟨x.mem ++ bytes, true, true⟩)) ∨
    (¬ s ≤ x.mem.length ∧
      ¬ (x.resizable = true ∧ ∃ bytes, fresh = some bytes ∧ s ≤ x.mem.length + bytes.length) ∧
      x.data_set_capacity s fresh = (-1, x)) := by
  unfold String.data_set_capacity
  by_cases hfit : s ≤ x.mem.length
  · exact Or.inl ⟨hfit, by rw [if_pos hfit]⟩
  · rw [if_neg hfit]
    by_cases hres : x.resizable = true
    · rw [if_pos hres]
      cases fresh with
      | none => exact Or.inr (Or.inr ⟨hfit, by simp, rfl⟩)
      | some bytes =>
        by_cases henough : s ≤ x.mem.length + bytes.length
        · exact Or.inr (Or.inl ⟨hfit, hres, bytes, rfl, henough, by simp only [if_pos henough]⟩)
        · exact Or.inr (Or.inr ⟨hfit, by simp [henough], by simp only [if_neg henough]⟩)
    · rw [if_neg hres]
      exact Or.inr (Or.inr ⟨hfit, by simp [hres], rfl⟩)

/-- `set_capacity(s)` succeeds exactly when the storage holds `s + 1` bytes
already, or can be reallocated and the allocator grants that much. -/
theorem String.set_capacity_succeeds_iff (x : String) (s : Nat) (fresh : Option (List Char)) :
    ¬ (x.set_capacity s fresh).1 < 0 ↔
      ((s + 1) % 2 ^ 32 ≤ x.mem.length ∨
        (x.resizable = true ∧
          ∃ bytes, fresh = some bytes ∧ (s + 1) % 2 ^ 32 ≤ x.mem.length + bytes.length)) := by
  unfold String.set_capacity
  rcases String.data_set_capacity_cases x ((s + 1) % 2 ^ 32) fresh with
    ⟨hfit, hd⟩ | ⟨_, hres, bytes, hfresh, henough, hd⟩ | ⟨hfit, hno, hd⟩
  · rw [hd]
    simp only [show ¬ ((0 : Int) < 0) by omega, if_false, not_false_eq_true, true_iff]
    exact Or.inl hfit
  · rw [hd]
    simp only [show ¬ ((0 : Int) < 0) by omega, if_false, not_false_eq_true, true_iff]
    exact Or.inr ⟨hres, bytes, hfresh, henough⟩
  · rw [hd]
    simp only [show ((-1 : Int) < 0) by omega, if_true, not_true_eq_false, false_iff]
    rintro (h | h)
    · exact hfit h
    · exact hno h

end var

end StratifyAPI
